import Mathlib

/-!
# Huffman encoder (`src/src/encoding.cpp`): embedding and verified properties

The C++ program is embedded shallowly:

* a `char` is a `Char`, a `string` is a `List Char` (`Str`); characters are
  compared by their code;
* the library `Map<K,V>` is an association list kept in ascending key order
  (`Map.put` inserts or replaces, `Map.get` returns the value-initialised
  default for an absent key, as the library does);
* the library `PriorityQueue` is a list kept in ascending priority order in
  which entries of equal priority leave in the order they entered;
* a `HuffmanNode*` is a value of the inductive type `HuffmanNode`, the null
  pointer being `HuffmanNode.nil`;
* `int` counters are natural numbers (the counts of an input shorter than
  `2^31` bytes), and the `double` priorities, which are sums of such counts
  and therefore exact, are natural numbers too;
* the bit-oriented output file is the sequence of `writeHeader`/`writeBit`
  calls it receives, the bit-oriented input file is a header text and a
  sequence of bits.
-/

namespace Huffman

/-! ## Strings and the library containers -/

/-- A C++ `string`. -/
abbrev Str := List Char

/-- The sentinel `DEFAULT_NODE_CHAR = '\0'` of `encoding.cpp`. -/
def DEFAULT_NODE_CHAR : Char := Char.ofNat 0

/-- Modelled from the spec: the library `Map` is not among the sources. The
value-initialised default of a C++ type, which `Map::get` returns for an
absent key (the "library's default"). -/
class CppDefault (V : Type) where
  dflt : V

instance : CppDefault Nat := ⟨0⟩
instance : CppDefault Bool := ⟨false⟩
instance : CppDefault Char := ⟨DEFAULT_NODE_CHAR⟩
instance : CppDefault Str := ⟨[]⟩

/-- Modelled from the spec: the library `Map` is not among the sources. The
strict order in which the map keeps and enumerates its keys (its "stable
enumeration order"). -/
class KeyOrder (K : Type) where
  lt : K → K → Bool

/-- Characters are ordered by their code. -/
instance : KeyOrder Char := ⟨fun a b => decide (a.toNat < b.toNat)⟩

/-- Lexicographic order on strings, by character code. -/
def strLt : Str → Str → Bool
  | [], [] => false
  | [], _ :: _ => true
  | _ :: _, [] => false
  | a :: s, b :: t =>
    if a.toNat < b.toNat then true
    else if b.toNat < a.toNat then false
    else strLt s t

instance : KeyOrder Str := ⟨strLt⟩

/-- Modelled from the spec: the library `Map<K,V>` is not among the sources.
A mapping from keys to values, as the list of its entries in enumeration
order, which is ascending key order. -/
abbrev Map (K V : Type) := List (K × V)

/-- Modelled from the spec: `Map::containsKey` of the library map. -/
def Map.containsKey {K V : Type} [DecidableEq K] : Map K V → K → Bool
  | [], _ => false
  | (k', _) :: m, k => if k = k' then true else Map.containsKey m k

/-- Modelled from the spec: `Map::get` of the library map, the value stored for
the key, the default value of the type when the key is absent. -/
def Map.get {K V : Type} [DecidableEq K] [CppDefault V] : Map K V → K → V
  | [], _ => CppDefault.dflt
  | (k', v') :: m, k => if k = k' then v' else Map.get m k

/-- Modelled from the spec: `Map::put` of the library map, which replaces the
value of a present key and inserts an absent key at its place in the key
order. -/
def Map.put {K V : Type} [DecidableEq K] [KeyOrder K] : Map K V → K → V → Map K V
  | [], k, v => [(k, v)]
  | (k', v') :: m, k, v =>
    if k = k' then (k, v) :: m
    else if KeyOrder.lt k k' then (k, v) :: (k', v') :: m
    else (k', v') :: Map.put m k v

/-- Modelled from the spec: `Map::keys` of the library map, the keys in
enumeration order. -/
def Map.keys {K V : Type} (m : Map K V) : List K := m.map Prod.fst

/-- Well-formed maps: the keys are strictly ascending. -/
def Map.WF {V : Type} (m : Map Char V) : Prop :=
  List.Pairwise (fun a b => a.toNat < b.toNat) (Map.keys m)

/-! ## Frequency table -/

/-- `buildFrequencyTable`: the loop body, one character read by `input.get`. -/
def countChar (frequency : Map Char Nat) (ch : Char) : Map Char Nat :=
  if !Map.containsKey frequency ch then Map.put frequency ch 1
  else
    let current := Map.get frequency ch
    Map.put frequency ch (current + 1)

/-- `buildFrequencyTable(istream& input)`: reads the input to its end. -/
def buildFrequencyTable (input : Str) : Map Char Nat :=
  input.foldl countChar []

/-- Modelled from the spec: `HuffmanNode.h` is not among the sources. A
`HuffmanNode*`: the null pointer, or a node with its character `ch` and its
`zero` and `one` children. -/
inductive HuffmanNode where
  | nil : HuffmanNode
  | node (ch : Char) (zero one : HuffmanNode) : HuffmanNode
  deriving DecidableEq, Repr

/-- Modelled from the spec: the constructor `HuffmanNode(key)` of
`HuffmanNode.cpp`, which is not among the sources. A leaf holds its symbol and
has no children. -/
def HuffmanNode.leaf (key : Char) : HuffmanNode := HuffmanNode.node key HuffmanNode.nil HuffmanNode.nil

/-- Modelled from the spec: the constructor `HuffmanNode(zero, one)` of
`HuffmanNode.cpp`, which is not among the sources. An internal node holds no
symbol: its character is the sentinel (`DEFAULT_NODE_CHAR`, "per
HuffmanNode.cpp"). -/
def HuffmanNode.join (zero one : HuffmanNode) : HuffmanNode :=
  HuffmanNode.node DEFAULT_NODE_CHAR zero one

/-- The test `p == nullptr`. -/
def HuffmanNode.isNull : HuffmanNode → Bool
  | HuffmanNode.nil => true
  | HuffmanNode.node _ _ _ => false

/-- Modelled from the spec: the library `PriorityQueue<T>` is not among the
sources. A min-priority queue with ties broken by insertion order, as the list
of its entries `(priority, value)` in the order in which `dequeue` returns
them: lowest priority first, entries of equal priority in the order of their
`enqueue`. -/
abbrev PriorityQueue (T : Type) := List (Nat × T)

/-- Modelled from the spec: `PriorityQueue::enqueue(value, priority)` of the
library queue. The entry goes behind the entries of lower or equal priority. -/
def PriorityQueue.enqueue {T : Type} : PriorityQueue T → T → Nat → PriorityQueue T
  | [], value, priority => [(priority, value)]
  | (p, v) :: queue, value, priority =>
    if priority < p then (priority, value) :: (p, v) :: queue
    else (p, v) :: PriorityQueue.enqueue queue value priority

/-- `getQueue`: one childless node per key of the table, in the order of
`freqTable.keys()`, with the key's count as priority. -/
def getQueue (freqTable : Map Char Nat) : PriorityQueue HuffmanNode :=
  (Map.keys freqTable).foldl
    (fun queue key =>
      let node := HuffmanNode.leaf key
      let priority := Map.get freqTable key
      PriorityQueue.enqueue queue node priority)
    []

/-- Body of the `while(queue.size()>1)` loop of `buildEncodingTree`: the two
front entries are dequeued and their parent is enqueued with the sum of their
priorities. -/
def mergeStep : PriorityQueue HuffmanNode → PriorityQueue HuffmanNode
  | (zeroPriority, zeroNode) :: (onePriority, oneNode) :: queue =>
    let jointPriority := zeroPriority + onePriority
    let parent := HuffmanNode.join zeroNode oneNode
    PriorityQueue.enqueue queue parent jointPriority
  | queue => queue

/-- The `while(queue.size()>1)` loop of `buildEncodingTree`, at most `fuel`
iterations. -/
def mergeLoop : Nat → PriorityQueue HuffmanNode → PriorityQueue HuffmanNode
  | 0, queue => queue
  | fuel + 1, queue =>
    if queue.length > 1 then mergeLoop fuel (mergeStep queue) else queue

/-- Modelled from the spec: `PriorityQueue::peek` of the library queue, which is
not among the sources. The value at the front of the queue. On an empty queue
there is no value to return, a null pointer being a value like any other: the
call fails, which is the failure that the spec names EmptyInput and has reach
the caller (in `main.cpp` the callers of `compress` catch the
`ErrorException` of the library). `none` stands for this failure. -/
def PriorityQueue.peek {T : Type} : PriorityQueue T → Option T
  | [] => none
  | (_, value) :: _ => some value

/-- `buildEncodingTree`: the node at the front of the queue when the loop
ends, `none` when `peek` fails because the queue is empty; a null root would
be `some HuffmanNode.nil`. The loop is given as many iterations as the queue
has entries, which is as many as it takes or more (`mergeLoop_length`). -/
def buildEncodingTree (freqTable : Map Char Nat) : Option HuffmanNode :=
  let queue := getQueue freqTable
  PriorityQueue.peek (mergeLoop queue.length queue)

/-! ## Encoding map -/

/-- `buildEncodingMap(node, encodingMap, path)`: the recursive traversal. -/
def buildEncodingMapFrom : HuffmanNode → Map Char Str → Str → Map Char Str
  | HuffmanNode.nil, encodingMap, _ => encodingMap
  | HuffmanNode.node key zero one, encodingMap, path =>
    let afterZero := buildEncodingMapFrom zero encodingMap (path ++ ['0'])
    let afterThis :=
      if zero.isNull && one.isNull then
        if key ≠ DEFAULT_NODE_CHAR then Map.put afterZero key path else afterZero
      else afterZero
    buildEncodingMapFrom one afterThis (path ++ ['1'])

/-- `buildEncodingMap(root)`. -/
def buildEncodingMap (root : HuffmanNode) : Map Char Str :=
  buildEncodingMapFrom root [] []

/-! ## Header -/

/-- `encoding[index]`; the program only reads inside the string, and the
character one past the end is the terminating `'\0'`. -/
def charAt (encoding : Str) (index : Nat) : Char := encoding.getD index DEFAULT_NODE_CHAR

/-- `string::substr(pos, count)` where `count` was computed as an `int` and
converted to `size_t`: a negative count selects the rest of the string. -/
def substr (s : Str) (pos : Nat) (count : Int) : Str :=
  if count < 0 then s.drop pos else (s.drop pos).take count.toNat

/-- `isBeginLeaf`. -/
def isBeginLeaf (encoding : Str) (index : Nat) : Bool :=
  let outer := index + 2
  if outer < encoding.length then
    charAt encoding index == '(' && charAt encoding outer == '.'
  else false

/-- `isEndLeaf`; `index == encoding.size()-1` is `index + 1 == size` for the
indices below the size with which it is called. -/
def isEndLeaf (encoding : Str) (index : Nat) : Bool :=
  if charAt encoding index == ')' && index + 1 == encoding.length then true
  else
    let outer := index + 1
    if outer < encoding.length then
      charAt encoding index == ')' && charAt encoding outer == '('
    else false

/-- `getEncodingCount`: the loop over `i = 0 .. size-1`. -/
def getEncodingCount (encoding : Str) : Nat :=
  (List.range encoding.length).foldl
    (fun count i => if isBeginLeaf encoding i then count + 1 else count) 0

/-- The loop of `getDecodedChar` over the remaining indices `i`. -/
def getDecodedCharLoop (encoding : Str) (index : Nat) : List Nat → Nat → Char
  | [], _ => DEFAULT_NODE_CHAR
  | i :: rest, leafCount =>
    if isBeginLeaf encoding i && leafCount == index then charAt encoding (i + 1)
    else if isBeginLeaf encoding i then getDecodedCharLoop encoding index rest (leafCount + 1)
    else getDecodedCharLoop encoding index rest leafCount

/-- `getDecodedChar`. -/
def getDecodedChar (encoding : Str) (index : Nat) : Char :=
  getDecodedCharLoop encoding index (List.range encoding.length) 0

/-- The inner loop of `getDecodedPath` over the remaining indices `j`: the
substring returned at the first `j` that ends a record. -/
def getDecodedPathInner (encoding : Str) (i : Nat) : List Nat → Option Str
  | [] => none
  | j :: rest =>
    if isEndLeaf encoding j then
      let pathBegins := i + 3
      let pathEnds := j
      some (substr encoding pathBegins ((pathEnds : Int) - (pathBegins : Int)))
    else getDecodedPathInner encoding i rest

/-- The outer loop of `getDecodedPath` over the remaining indices `i`. -/
def getDecodedPathLoop (encoding : Str) (index : Nat) : List Nat → Nat → Str
  | [], _ => "DEFAULT_NODE_CHAR".toList
  | i :: rest, leafCount =>
    let found :=
      if isBeginLeaf encoding i && leafCount == index then
        getDecodedPathInner encoding i (List.range' i (encoding.length - i))
      else none
    match found with
    | some decodedPath => decodedPath
    | none =>
      if isBeginLeaf encoding i then getDecodedPathLoop encoding index rest (leafCount + 1)
      else getDecodedPathLoop encoding index rest leafCount

/-- `getDecodedPath`. -/
def getDecodedPath (encoding : Str) (index : Nat) : Str :=
  getDecodedPathLoop encoding index (List.range encoding.length) 0

/-- `flattenTreeToHeader`. -/
def flattenTreeToHeader (root : HuffmanNode) : Str :=
  let encodingMap := buildEncodingMap root
  (Map.keys encodingMap).foldl
    (fun header key =>
      let value := Map.get encodingMap key
      let node := [key]
      let increment := if key ≠ DEFAULT_NODE_CHAR then ['('] ++ node ++ ['.'] ++ value ++ [')'] else []
      header ++ increment)
    []

/-- The step `if(root->zero == nullptr) root->zero = new HuffmanNode(nullptr, nullptr)`
seen from the child: an absent child is replaced by a fresh childless node. -/
def HuffmanNode.orFresh : HuffmanNode → HuffmanNode
  | HuffmanNode.nil => HuffmanNode.join HuffmanNode.nil HuffmanNode.nil
  | t => t

/-- `recreateTreeFromHeader(header, root, key, path)`: places one leaf. The
function is only ever entered with an allocated `root`; the null case is
there for totality. -/
def recreateLeaf : HuffmanNode → Char → Str → HuffmanNode
  | root, _, [] => root
  | HuffmanNode.nil, _, _ :: _ => HuffmanNode.nil
  | HuffmanNode.node ch zero one, key, [currentNode] =>
    if currentNode = '0' then HuffmanNode.node ch (HuffmanNode.leaf key) one
    else HuffmanNode.node ch zero (HuffmanNode.leaf key)
  | HuffmanNode.node ch zero one, key, currentNode :: shortened =>
    if currentNode = '0' then
      HuffmanNode.node ch (recreateLeaf zero.orFresh key shortened) one
    else
      HuffmanNode.node ch zero (recreateLeaf one.orFresh key shortened)

/-- `recreateTreeFromHeader(header, root, keys, paths)`: the loop over
`i = 0 .. keys.size()-1`; `keys` and `paths` have the same length. -/
def recreateAll : HuffmanNode → List Char → List Str → HuffmanNode
  | root, key :: keys, path :: paths => recreateAll (recreateLeaf root key path) keys paths
  | root, _, _ => root

/-- `recreateTreeFromHeader(header, root)`. -/
def recreateInto (header : Str) (root : HuffmanNode) : HuffmanNode :=
  let indices := List.range (getEncodingCount header)
  let keys := indices.map (fun i => getDecodedChar header i)
  let paths := indices.map (fun i => getDecodedPath header i)
  recreateAll root keys paths

/-- `recreateTreeFromHeader(encoding)`. -/
def recreateTreeFromHeader (encoding : Str) : HuffmanNode :=
  let root := HuffmanNode.join HuffmanNode.nil HuffmanNode.nil
  recreateInto encoding root

/-! ## Compression -/

/-- Modelled from the spec: `HuffmanFile.h` is not among the sources. A call
received by the bit-oriented output file, `writeHeader(text)` or
`writeBit(bit)`. -/
inductive OutCall where
  | writeHeader (text : Str) : OutCall
  | writeBit (bit : Nat) : OutCall
  deriving DecidableEq, Repr

/-- Modelled from the spec: the collaborator `HuffmanOutputFile`, as the
sequence of calls made on it. -/
abbrev HuffmanOutputFile := List OutCall

/-- `std::stoi` on a one-character string: the digit's value, or `none` for
the exception thrown when the string holds no number. -/
def stoi (txt : Str) : Option Nat :=
  match txt with
  | [c] => if c.isDigit then some (c.toNat - 48) else none
  | _ => none

/-- `getBit`. -/
def getBit (txt : Str) (position : Nat) : Option Nat :=
  stoi (substr txt position 1)

/-- The inner loop of `compressLine` over the remaining indices `j` of the
code of one character. -/
def writeCode (encoded : Str) : List Nat → HuffmanOutputFile → Option HuffmanOutputFile
  | [], output => some output
  | j :: rest, output =>
    match getBit encoded j with
    | none => none
    | some bit => writeCode encoded rest (output ++ [OutCall.writeBit bit])

/-- `compressLine`: the loop over the characters of the line; `none` when
`getBit` throws. -/
def compressLine : Str → Map Char Str → HuffmanOutputFile → Option HuffmanOutputFile
  | [], _, output => some output
  | ch :: line, encodingMap, output =>
    let encoded := Map.get encodingMap ch
    match writeCode encoded (List.range encoded.length) output with
    | none => none
    | some output1 => compressLine line encodingMap output1

/-- `getline(input, line)` on the unread rest of the stream: `none` when the
read fails (nothing left to read), otherwise the line without its newline and
the rest of the stream after it. A last line without newline is read
successfully. -/
def getline : Str → Option (Str × Str)
  | [] => none
  | c :: rest =>
    if c = '\n' then some ([], rest)
    else
      match getline rest with
      | none => some ([c], [])
      | some (line, rest1) => some (c :: line, rest1)

/-- The `while (input)` loop of `compressFile`, at most `fuel` iterations. -/
def compressFileLoop (encodingMap : Map Char Str) :
    Nat → Option (Str × Str) → HuffmanOutputFile → Option HuffmanOutputFile
  | 0, _, output => some output
  | _ + 1, none, output => some output
  | fuel + 1, some (line, rest), output =>
    match compressLine (line ++ ['\n']) encodingMap output with
    | none => none
    | some output1 => compressFileLoop encodingMap fuel (getline rest) output1

/-- `compressFile`, on an output file that has received nothing yet. Every
iteration of the loop consumes at least one character, so the loop runs at
most `input.length` times (`compressFileLoop_eq`). -/
def compressFile (input header : Str) (encodingMap : Map Char Str) : Option HuffmanOutputFile :=
  let output := [OutCall.writeHeader (header ++ ['\n'])]
  compressFileLoop encodingMap (input.length + 1) (getline input) output

/-- `compress`: `none` when `buildEncodingTree` fails, which is before anything
is written, so that neither header nor payload is produced, or when `getBit`
throws. The stream is rewound between the two passes, so both read the same
`input`. -/
def compress (input : Str) : Option HuffmanOutputFile :=
  let freqTable := buildFrequencyTable input
  match buildEncodingTree freqTable with
  | none => none
  | some encodingTree =>
    let encodingMap := buildEncodingMap encodingTree
    let header := flattenTreeToHeader encodingTree
    compressFile input header encodingMap

/-! ## Decompression -/

/-- Modelled from the spec: the collaborator `HuffmanInputFile`, as the header
text returned by `readHeader` and the bits returned by the successive
`readBit` calls before the end-of-stream value. -/
structure HuffmanInputFile where
  header : Str
  bits : List Nat
  deriving DecidableEq, Repr

/-- The header text written to an output file. -/
def writtenHeader : HuffmanOutputFile → Str
  | [] => []
  | OutCall.writeHeader text :: rest => text ++ writtenHeader rest
  | OutCall.writeBit _ :: rest => writtenHeader rest

/-- The bits written to an output file, in order. -/
def writtenBits : HuffmanOutputFile → List Nat
  | [] => []
  | OutCall.writeHeader _ :: rest => writtenBits rest
  | OutCall.writeBit bit :: rest => bit :: writtenBits rest

/-- The input file that holds exactly the header and the bits written to an
output file. -/
def HuffmanInputFile.ofOutput (output : HuffmanOutputFile) : HuffmanInputFile :=
  { header := writtenHeader output, bits := writtenBits output }

/-- `getValidKey(encodingValue, encodingMap)`. -/
def getValidKey (encodingValue : Str) (encodingMap : Map Char Str) : Char :=
  (Map.keys encodingMap).foldl
    (fun validKey encodingKey =>
      let keyValue := Map.get encodingMap encodingKey
      if encodingValue = keyValue then encodingKey else validKey)
    '*'

/-- `getValidKey(encodingValue, encodingMap, charCache)`: the result and the
cache after the call. -/
def getValidKeyCached (encodingValue : Str) (encodingMap : Map Char Str)
    (charCache : Map Str Char) : Char × Map Str Char :=
  if Map.containsKey charCache encodingValue then
    (Map.get charCache encodingValue, charCache)
  else
    let actual := getValidKey encodingValue encodingMap
    (actual, Map.put charCache encodingValue actual)

/-- The loop of `isValidValueL2` over the remaining keys. -/
def isValidValueL2Loop (encodingValue : Str) (encodingMap : Map Char Str) : List Char → Bool
  | [] => false
  | encodingKey :: rest =>
    let keyValue := Map.get encodingMap encodingKey
    if encodingValue = keyValue then true
    else isValidValueL2Loop encodingValue encodingMap rest

/-- `isValidValueL2`. -/
def isValidValueL2 (encodingValue : Str) (encodingMap : Map Char Str) : Bool :=
  isValidValueL2Loop encodingValue encodingMap (Map.keys encodingMap)

/-- `isValidValueL1`: the result and the cache after the call. -/
def isValidValueL1 (encodingValue : Str) (encodingMap : Map Char Str)
    (isValidCache : Map Str Bool) : Bool × Map Str Bool :=
  if Map.containsKey isValidCache encodingValue then
    (Map.get isValidCache encodingValue, isValidCache)
  else
    let actual := isValidValueL2 encodingValue encodingMap
    (actual, Map.put isValidCache encodingValue actual)

/-- `std::to_string(int)` on a value that is not negative. -/
def to_string (n : Nat) : Str := Nat.toDigits 10 n

/-- `writeBit(char ch, ostream& output)`: appends one character to the output. -/
def writeBit (ch : Char) (output : Str) : Str := output ++ [ch]

/-- The `while (bit != -1)` loop of `decompressFile` over the bits that are
still to be read. -/
def decompressLoop (encodingMap : Map Char Str) :
    List Nat → Str → Map Str Bool → Map Str Char → Str → Str
  | [], _, _, _, output => output
  | bit :: rest, encodedChar, isValidCache, charCache, output =>
    let encodedChar1 := encodedChar ++ to_string bit
    let valid := isValidValueL1 encodedChar1 encodingMap isValidCache
    if valid.1 then
      let found := getValidKeyCached encodedChar1 encodingMap charCache
      decompressLoop encodingMap rest [] valid.2 found.2 (writeBit found.1 output)
    else
      decompressLoop encodingMap rest encodedChar1 valid.2 charCache output

/-- `decompressFile`, on the bits left in the input file and an empty output
stream; the result is what the output stream holds at the end. -/
def decompressFile (bits : List Nat) (encodingMap : Map Char Str) : Str :=
  decompressLoop encodingMap bits [] [] [] []

/-- `decompress`: what the output stream holds at the end. -/
def decompress (input : HuffmanInputFile) : Str :=
  let encoding := input.header
  let cleanEncoding := substr encoding 0 ((encoding.length : Int) - 1)
  let encodingTree := recreateTreeFromHeader cleanEncoding
  let encodingMap := buildEncodingMap encodingTree
  decompressFile input.bits encodingMap


/-! ## Vocabulary of the statements -/

/-- The leaves of a tree (the nodes without children) in traversal order, each
with its character and the route from the root to it: `'0'` for a step into
`zero`, `'1'` for a step into `one`. -/
def leafPaths : HuffmanNode → List (Char × Str)
  | HuffmanNode.nil => []
  | HuffmanNode.node ch zero one =>
    if zero.isNull && one.isNull then [(ch, [])]
    else
      (leafPaths zero).map (fun e => (e.1, '0' :: e.2)) ++
        (leafPaths one).map (fun e => (e.1, '1' :: e.2))

/-- The characters held by the leaves of a tree, in traversal order. -/
def leafSymbols (t : HuffmanNode) : List Char := (leafPaths t).map Prod.fst

/-- The entries put one after the other into a map. -/
def putAll (m : Map Char Str) (entries : List (Char × Str)) : Map Char Str :=
  entries.foldl (fun acc e => Map.put acc e.1 e.2) m

/-- Trees made of childless nodes and of `HuffmanNode(zero, one)` nodes over
two such trees: every node has no child or two, and the nodes with children
hold the sentinel. -/
def HuffmanNode.isFull : HuffmanNode → Bool
  | HuffmanNode.nil => false
  | HuffmanNode.node ch zero one =>
    (zero.isNull && one.isNull) ||
      (ch == DEFAULT_NODE_CHAR && HuffmanNode.isFull zero && HuffmanNode.isFull one)

/-- The queue is in ascending priority order. -/
def PriorityQueue.Sorted {T : Type} (queue : PriorityQueue T) : Prop :=
  List.Pairwise (fun a b => a.1 ≤ b.1) queue

/-- The characters held by the leaves of the trees of a queue. -/
def queueSymbols (queue : PriorityQueue HuffmanNode) : List Char :=
  queue.flatMap (fun e => leafSymbols e.2)

/-- The queue of `buildEncodingTree` after `k` iterations of its loop. -/
def queueAfter (freqTable : Map Char Nat) (k : Nat) : PriorityQueue HuffmanNode :=
  mergeStep^[k] (getQueue freqTable)

/-- The bit that `getBit` reads from a digit character of a path. -/
def bitOf (c : Char) : Nat := c.toNat - 48

/-- The concatenation, character by character, of the bits of the paths that a
map gives to the characters of a text, with nothing between them. -/
def codeBits (encodingMap : Map Char Str) (text : Str) : List Nat :=
  text.flatMap (fun ch => (Map.get encodingMap ch).map bitOf)

/-- The decoder of `decompressFile` with the two caches left out: every lookup
is made by `isValidValueL2` and by the uncached `getValidKey`. -/
def decodeLoop (encodingMap : Map Char Str) : List Nat → Str → Str → Str
  | [], _, output => output
  | bit :: rest, encodedChar, output =>
    let encodedChar1 := encodedChar ++ to_string bit
    if isValidValueL2 encodedChar1 encodingMap then
      decodeLoop encodingMap rest [] (writeBit (getValidKey encodedChar1 encodingMap) output)
    else
      decodeLoop encodingMap rest encodedChar1 output

/-- The paths of a map are strings of `'0'` and `'1'`. -/
def Map.BitPaths (m : Map Char Str) : Prop :=
  ∀ k ∈ Map.keys m, ∀ c ∈ Map.get m k, c = '0' ∨ c = '1'

/-- No path of a map is a prefix of the path of another key. -/
def Map.PrefixFree (m : Map Char Str) : Prop :=
  ∀ a ∈ Map.keys m, ∀ b ∈ Map.keys m, a ≠ b → ¬ (Map.get m a <+: Map.get m b)

/-- The validity cache holds results of `isValidValueL2` only. -/
def ValidCacheOk (encodingMap : Map Char Str) (isValidCache : Map Str Bool) : Prop :=
  ∀ v, Map.containsKey isValidCache v = true →
    Map.get isValidCache v = isValidValueL2 v encodingMap

/-- The character cache holds results of the uncached `getValidKey` only. -/
def CharCacheOk (encodingMap : Map Char Str) (charCache : Map Str Char) : Prop :=
  ∀ v, Map.containsKey charCache v = true →
    Map.get charCache v = getValidKey v encodingMap

/-- The record that the header holds for an entry of the encoding map:
`(`, the symbol, `.`, the path, `)`. -/
def record (e : Char × Str) : Str := '(' :: e.1 :: '.' :: (e.2 ++ [')'])

/-- The header made of the records of the entries, with nothing between them. -/
def headerOf (entries : List (Char × Str)) : Str := entries.flatMap record

/-- A record begins at the start of the text: `(`, any character, `.`. -/
def beginsRecord : Str → Bool
  | a :: _ :: c :: _ => a == '(' && c == '.'
  | _ => false

/-- A record ends at the start of the text: `)` at the end of the text or
before `(`. -/
def endsRecord : Str → Bool
  | [] => false
  | [a] => a == ')'
  | a :: b :: _ => a == ')' && b == '('

/-- What `recreateTreeFromHeader(header, root, key, path)` makes of the child
it steps into, given the rest of the path after that step: a new leaf when
the path ends there, otherwise the child, created if it was absent, with the
leaf placed below it. -/
def place (child : HuffmanNode) (key : Char) (rest : Str) : HuffmanNode :=
  match rest with
  | [] => HuffmanNode.leaf key
  | _ :: _ => recreateLeaf child.orFresh key rest

/-- The leaves of a list placed one after the other below a child. -/
def placeAll (child : HuffmanNode) (entries : List (Char × Str)) : HuffmanNode :=
  entries.foldl (fun x e => place x e.1 e.2) child

/-- The leaves of a list placed one after the other in a tree: the loop of
`recreateTreeFromHeader(header, root, keys, paths)`. -/
def recreateFold (root : HuffmanNode) (entries : List (Char × Str)) : HuffmanNode :=
  entries.foldl (fun r e => recreateLeaf r e.1 e.2) root

/-- The entries whose path starts with `'0'`, without that first step. -/
def zeroSide (entries : List (Char × Str)) : List (Char × Str) :=
  entries.filterMap (fun e =>
    match e.2 with
    | [] => none
    | c :: rest => if c = '0' then some (e.1, rest) else none)

/-- The entries whose path starts with another character than `'0'`, without
that first step. -/
def oneSide (entries : List (Char × Str)) : List (Char × Str) :=
  entries.filterMap (fun e =>
    match e.2 with
    | [] => none
    | c :: rest => if c = '0' then none else some (e.1, rest))

/-- No path of the list is a prefix of the path of another entry of the list. -/
def PathsPrefixFree (entries : List (Char × Str)) : Prop :=
  List.Pairwise (fun a b => ¬ (a.2 <+: b.2) ∧ ¬ (b.2 <+: a.2)) entries

/-- The text that the loop of `compressFile` hands to `compressLine`, line by
line: the input, with a newline added when the input does not end with one. -/
def fedText : Str → Str
  | [] => []
  | [c] => if c = '\n' then [c] else [c, '\n']
  | c :: d :: rest => c :: fedText (d :: rest)

/-- The weighted path length of a tree for a frequency table: the sum, over
the leaves, of the count of the leaf's character times the depth of the leaf. -/
def weightedPathLength (freqTable : Map Char Nat) (t : HuffmanNode) : Nat :=
  ((leafPaths t).map (fun e => Map.get freqTable e.1 * e.2.length)).sum

/-- The sum of the counts of the characters at the leaves of a tree. -/
def treeWeight (freqTable : Map Char Nat) (t : HuffmanNode) : Nat :=
  ((leafPaths t).map (fun e => Map.get freqTable e.1)).sum

/-- The sum of the joint priorities that the loop of `buildEncodingTree`
gives to the parents it creates, in at most `fuel` iterations. -/
def mergeCost : Nat → PriorityQueue HuffmanNode → Nat
  | 0, _ => 0
  | fuel + 1, (zeroPriority, zeroNode) :: (onePriority, oneNode) :: queue =>
    zeroPriority + onePriority +
      mergeCost fuel (mergeStep ((zeroPriority, zeroNode) :: (onePriority, oneNode) :: queue))
  | _ + 1, _ => 0

/-- Cost of a list of (weight, depth) pairs: the sum of weight times depth. -/
def depthCost (l : List (Nat × Nat)) : Nat := (l.map (fun e => e.1 * e.2)).sum

/-- Kraft sum of a list of (weight, depth) pairs, scaled by `2 ^ D`. -/
def kraftSum (D : Nat) (l : List (Nat × Nat)) : Nat := (l.map (fun e => 2 ^ (D - e.2))).sum

/-- The node found at a position of a tree, the null pointer when there is
none: the position is reached from the root by a step into `zero` for `'0'`
and into `one` for any other character, as `recreateTreeFromHeader` steps. -/
def subtreeAt : HuffmanNode → Str → HuffmanNode
  | t, [] => t
  | HuffmanNode.nil, _ :: _ => HuffmanNode.nil
  | HuffmanNode.node _ zero one, c :: rest =>
    if c = '0' then subtreeAt zero rest else subtreeAt one rest

/-- The loop of `decompressFile` again, followed to its end for what it
leaves in `encodedChar`: the accumulated bit-string at the moment the bit
source is exhausted. -/
def decompressLoopPending (encodingMap : Map Char Str) :
    List Nat → Str → Map Str Bool → Map Str Char → Str
  | [], encodedChar, _, _ => encodedChar
  | bit :: rest, encodedChar, isValidCache, charCache =>
    let encodedChar1 := encodedChar ++ to_string bit
    let valid := isValidValueL1 encodedChar1 encodingMap isValidCache
    if valid.1 then
      let found := getValidKeyCached encodedChar1 encodingMap charCache
      decompressLoopPending encodingMap rest [] valid.2 found.2
    else
      decompressLoopPending encodingMap rest encodedChar1 valid.2 charCache

/-- The accumulated bit-string of `decompressFile` when the bit source is
exhausted. -/
def pendingCode (bits : List Nat) (encodingMap : Map Char Str) : Str :=
  decompressLoopPending encodingMap bits [] [] []

/-- The accumulated bit-string left by the decoder without caches. -/
def decodePending (encodingMap : Map Char Str) : List Nat → Str → Str
  | [], encodedChar => encodedChar
  | bit :: rest, encodedChar =>
    let encodedChar1 := encodedChar ++ to_string bit
    if isValidValueL2 encodedChar1 encodingMap then decodePending encodingMap rest []
    else decodePending encodingMap rest encodedChar1

/-- The results of a sequence of `isValidValueL1` queries made one after the
other with the same map, each on the cache that the queries before it left. -/
def runIsValidValueL1 (encodingMap : Map Char Str) : List Str → Map Str Bool → List Bool
  | [], _ => []
  | encodingValue :: rest, isValidCache =>
    (isValidValueL1 encodingValue encodingMap isValidCache).1 ::
      runIsValidValueL1 encodingMap rest (isValidValueL1 encodingValue encodingMap isValidCache).2

/-- The results of a sequence of cached `getValidKey` queries made one after
the other with the same map, each on the cache that the queries before it
left. -/
def runGetValidKey (encodingMap : Map Char Str) : List Str → Map Str Char → List Char
  | [], _ => []
  | encodingValue :: rest, charCache =>
    (getValidKeyCached encodingValue encodingMap charCache).1 ::
      runGetValidKey encodingMap rest (getValidKeyCached encodingValue encodingMap charCache).2

/-- Every node of the tree has no child or two children. -/
def HuffmanNode.zeroOrTwo : HuffmanNode → Bool
  | HuffmanNode.nil => true
  | HuffmanNode.node _ zero one =>
    (zero.isNull == one.isNull) && HuffmanNode.zeroOrTwo zero && HuffmanNode.zeroOrTwo one

/-- The number of nodes of the tree that have a child. -/
def HuffmanNode.internalCount : HuffmanNode → Nat
  | HuffmanNode.nil => 0
  | HuffmanNode.node _ zero one =>
    (if zero.isNull && one.isNull then 0 else 1) +
      HuffmanNode.internalCount zero + HuffmanNode.internalCount one

/-- The lines that the `while (input)` loop of `compressFile` hands to
`compressLine`, one per iteration, each with the newline that the loop adds to
it: the arguments of the calls `compressLine(line+"\n", ...)`, at most `fuel`
of them. -/
def linesFed : Nat → Option (Str × Str) → List Str
  | 0, _ => []
  | _ + 1, none => []
  | fuel + 1, some (line, rest) => (line ++ ['\n']) :: linesFed fuel (getline rest)

/-- The characters held by all the nodes of a tree, with or without children. -/
def nodeSymbols : HuffmanNode → List Char
  | HuffmanNode.nil => []
  | HuffmanNode.node ch zero one => ch :: (nodeSymbols zero ++ nodeSymbols one)

/-- The tree without what it has at a position, the node there and everything
below it; the position is reached as in `subtreeAt`. -/
def pruneAt : HuffmanNode → Str → HuffmanNode
  | _, [] => HuffmanNode.nil
  | HuffmanNode.nil, _ :: _ => HuffmanNode.nil
  | HuffmanNode.node ch zero one, c :: rest =>
    if c = '0' then HuffmanNode.node ch (pruneAt zero rest) one
    else HuffmanNode.node ch zero (pruneAt one rest)

/-! ## Header parsing with every access to the string checked -/

/-- `encoding[index]` with the index checked: `none` when the index is not
below the size of the string. -/
def charAtChecked (encoding : Str) (index : Nat) : Option Char := encoding[index]?

/-- `string::substr(pos, count)` with its arguments checked: `none` when the
position is beyond the size of the string, where the library throws, or when
the count, computed as an `int`, is negative. -/
def substrChecked (s : Str) (pos : Nat) (count : Int) : Option Str :=
  if pos ≤ s.length ∧ 0 ≤ count then some ((s.drop pos).take count.toNat) else none

/-- `isBeginLeaf` with every read checked; `&&` reads its right operand only
when the left one holds. -/
def isBeginLeafChecked (encoding : Str) (index : Nat) : Option Bool :=
  let outer := index + 2
  if outer < encoding.length then
    match charAtChecked encoding index with
    | none => none
    | some a =>
      if a == '(' then
        match charAtChecked encoding outer with
        | none => none
        | some b => some (b == '.')
      else some false
  else some false

/-- `isEndLeaf` with every read checked. -/
def isEndLeafChecked (encoding : Str) (index : Nat) : Option Bool :=
  match charAtChecked encoding index with
  | none => none
  | some a =>
    if a == ')' && index + 1 == encoding.length then some true
    else
      let outer := index + 1
      if outer < encoding.length then
        if a == ')' then
          match charAtChecked encoding outer with
          | none => none
          | some b => some (b == '(')
        else some false
      else some false

/-- The loop of `getEncodingCount` over the remaining indices `i`, with every
read checked. -/
def getEncodingCountLoopChecked (encoding : Str) : List Nat → Nat → Option Nat
  | [], count => some count
  | i :: rest, count =>
    match isBeginLeafChecked encoding i with
    | none => none
    | some b => getEncodingCountLoopChecked encoding rest (if b then count + 1 else count)

/-- `getEncodingCount` with every read checked. -/
def getEncodingCountChecked (encoding : Str) : Option Nat :=
  getEncodingCountLoopChecked encoding (List.range encoding.length) 0

/-- The loop of `getDecodedChar` over the remaining indices `i`, with every
read checked, the `substr(i, 4)` of the debugging snippet included. -/
def getDecodedCharLoopChecked (encoding : Str) (index : Nat) : List Nat → Nat → Option Char
  | [], _ => some DEFAULT_NODE_CHAR
  | i :: rest, leafCount =>
    match substrChecked encoding i 4 with
    | none => none
    | some _ =>
      match isBeginLeafChecked encoding i with
      | none => none
      | some b =>
        if b && leafCount == index then charAtChecked encoding (i + 1)
        else if b then getDecodedCharLoopChecked encoding index rest (leafCount + 1)
        else getDecodedCharLoopChecked encoding index rest leafCount

/-- `getDecodedChar` with every read checked. -/
def getDecodedCharChecked (encoding : Str) (index : Nat) : Option Char :=
  getDecodedCharLoopChecked encoding index (List.range encoding.length) 0

/-- The inner loop of `getDecodedPath` over the remaining indices `j`, with
every read checked: `none` for an access out of range, `some none` when no
`j` ends a record. -/
def getDecodedPathInnerChecked (encoding : Str) (i : Nat) : List Nat → Option (Option Str)
  | [] => some none
  | j :: rest =>
    match isEndLeafChecked encoding j with
    | none => none
    | some true =>
      let pathBegins := i + 3
      let pathEnds := j
      match substrChecked encoding pathBegins ((pathEnds : Int) - (pathBegins : Int)) with
      | none => none
      | some decodedPath => some (some decodedPath)
    | some false => getDecodedPathInnerChecked encoding i rest

/-- The outer loop of `getDecodedPath` over the remaining indices `i`, with
every read checked. -/
def getDecodedPathLoopChecked (encoding : Str) (index : Nat) : List Nat → Nat → Option Str
  | [], _ => some "DEFAULT_NODE_CHAR".toList
  | i :: rest, leafCount =>
    match substrChecked encoding i 4 with
    | none => none
    | some _ =>
      match isBeginLeafChecked encoding i with
      | none => none
      | some b =>
        let found :=
          if b && leafCount == index then
            getDecodedPathInnerChecked encoding i (List.range' i (encoding.length - i))
          else some none
        match found with
        | none => none
        | some (some decodedPath) => some decodedPath
        | some none =>
          if b then getDecodedPathLoopChecked encoding index rest (leafCount + 1)
          else getDecodedPathLoopChecked encoding index rest leafCount

/-- `getDecodedPath` with every read checked. -/
def getDecodedPathChecked (encoding : Str) (index : Nat) : Option Str :=
  getDecodedPathLoopChecked encoding index (List.range encoding.length) 0

/-! # Verified properties -/

/-! ## The library map -/

theorem Map.get_put {K V : Type} [DecidableEq K] [KeyOrder K] [CppDefault V]
    (m : Map K V) (k k' : K) (v : V) :
    Map.get (Map.put m k v) k' = if k' = k then v else Map.get m k' := by
  induction m with
  | nil => simp [Map.put, Map.get]
  | cons e m ih =>
    obtain ⟨k0, v0⟩ := e
    by_cases h1 : k = k0
    · subst h1
      by_cases h3 : k' = k <;> simp [Map.put, Map.get, h3]
    · by_cases h2 : KeyOrder.lt k k0 = true
      · simp [Map.put, Map.get, h1, h2]
      · by_cases h3 : k' = k0
        · subst h3
          have : ¬ k' = k := fun h => h1 h.symm
          simp [Map.put, Map.get, h1, h2, this]
        · simp [Map.put, Map.get, h1, h2, h3, ih]

theorem Map.containsKey_put {K V : Type} [DecidableEq K] [KeyOrder K]
    (m : Map K V) (k k' : K) (v : V) :
    Map.containsKey (Map.put m k v) k' = (decide (k' = k) || Map.containsKey m k') := by
  induction m with
  | nil => simp [Map.put, Map.containsKey]
  | cons e m ih =>
    obtain ⟨k0, v0⟩ := e
    by_cases h1 : k = k0
    · subst h1
      by_cases h3 : k' = k <;> simp [Map.put, Map.containsKey, h3]
    · by_cases h2 : KeyOrder.lt k k0 = true
      · simp [Map.put, Map.containsKey, h1, h2]
      · by_cases h3 : k' = k0
        · simp [Map.put, Map.containsKey, h1, h2, h3]
        · simp [Map.put, Map.containsKey, h1, h2, h3, ih]

theorem Map.get_of_not_containsKey {K V : Type} [DecidableEq K] [CppDefault V]
    (m : Map K V) (k : K) (h : Map.containsKey m k = false) :
    Map.get m k = CppDefault.dflt := by
  induction m with
  | nil => rfl
  | cons e m ih =>
    obtain ⟨k0, v0⟩ := e
    by_cases h1 : k = k0
    · simp [Map.containsKey, h1] at h
    · simp only [Map.containsKey, h1, if_false] at h
      simp [Map.get, h1, ih h]

theorem Map.mem_keys_iff {K V : Type} [DecidableEq K] (m : Map K V) (k : K) :
    k ∈ Map.keys m ↔ Map.containsKey m k = true := by
  induction m with
  | nil => simp [Map.keys, Map.containsKey]
  | cons e m ih =>
    obtain ⟨k0, v0⟩ := e
    by_cases h1 : k = k0
    · simp [Map.keys, Map.containsKey, h1]
    · have ih1 : k ∈ List.map Prod.fst m ↔ Map.containsKey m k = true := ih
      simp [Map.keys, Map.containsKey, h1, ih1]

theorem Map.mem_keys_of_mem {K V : Type} (m : Map K V) (k : K) (v : V)
    (h : (k, v) ∈ m) : k ∈ Map.keys m :=
  List.mem_map.mpr ⟨(k, v), h, rfl⟩

theorem Map.mem_of_containsKey {K V : Type} [DecidableEq K] [CppDefault V]
    (m : Map K V) (k : K) (h : Map.containsKey m k = true) :
    (k, Map.get m k) ∈ m := by
  induction m with
  | nil => simp [Map.containsKey] at h
  | cons e m ih =>
    obtain ⟨k0, v0⟩ := e
    by_cases h1 : k = k0
    · simp [Map.get, h1]
    · simp only [Map.containsKey, h1, if_false] at h
      simp only [Map.get, h1, if_false]
      exact List.mem_cons_of_mem _ (ih h)

theorem Map.mem_keys_put {K V : Type} [DecidableEq K] [KeyOrder K]
    (m : Map K V) (k k' : K) (v : V) :
    k' ∈ Map.keys (Map.put m k v) ↔ k' = k ∨ k' ∈ Map.keys m := by
  rw [Map.mem_keys_iff, Map.mem_keys_iff, Map.containsKey_put]
  simp

theorem char_eq_of_toNat_eq (a b : Char) (h : a.toNat = b.toNat) : a = b := by
  rw [← Char.ofNat_toNat a, ← Char.ofNat_toNat b, h]

theorem Map.WF_nil {V : Type} : Map.WF ([] : Map Char V) := List.Pairwise.nil

theorem Map.WF_tail {V : Type} (e : Char × V) (m : Map Char V) (h : Map.WF (e :: m)) :
    Map.WF m := (List.pairwise_cons.mp h).2

theorem Map.WF_put {V : Type} (m : Map Char V) (k : Char) (v : V) (h : Map.WF m) :
    Map.WF (Map.put m k v) := by
  induction m with
  | nil => simp [Map.put, Map.WF, Map.keys]
  | cons e m ih =>
    obtain ⟨k0, v0⟩ := e
    have hc := List.pairwise_cons.mp h
    by_cases h1 : k = k0
    · subst h1
      simpa [Map.put, Map.WF, Map.keys] using h
    · by_cases h2 : k.toNat < k0.toNat
      · have h2' : KeyOrder.lt k k0 = true := by simp [KeyOrder.lt, h2]
        simp only [Map.put, h1, h2', if_false, if_true]
        refine List.pairwise_cons.mpr ⟨?_, h⟩
        intro a ha
        rcases List.mem_cons.mp ha with rfl | ha
        · exact h2
        · exact lt_trans h2 (hc.1 a ha)
      · have h2' : ¬ KeyOrder.lt k k0 = true := by simp [KeyOrder.lt, h2]
        simp only [Map.put, h1, h2', if_false]
        refine List.pairwise_cons.mpr ⟨?_, ih hc.2⟩
        intro a ha
        have ha' : a ∈ Map.keys (Map.put m k v) := ha
        rcases (Map.mem_keys_put m k a v).mp ha' with rfl | ha1
        · have hne : a.toNat ≠ k0.toNat := fun hh => h1 (char_eq_of_toNat_eq _ _ hh)
          show k0.toNat < a.toNat
          omega
        · exact hc.1 a ha1

theorem Map.WF_nodup_keys {V : Type} (m : Map Char V) (h : Map.WF m) :
    (Map.keys m).Nodup := by
  refine List.Pairwise.imp ?_ h
  intro a b hab heq
  subst heq
  exact lt_irrefl _ hab

theorem Map.get_of_mem {V : Type} [CppDefault V] (m : Map Char V) (h : Map.WF m)
    (k : Char) (v : V) (hm : (k, v) ∈ m) : Map.get m k = v := by
  induction m with
  | nil => simp at hm
  | cons e m ih =>
    obtain ⟨k0, v0⟩ := e
    have hc := List.pairwise_cons.mp h
    rcases List.mem_cons.mp hm with heq | hm1
    · injection heq with hk hv
      simp [Map.get, hk, hv]
    · have hk : k ∈ Map.keys m := Map.mem_keys_of_mem m k v hm1
      have hlt := hc.1 k hk
      have h1 : ¬ k = k0 := by
        intro hh
        subst hh
        exact lt_irrefl _ hlt
      simp only [Map.get, h1, if_false]
      exact ih hc.2 hm1

theorem Map.mem_iff_get {V : Type} [CppDefault V] (m : Map Char V) (h : Map.WF m)
    (k : Char) (v : V) :
    (k, v) ∈ m ↔ Map.containsKey m k = true ∧ Map.get m k = v := by
  constructor
  · intro hm
    exact ⟨(Map.mem_keys_iff m k).mp (Map.mem_keys_of_mem m k v hm), Map.get_of_mem m h k v hm⟩
  · rintro ⟨hc, hg⟩
    rw [← hg]
    exact Map.mem_of_containsKey m k hc

/-- Two well-formed maps with the same entries are the same list. -/
theorem Map.ext_of_mem {V : Type} (m1 m2 : Map Char V) (h1 : Map.WF m1) (h2 : Map.WF m2)
    (h : ∀ e, e ∈ m1 ↔ e ∈ m2) : m1 = m2 := by
  induction m1 generalizing m2 with
  | nil =>
    cases m2 with
    | nil => rfl
    | cons e m2 => exact absurd ((h e).mpr (List.mem_cons_self _ _)) (List.not_mem_nil _)
  | cons e1 m1 ih =>
    cases m2 with
    | nil => exact absurd ((h e1).mp (List.mem_cons_self _ _)) (List.not_mem_nil _)
    | cons e2 m2 =>
      have hc1 := List.pairwise_cons.mp h1
      have hc2 := List.pairwise_cons.mp h2
      have he : e1 = e2 := by
        rcases List.mem_cons.mp ((h e1).mp (List.mem_cons_self _ _)) with h12 | h12
        · exact h12
        · rcases List.mem_cons.mp ((h e2).mpr (List.mem_cons_self _ _)) with h21 | h21
          · exact h21.symm
          · have a1 := hc2.1 e1.1 (List.mem_map.mpr ⟨e1, h12, rfl⟩)
            have a2 := hc1.1 e2.1 (List.mem_map.mpr ⟨e2, h21, rfl⟩)
            omega
      subst he
      congr 1
      apply ih m2 hc1.2 hc2.2
      intro e
      have hne1 : e ∈ m1 → e ≠ e1 := by
        intro hm heq
        subst heq
        exact lt_irrefl _ (hc1.1 e.1 (List.mem_map.mpr ⟨e, hm, rfl⟩))
      have hne2 : e ∈ m2 → e ≠ e1 := by
        intro hm heq
        subst heq
        exact lt_irrefl _ (hc2.1 e.1 (List.mem_map.mpr ⟨e, hm, rfl⟩))
      constructor
      · intro hm
        rcases List.mem_cons.mp ((h e).mp (List.mem_cons_of_mem _ hm)) with h' | h'
        · exact absurd h' (hne1 hm)
        · exact h'
      · intro hm
        rcases List.mem_cons.mp ((h e).mpr (List.mem_cons_of_mem _ hm)) with h' | h'
        · exact absurd h' (hne2 hm)
        · exact h'

/-- A well-formed map lists, key by key, the value it returns for the key. -/
theorem Map.eq_map_keys {V : Type} [CppDefault V] (m : Map Char V) (h : Map.WF m) :
    (Map.keys m).map (fun k => (k, Map.get m k)) = m := by
  have hmem : ∀ e ∈ m, (e.1, Map.get m e.1) = e := by
    intro e he
    have := Map.get_of_mem m h e.1 e.2 he
    rw [this]
  unfold Map.keys
  rw [List.map_map]
  conv_rhs => rw [← List.map_id m]
  exact List.map_congr_left (fun e he => hmem e he)

/-! ## Frequency table -/

theorem countChar_containsKey (m : Map Char Nat) (ch c : Char) :
    Map.containsKey (countChar m ch) c = (decide (c = ch) || Map.containsKey m c) := by
  unfold countChar
  by_cases hc : Map.containsKey m ch = true
  · simp only [hc, Bool.not_true, Bool.false_eq_true, if_false, Map.containsKey_put]
  · have hc' : Map.containsKey m ch = false := by simpa using hc
    simp only [hc', Bool.not_false, if_true, Map.containsKey_put]

theorem foldl_countChar_containsKey (s : Str) (m : Map Char Nat) (c : Char) :
    Map.containsKey (s.foldl countChar m) c = true ↔ c ∈ s ∨ Map.containsKey m c = true := by
  induction s generalizing m with
  | nil => simp
  | cons a s ih =>
    rw [List.foldl_cons, ih, countChar_containsKey]
    simp only [Bool.or_eq_true, decide_eq_true_eq, List.mem_cons]
    tauto

theorem buildFrequencyTable_mem_keys (s : Str) (c : Char) :
    c ∈ Map.keys (buildFrequencyTable s) ↔ c ∈ s := by
  rw [Map.mem_keys_iff]
  unfold buildFrequencyTable
  rw [foldl_countChar_containsKey]
  simp [Map.containsKey]

theorem leafPaths_leaf (ch : Char) : leafPaths (HuffmanNode.leaf ch) = [(ch, [])] := by
  simp [leafPaths, HuffmanNode.leaf, HuffmanNode.isNull]

theorem putAll_append (m : Map Char Str) (l1 l2 : List (Char × Str)) :
    putAll m (l1 ++ l2) = putAll (putAll m l1) l2 := by
  simp [putAll, List.foldl_append]

theorem putAll_WF (m : Map Char Str) (l : List (Char × Str)) (h : Map.WF m) :
    Map.WF (putAll m l) := by
  induction l generalizing m with
  | nil => exact h
  | cons e l ih => exact ih _ (Map.WF_put m e.1 e.2 h)

theorem putAll_mem_keys (m : Map Char Str) (l : List (Char × Str)) (k : Char) :
    k ∈ Map.keys (putAll m l) ↔ k ∈ l.map Prod.fst ∨ k ∈ Map.keys m := by
  induction l generalizing m with
  | nil => simp [putAll]
  | cons e l ih =>
    have : putAll m (e :: l) = putAll (Map.put m e.1 e.2) l := rfl
    rw [this, ih, Map.mem_keys_put]
    simp only [List.map_cons, List.mem_cons]
    tauto

theorem putAll_get_of_not_mem (m : Map Char Str) (l : List (Char × Str)) (k : Char)
    (hk : k ∉ l.map Prod.fst) : Map.get (putAll m l) k = Map.get m k := by
  induction l generalizing m with
  | nil => rfl
  | cons e l ih =>
    have hstep : putAll m (e :: l) = putAll (Map.put m e.1 e.2) l := rfl
    have hne : ¬ k = e.1 := by
      intro hh
      apply hk
      simp [hh]
    have hl : k ∉ l.map Prod.fst := by
      intro hh
      apply hk
      simp only [List.map_cons, List.mem_cons]
      exact Or.inr hh
    rw [hstep, ih _ hl, Map.get_put]
    simp [hne]

/-- The value of a key put by `putAll` is the value of one of the entries. -/
theorem putAll_get_mem (m : Map Char Str) (l : List (Char × Str)) (k : Char)
    (hk : k ∈ l.map Prod.fst) : (k, Map.get (putAll m l) k) ∈ l := by
  induction l generalizing m with
  | nil => simp at hk
  | cons e l ih =>
    have hstep : putAll m (e :: l) = putAll (Map.put m e.1 e.2) l := rfl
    rw [hstep]
    by_cases hl : k ∈ l.map Prod.fst
    · exact List.mem_cons_of_mem _ (ih _ hl)
    · have hke : k = e.1 := by
        simp only [List.map_cons, List.mem_cons] at hk
        rcases hk with h | h
        · exact h
        · exact absurd h hl
      rw [putAll_get_of_not_mem _ _ _ hl, Map.get_put]
      simp only [hke, if_true]
      exact List.mem_cons_self _ _

/-- The value of a key whose entries are all the same entry. -/
theorem putAll_get_unique (m : Map Char Str) (l : List (Char × Str)) (k : Char) (p : Str)
    (hmem : (k, p) ∈ l) (huniq : ∀ q, (k, q) ∈ l → q = p) :
    Map.get (putAll m l) k = p :=
  huniq _ (putAll_get_mem m l k (List.mem_map.mpr ⟨(k, p), hmem, rfl⟩))

/-- The traversal puts the leaves that do not hold the sentinel, in traversal
order, each with its route below the current path. -/
theorem buildEncodingMapFrom_eq (t : HuffmanNode) (m : Map Char Str) (path : Str) :
    buildEncodingMapFrom t m path =
      putAll m (((leafPaths t).filter (fun e => decide (e.1 ≠ DEFAULT_NODE_CHAR))).map
        (fun e => (e.1, path ++ e.2))) := by
  induction t generalizing m path with
  | nil => simp [buildEncodingMapFrom, leafPaths, putAll]
  | node ch zero one ihz iho =>
    by_cases hleaf : (zero.isNull && one.isNull) = true
    · have hz : zero = HuffmanNode.nil := by
        cases zero with
        | nil => rfl
        | node _ _ _ => simp [HuffmanNode.isNull] at hleaf
      have ho : one = HuffmanNode.nil := by
        cases one with
        | nil => rfl
        | node _ _ _ => simp [HuffmanNode.isNull] at hleaf
      subst hz
      subst ho
      by_cases hch : ch = DEFAULT_NODE_CHAR
      · simp [buildEncodingMapFrom, leafPaths, HuffmanNode.isNull, putAll, hch]
      · simp [buildEncodingMapFrom, leafPaths, HuffmanNode.isNull, putAll, hch]
    · have hleaf' : (zero.isNull && one.isNull) = false := by simpa using hleaf
      simp only [buildEncodingMapFrom, leafPaths, hleaf', Bool.false_eq_true, if_false]
      rw [ihz, iho, List.filter_append, List.map_append, putAll_append]
      simp only [List.filter_map, List.map_map]
      congr 1
      · congr 1
        · apply List.map_congr_left
          intro e _
          simp
      · apply List.map_congr_left
        intro e _
        simp

theorem buildEncodingMap_eq (t : HuffmanNode) :
    buildEncodingMap t =
      putAll [] ((leafPaths t).filter (fun e => decide (e.1 ≠ DEFAULT_NODE_CHAR))) := by
  unfold buildEncodingMap
  rw [buildEncodingMapFrom_eq]
  congr 1
  conv_rhs => rw [← List.map_id (List.filter _ _)]
  apply List.map_congr_left
  intro e _
  simp

theorem buildEncodingMap_WF (t : HuffmanNode) : Map.WF (buildEncodingMap t) := by
  rw [buildEncodingMap_eq]
  exact putAll_WF _ _ Map.WF_nil

theorem buildEncodingMap_mem_keys (t : HuffmanNode) (c : Char) :
    c ∈ Map.keys (buildEncodingMap t) ↔ c ∈ leafSymbols t ∧ c ≠ DEFAULT_NODE_CHAR := by
  rw [buildEncodingMap_eq, putAll_mem_keys]
  simp only [Map.keys, List.map_nil, List.not_mem_nil, or_false, leafSymbols, List.mem_map,
    List.mem_filter, decide_eq_true_eq]
  constructor
  · rintro ⟨e, ⟨he, hne⟩, rfl⟩
    exact ⟨⟨e, he, rfl⟩, hne⟩
  · rintro ⟨⟨e, he, rfl⟩, hne⟩
    exact ⟨e, ⟨he, hne⟩, rfl⟩

/-- The path of a key of the encoding map is the route to a leaf holding it. -/
theorem buildEncodingMap_get_mem (t : HuffmanNode) (c : Char)
    (hc : c ∈ Map.keys (buildEncodingMap t)) :
    (c, Map.get (buildEncodingMap t) c) ∈ leafPaths t := by
  have hc' := hc
  rw [buildEncodingMap_eq, putAll_mem_keys] at hc'
  simp only [Map.keys, List.map_nil, List.not_mem_nil, or_false] at hc'
  have := putAll_get_mem [] _ c hc'
  rw [← buildEncodingMap_eq] at this
  exact (List.mem_filter.mp this).1

/-- Two leaves of a tree of which the route to the first is a prefix of the
route to the second are the same leaf. -/
theorem leafPaths_prefix_eq (t : HuffmanNode) (c1 c2 : Char) (p1 p2 : Str)
    (h1 : (c1, p1) ∈ leafPaths t) (h2 : (c2, p2) ∈ leafPaths t) (hp : p1 <+: p2) :
    c1 = c2 ∧ p1 = p2 := by
  induction t generalizing p1 p2 with
  | nil => simp [leafPaths] at h1
  | node ch zero one ihz iho =>
    by_cases hleaf : (zero.isNull && one.isNull) = true
    · simp only [leafPaths, hleaf, if_true, List.mem_singleton, Prod.mk.injEq] at h1 h2
      exact ⟨h1.1.trans h2.1.symm, h1.2.trans h2.2.symm⟩
    · have hleaf' : (zero.isNull && one.isNull) = false := by simpa using hleaf
      simp only [leafPaths, hleaf', Bool.false_eq_true, if_false, List.mem_append, List.mem_map,
        Prod.mk.injEq] at h1 h2
      rcases h1 with ⟨e1, he1, rfl, rfl⟩ | ⟨e1, he1, rfl, rfl⟩ <;>
        rcases h2 with ⟨e2, he2, rfl, rfl⟩ | ⟨e2, he2, rfl, rfl⟩
      · have hp' : e1.2 <+: e2.2 := by
          obtain ⟨r, hr⟩ := hp
          exact ⟨r, by simpa using hr⟩
        have := ihz e1.2 e2.2 he1 he2 hp'
        exact ⟨this.1, by rw [this.2]⟩
      · obtain ⟨r, hr⟩ := hp
        simp at hr
      · obtain ⟨r, hr⟩ := hp
        simp at hr
      · have hp' : e1.2 <+: e2.2 := by
          obtain ⟨r, hr⟩ := hp
          exact ⟨r, by simpa using hr⟩
        have := iho e1.2 e2.2 he1 he2 hp'
        exact ⟨this.1, by rw [this.2]⟩

/-- The paths of two distinct keys of the encoding map of a tree: neither is
a prefix of the other. -/
theorem buildEncodingMap_no_prefix_pair (t : HuffmanNode) (a b : Char) (hab : a ≠ b)
    (ha : a ∈ Map.keys (buildEncodingMap t)) (hb : b ∈ Map.keys (buildEncodingMap t)) :
    ¬ (Map.get (buildEncodingMap t) a <+: Map.get (buildEncodingMap t) b) := by
  have hma := buildEncodingMap_get_mem t a ha
  have hmb := buildEncodingMap_get_mem t b hb
  intro hp
  exact hab (leafPaths_prefix_eq t a b _ _ hma hmb hp).1

/-- C3. Prefix-free invariant: for every tree `t` and every two distinct keys
`a`, `b` of `buildEncodingMap(t)`, the path of `a` is not a prefix of the path
of `b` and the path of `b` is not a prefix of the path of `a`. -/
theorem C3_prefix_free (t : HuffmanNode) (a b : Char) (hab : a ≠ b)
    (ha : a ∈ Map.keys (buildEncodingMap t)) (hb : b ∈ Map.keys (buildEncodingMap t)) :
    ¬ (Map.get (buildEncodingMap t) a <+: Map.get (buildEncodingMap t) b) ∧
    ¬ (Map.get (buildEncodingMap t) b <+: Map.get (buildEncodingMap t) a) :=
  ⟨buildEncodingMap_no_prefix_pair t a b hab ha hb,
    buildEncodingMap_no_prefix_pair t b a (fun h => hab h.symm) hb ha⟩

/-- C3, at the tree with `b` below `zero` and `a` below `one`. -/
theorem C3_prefix_free_witness :
    'a' ≠ 'b' ∧
    ¬ (Map.get (buildEncodingMap
          (HuffmanNode.join (HuffmanNode.leaf 'b') (HuffmanNode.leaf 'a'))) 'a' <+:
        Map.get (buildEncodingMap
          (HuffmanNode.join (HuffmanNode.leaf 'b') (HuffmanNode.leaf 'a'))) 'b') ∧
    ¬ (Map.get (buildEncodingMap
          (HuffmanNode.join (HuffmanNode.leaf 'b') (HuffmanNode.leaf 'a'))) 'b' <+:
        Map.get (buildEncodingMap
          (HuffmanNode.join (HuffmanNode.leaf 'b') (HuffmanNode.leaf 'a'))) 'a') :=
  ⟨by decide,
    C3_prefix_free (HuffmanNode.join (HuffmanNode.leaf 'b') (HuffmanNode.leaf 'a')) 'a' 'b'
      (by decide) (by decide) (by decide)⟩

/-! ## The priority queue and the merge loop -/

theorem enqueue_perm {T : Type} (queue : PriorityQueue T) (value : T) (priority : Nat) :
    List.Perm (PriorityQueue.enqueue queue value priority) ((priority, value) :: queue) := by
  induction queue with
  | nil => exact List.Perm.refl _
  | cons e queue ih =>
    obtain ⟨p, v⟩ := e
    unfold PriorityQueue.enqueue
    split
    · exact List.Perm.refl _
    · exact (List.Perm.cons _ ih).trans (List.Perm.swap _ _ _)

theorem enqueue_length {T : Type} (queue : PriorityQueue T) (value : T) (priority : Nat) :
    (PriorityQueue.enqueue queue value priority).length = queue.length + 1 := by
  simpa using (enqueue_perm queue value priority).length_eq

theorem enqueue_mem {T : Type} (queue : PriorityQueue T) (value : T) (priority : Nat)
    (e : Nat × T) :
    e ∈ PriorityQueue.enqueue queue value priority ↔ e = (priority, value) ∨ e ∈ queue := by
  rw [(enqueue_perm queue value priority).mem_iff, List.mem_cons]

theorem enqueue_sorted {T : Type} (queue : PriorityQueue T) (value : T) (priority : Nat)
    (h : PriorityQueue.Sorted queue) :
    PriorityQueue.Sorted (PriorityQueue.enqueue queue value priority) := by
  induction queue with
  | nil => simp [PriorityQueue.enqueue, PriorityQueue.Sorted]
  | cons e queue ih =>
    obtain ⟨p, v⟩ := e
    have hc := List.pairwise_cons.mp h
    unfold PriorityQueue.enqueue
    split
    · rename_i hlt
      refine List.pairwise_cons.mpr ⟨?_, h⟩
      intro a ha
      rcases List.mem_cons.mp ha with rfl | ha
      · exact Nat.le_of_lt hlt
      · exact Nat.le_trans (Nat.le_of_lt hlt) (hc.1 a ha)
    · rename_i hlt
      refine List.pairwise_cons.mpr ⟨?_, ih hc.2⟩
      intro a ha
      rcases (enqueue_mem queue value priority a).mp ha with rfl | ha
      · exact Nat.le_of_not_lt hlt
      · exact hc.1 a ha

theorem getQueue_fold_sorted (freqTable : Map Char Nat) (keys : List Char)
    (queue : PriorityQueue HuffmanNode) (h : PriorityQueue.Sorted queue) :
    PriorityQueue.Sorted (keys.foldl
      (fun queue key =>
        PriorityQueue.enqueue queue (HuffmanNode.leaf key) (Map.get freqTable key)) queue) := by
  induction keys generalizing queue with
  | nil => exact h
  | cons k keys ih => exact ih _ (enqueue_sorted _ _ _ h)

theorem getQueue_sorted (freqTable : Map Char Nat) : PriorityQueue.Sorted (getQueue freqTable) :=
  getQueue_fold_sorted freqTable _ [] List.Pairwise.nil

theorem mergeStep_sorted (queue : PriorityQueue HuffmanNode) (h : PriorityQueue.Sorted queue) :
    PriorityQueue.Sorted (mergeStep queue) := by
  match queue, h with
  | [], h => exact h
  | [_], h => exact h
  | (p1, n1) :: (p2, n2) :: rest, h =>
    have h1 := (List.pairwise_cons.mp h).2
    have h2 := (List.pairwise_cons.mp h1).2
    exact enqueue_sorted _ _ _ h2

theorem queueAfter_sorted (freqTable : Map Char Nat) (k : Nat) :
    PriorityQueue.Sorted (queueAfter freqTable k) := by
  induction k with
  | zero => exact getQueue_sorted freqTable
  | succ k ih =>
    unfold queueAfter at *
    rw [Function.iterate_succ_apply']
    exact mergeStep_sorted _ ih

theorem mergeStep_short (queue : PriorityQueue HuffmanNode) (h : ¬ queue.length > 1) :
    mergeStep queue = queue := by
  match queue, h with
  | [], _ => rfl
  | [_], _ => rfl
  | _ :: _ :: rest, h => simp at h

/-- The loop of `buildEncodingTree` given `fuel` iterations is `fuel`
applications of its body, which leaves a queue of fewer than two entries as
it is. -/
theorem mergeLoop_eq_iterate (fuel : Nat) (queue : PriorityQueue HuffmanNode) :
    mergeLoop fuel queue = mergeStep^[fuel] queue := by
  induction fuel generalizing queue with
  | zero => rfl
  | succ fuel ih =>
    unfold mergeLoop
    rw [Function.iterate_succ_apply]
    by_cases h : queue.length > 1
    · simp only [h, if_true, ih]
    · simp only [h, if_false]
      rw [mergeStep_short queue h]
      clear ih
      induction fuel with
      | zero => rfl
      | succ fuel ih2 =>
        rw [Function.iterate_succ_apply, mergeStep_short queue h]
        exact ih2

theorem mergeStep_length (queue : PriorityQueue HuffmanNode) (h : queue.length > 1) :
    (mergeStep queue).length = queue.length - 1 := by
  match queue, h with
  | _ :: _ :: rest, _ => simp [mergeStep, enqueue_length]

theorem mergeLoop_length (fuel : Nat) (queue : PriorityQueue HuffmanNode)
    (hq : queue ≠ []) (hfuel : queue.length ≤ fuel + 1) :
    (mergeLoop fuel queue).length = 1 := by
  induction fuel generalizing queue with
  | zero =>
    cases queue with
    | nil => exact absurd rfl hq
    | cons e rest =>
      simp only [List.length_cons] at hfuel
      have : rest.length = 0 := by omega
      simp [mergeLoop, this]
  | succ fuel ih =>
    unfold mergeLoop
    by_cases h : queue.length > 1
    · simp only [h, if_true]
      have hlen := mergeStep_length queue h
      apply ih
      · intro hnil
        rw [hnil] at hlen
        simp at hlen
        omega
      · omega
    · simp only [h, if_false]
      cases queue with
      | nil => exact absurd rfl hq
      | cons e rest =>
        simp only [List.length_cons] at h ⊢
        omega

/-- C10. Weight ordering: at every iteration of the merge loop of
`buildEncodingTree`, that is whenever the queue reached after `k` iterations
(the queue that the loop given `k` iterations ends with) still holds two
entries at its front, `(p1, n1)` and `(p2, n2)`, the next iteration dequeues
these two, in this order, and enqueues their parent, with `n1` as `zero` and
`n2` as `one` child, under the priority `p1 + p2`, into what the two dequeues
left; `p1 ≤ p2`, every entry left in the queue after the two dequeues has a
priority of at least `p2`, and no entry queued at that step has a priority
below `p1`: the merged pair are the two lowest-priority nodes queued at that
step. -/
theorem C10_weight_ordering (freqTable : Map Char Nat) (k : Nat) (p1 p2 : Nat)
    (n1 n2 : HuffmanNode) (rest : PriorityQueue HuffmanNode)
    (h : queueAfter freqTable k = (p1, n1) :: (p2, n2) :: rest) :
    mergeLoop k (getQueue freqTable) = queueAfter freqTable k ∧
      p1 ≤ p2 ∧ (∀ e ∈ rest, p2 ≤ e.1) ∧
      (∀ e ∈ queueAfter freqTable k, p1 ≤ e.1) ∧
      mergeStep (queueAfter freqTable k) =
        PriorityQueue.enqueue rest (HuffmanNode.join n1 n2) (p1 + p2) ∧
      queueAfter freqTable (k + 1) =
        PriorityQueue.enqueue rest (HuffmanNode.join n1 n2) (p1 + p2) ∧
      mergeLoop (k + 1) (getQueue freqTable) =
        PriorityQueue.enqueue rest (HuffmanNode.join n1 n2) (p1 + p2) ∧
      List.Perm (queueAfter freqTable (k + 1))
        ((p1 + p2, HuffmanNode.node DEFAULT_NODE_CHAR n1 n2) :: rest) := by
  have hs := queueAfter_sorted freqTable k
  rw [h] at hs
  have h1 := List.pairwise_cons.mp hs
  have h2 := List.pairwise_cons.mp h1.2
  have h12 : p1 ≤ p2 := h1.1 _ (List.mem_cons_self _ _)
  have hstep : mergeStep (queueAfter freqTable k) =
      PriorityQueue.enqueue rest (HuffmanNode.join n1 n2) (p1 + p2) := by
    rw [h]
    rfl
  have hnext : queueAfter freqTable (k + 1) =
      PriorityQueue.enqueue rest (HuffmanNode.join n1 n2) (p1 + p2) := by
    rw [← hstep]
    unfold queueAfter
    exact Function.iterate_succ_apply' mergeStep k _
  refine ⟨mergeLoop_eq_iterate k _, h12, fun e he => h2.1 e he, ?_, hstep, hnext, ?_, ?_⟩
  · intro e he
    rw [h] at he
    rcases List.mem_cons.mp he with rfl | he
    · exact Nat.le_refl _
    · exact h1.1 e he
  · rw [mergeLoop_eq_iterate, ← hnext]
    rfl
  · rw [hnext]
    exact enqueue_perm rest _ _

/-- C10, at the second iteration for the table `a:5, b:3, c:2, d:1`: the first
iteration has merged `d` and `c` under the priority `3`, behind `b`; the
second dequeues `b` and then that parent, `a` stays, and their parent is
enqueued under the priority `6`, behind `a`. -/
theorem C10_weight_ordering_witness :
    queueAfter [('a', 5), ('b', 3), ('c', 2), ('d', 1)] 1 =
        (3, HuffmanNode.leaf 'b') ::
          (3, HuffmanNode.join (HuffmanNode.leaf 'd') (HuffmanNode.leaf 'c')) ::
            [(5, HuffmanNode.leaf 'a')] ∧
      queueAfter [('a', 5), ('b', 3), ('c', 2), ('d', 1)] 2 =
        [(5, HuffmanNode.leaf 'a'),
          (6, HuffmanNode.join (HuffmanNode.leaf 'b')
            (HuffmanNode.join (HuffmanNode.leaf 'd') (HuffmanNode.leaf 'c')))] ∧
      mergeLoop 1 (getQueue [('a', 5), ('b', 3), ('c', 2), ('d', 1)]) =
        queueAfter [('a', 5), ('b', 3), ('c', 2), ('d', 1)] 1 ∧
      3 ≤ 3 ∧ (∀ e ∈ [(5, HuffmanNode.leaf 'a')], 3 ≤ e.1) ∧
      (∀ e ∈ queueAfter [('a', 5), ('b', 3), ('c', 2), ('d', 1)] 1, 3 ≤ e.1) ∧
      mergeStep (queueAfter [('a', 5), ('b', 3), ('c', 2), ('d', 1)] 1) =
        PriorityQueue.enqueue [(5, HuffmanNode.leaf 'a')]
          (HuffmanNode.join (HuffmanNode.leaf 'b')
            (HuffmanNode.join (HuffmanNode.leaf 'd') (HuffmanNode.leaf 'c'))) (3 + 3) ∧
      queueAfter [('a', 5), ('b', 3), ('c', 2), ('d', 1)] (1 + 1) =
        PriorityQueue.enqueue [(5, HuffmanNode.leaf 'a')]
          (HuffmanNode.join (HuffmanNode.leaf 'b')
            (HuffmanNode.join (HuffmanNode.leaf 'd') (HuffmanNode.leaf 'c'))) (3 + 3) ∧
      mergeLoop (1 + 1) (getQueue [('a', 5), ('b', 3), ('c', 2), ('d', 1)]) =
        PriorityQueue.enqueue [(5, HuffmanNode.leaf 'a')]
          (HuffmanNode.join (HuffmanNode.leaf 'b')
            (HuffmanNode.join (HuffmanNode.leaf 'd') (HuffmanNode.leaf 'c'))) (3 + 3) ∧
      List.Perm (queueAfter [('a', 5), ('b', 3), ('c', 2), ('d', 1)] (1 + 1))
        ((3 + 3, HuffmanNode.node DEFAULT_NODE_CHAR (HuffmanNode.leaf 'b')
          (HuffmanNode.join (HuffmanNode.leaf 'd') (HuffmanNode.leaf 'c'))) ::
            [(5, HuffmanNode.leaf 'a')]) :=
  ⟨by decide, by decide,
    C10_weight_ordering [('a', 5), ('b', 3), ('c', 2), ('d', 1)] 1 3 3 (HuffmanNode.leaf 'b')
      (HuffmanNode.join (HuffmanNode.leaf 'd') (HuffmanNode.leaf 'c'))
      [(5, HuffmanNode.leaf 'a')] (by decide)⟩

/-! ## The tree built from a frequency table -/

theorem isFull_ne_nil (t : HuffmanNode) (h : t.isFull = true) : t.isNull = false := by
  cases t with
  | nil => simp [HuffmanNode.isFull] at h
  | node _ _ _ => rfl

theorem isFull_leaf (c : Char) : (HuffmanNode.leaf c).isFull = true := by
  simp [HuffmanNode.leaf, HuffmanNode.isFull, HuffmanNode.isNull]

theorem isFull_join (zero one : HuffmanNode) (hz : zero.isFull = true) (ho : one.isFull = true) :
    (HuffmanNode.join zero one).isFull = true := by
  simp [HuffmanNode.join, HuffmanNode.isFull, hz, ho]

theorem leafPaths_join (zero one : HuffmanNode) (hz : zero.isNull = false) :
    leafPaths (HuffmanNode.join zero one) =
      (leafPaths zero).map (fun e => (e.1, '0' :: e.2)) ++
        (leafPaths one).map (fun e => (e.1, '1' :: e.2)) := by
  simp [HuffmanNode.join, leafPaths, hz]

theorem leafSymbols_leaf (c : Char) : leafSymbols (HuffmanNode.leaf c) = [c] := by
  simp [leafSymbols, leafPaths_leaf]

theorem leafSymbols_join (zero one : HuffmanNode) (hz : zero.isNull = false) :
    leafSymbols (HuffmanNode.join zero one) = leafSymbols zero ++ leafSymbols one := by
  simp [leafSymbols, leafPaths_join zero one hz, List.map_map, Function.comp_def]

theorem queueSymbols_perm (q1 q2 : PriorityQueue HuffmanNode) (h : List.Perm q1 q2) :
    List.Perm (queueSymbols q1) (queueSymbols q2) :=
  List.Perm.flatMap_right _ h

theorem queueSymbols_cons (e : Nat × HuffmanNode) (q : PriorityQueue HuffmanNode) :
    queueSymbols (e :: q) = leafSymbols e.2 ++ queueSymbols q := by
  simp [queueSymbols]

theorem mergeStep_symbols (queue : PriorityQueue HuffmanNode)
    (hfull : ∀ e ∈ queue, e.2.isFull = true) :
    List.Perm (queueSymbols (mergeStep queue)) (queueSymbols queue) := by
  match queue, hfull with
  | [], _ => exact List.Perm.refl _
  | [_], _ => exact List.Perm.refl _
  | (p1, n1) :: (p2, n2) :: rest, hfull =>
    have h1 : n1.isNull = false := isFull_ne_nil n1 (hfull (p1, n1) (by simp))
    have hp := queueSymbols_perm _ _ (enqueue_perm rest (HuffmanNode.join n1 n2) (p1 + p2))
    simp only [mergeStep]
    refine hp.trans ?_
    rw [queueSymbols_cons, queueSymbols_cons, queueSymbols_cons]
    simp only [leafSymbols_join n1 n2 h1, List.append_assoc]
    exact List.Perm.refl _

theorem mergeStep_full (queue : PriorityQueue HuffmanNode)
    (hfull : ∀ e ∈ queue, e.2.isFull = true) :
    ∀ e ∈ mergeStep queue, e.2.isFull = true := by
  match queue, hfull with
  | [], h => exact h
  | [_], h => exact h
  | (p1, n1) :: (p2, n2) :: rest, hfull =>
    intro e he
    simp only [mergeStep] at he
    rcases (enqueue_mem _ _ _ e).mp he with rfl | he
    · exact isFull_join n1 n2 (hfull (p1, n1) (by simp)) (hfull (p2, n2) (by simp))
    · exact hfull e (by simp [he])

theorem iterate_mergeStep_inv (k : Nat) (queue : PriorityQueue HuffmanNode)
    (hfull : ∀ e ∈ queue, e.2.isFull = true) :
    (∀ e ∈ mergeStep^[k] queue, e.2.isFull = true) ∧
      List.Perm (queueSymbols (mergeStep^[k] queue)) (queueSymbols queue) := by
  induction k with
  | zero => exact ⟨hfull, List.Perm.refl _⟩
  | succ k ih =>
    rw [Function.iterate_succ_apply']
    exact ⟨mergeStep_full _ ih.1, (mergeStep_symbols _ ih.1).trans ih.2⟩

theorem getQueue_fold_inv (freqTable : Map Char Nat) (keys : List Char)
    (queue : PriorityQueue HuffmanNode) (hfull : ∀ e ∈ queue, e.2.isFull = true) :
    let q := keys.foldl (fun queue key =>
        PriorityQueue.enqueue queue (HuffmanNode.leaf key) (Map.get freqTable key)) queue
    (∀ e ∈ q, e.2.isFull = true) ∧ List.Perm (queueSymbols q) (queueSymbols queue ++ keys) ∧
      q.length = queue.length + keys.length := by
  induction keys generalizing queue with
  | nil => exact ⟨hfull, by simp, by simp⟩
  | cons k keys ih =>
    have hfull' : ∀ e ∈ PriorityQueue.enqueue queue (HuffmanNode.leaf k) (Map.get freqTable k),
        e.2.isFull = true := by
      intro e he
      rcases (enqueue_mem _ _ _ e).mp he with rfl | he
      · exact isFull_leaf k
      · exact hfull e he
    obtain ⟨h1, h2, h3⟩ := ih _ hfull'
    refine ⟨h1, ?_, ?_⟩
    · refine h2.trans ?_
      have hp := queueSymbols_perm _ _
        (enqueue_perm queue (HuffmanNode.leaf k) (Map.get freqTable k))
      rw [queueSymbols_cons] at hp
      simp only [leafSymbols_leaf] at hp
      refine (List.Perm.append_right keys hp).trans ?_
      simp only [List.singleton_append, List.cons_append]
      exact (List.perm_middle).symm
    · rw [List.foldl_cons] at *
      simp only [h3, enqueue_length, List.length_cons]
      omega

theorem getQueue_inv (freqTable : Map Char Nat) :
    (∀ e ∈ getQueue freqTable, e.2.isFull = true) ∧
      List.Perm (queueSymbols (getQueue freqTable)) (Map.keys freqTable) ∧
      (getQueue freqTable).length = freqTable.length := by
  have h := getQueue_fold_inv freqTable (Map.keys freqTable) [] (by simp)
  simpa [getQueue, queueSymbols, Map.keys] using h

/-- The tree built from a table that is not empty: there is one, every node
of it has no child or two, and its leaves hold the keys of the table, each key
once for each of its entries. -/
theorem buildEncodingTree_spec (freqTable : Map Char Nat) (hne : freqTable ≠ []) :
    ∃ t, buildEncodingTree freqTable = some t ∧ t.isFull = true ∧
      List.Perm (leafSymbols t) (Map.keys freqTable) := by
  obtain ⟨hfull, hperm, hlen⟩ := getQueue_inv freqTable
  have hq : getQueue freqTable ≠ [] := by
    intro h
    rw [h] at hlen
    exact hne (List.length_eq_zero.mp hlen.symm)
  have hl := mergeLoop_length (getQueue freqTable).length (getQueue freqTable) hq (by omega)
  have hinv := iterate_mergeStep_inv (getQueue freqTable).length (getQueue freqTable) hfull
  rw [← mergeLoop_eq_iterate] at hinv
  unfold buildEncodingTree
  simp only
  match hm : mergeLoop (getQueue freqTable).length (getQueue freqTable), hl with
  | [(p, t)], _ =>
    refine ⟨t, rfl, ?_, ?_⟩
    · rw [hm] at hinv
      exact hinv.1 (p, t) (by simp)
    · rw [hm] at hinv
      have := hinv.2
      simp only [queueSymbols, List.flatMap_cons, List.flatMap_nil, List.append_nil] at this
      exact this.trans hperm

/-- A full tree with more than one leaf has no leaf at its root. -/
theorem isFull_paths_ne_nil (t : HuffmanNode) (hfull : t.isFull = true)
    (hlen : 2 ≤ (leafSymbols t).length) : ∀ e ∈ leafPaths t, e.2 ≠ [] := by
  cases t with
  | nil => simp [HuffmanNode.isFull] at hfull
  | node ch zero one =>
    by_cases hleaf : (zero.isNull && one.isNull) = true
    · simp [leafSymbols, leafPaths, hleaf] at hlen
    · have hleaf' : (zero.isNull && one.isNull) = false := by simpa using hleaf
      intro e he
      simp only [leafPaths, hleaf', Bool.false_eq_true, if_false, List.mem_append,
        List.mem_map] at he
      rcases he with ⟨e', _, rfl⟩ | ⟨e', _, rfl⟩ <;> simp

/-- The routes to the leaves are made of `'0'` and `'1'`. -/
theorem leafPaths_bits (t : HuffmanNode) :
    ∀ e ∈ leafPaths t, ∀ c ∈ e.2, c = '0' ∨ c = '1' := by
  induction t with
  | nil => simp [leafPaths]
  | node ch zero one ihz iho =>
    by_cases hleaf : (zero.isNull && one.isNull) = true
    · simp [leafPaths, hleaf]
    · have hleaf' : (zero.isNull && one.isNull) = false := by simpa using hleaf
      intro e he c hc
      simp only [leafPaths, hleaf', Bool.false_eq_true, if_false, List.mem_append,
        List.mem_map] at he
      rcases he with ⟨e', he', rfl⟩ | ⟨e', he', rfl⟩
      · rcases List.mem_cons.mp hc with rfl | hc
        · exact Or.inl rfl
        · exact ihz e' he' c hc
      · rcases List.mem_cons.mp hc with rfl | hc
        · exact Or.inr rfl
        · exact iho e' he' c hc

/-- C8 (amended). For every tree `t`, the keys of `buildEncodingMap(t)` are
exactly the characters other than the NUL sentinel held by the leaves of `t`;
in particular, for every non-empty frequency table `f`, `buildEncodingTree(f)`
returns a tree and the keys of its encoding map are exactly the keys of `f`
other than the NUL sentinel. -/
theorem C8_map_keys (t : HuffmanNode) (c : Char) :
    (c ∈ Map.keys (buildEncodingMap t) ↔ c ∈ leafSymbols t ∧ c ≠ DEFAULT_NODE_CHAR) ∧
    ∀ freqTable : Map Char Nat, freqTable ≠ [] →
      ∃ tree, buildEncodingTree freqTable = some tree ∧
        (c ∈ Map.keys (buildEncodingMap tree) ↔
          c ∈ Map.keys freqTable ∧ c ≠ DEFAULT_NODE_CHAR) := by
  refine ⟨buildEncodingMap_mem_keys t c, ?_⟩
  intro freqTable hne
  obtain ⟨tree, htree, _, hperm⟩ := buildEncodingTree_spec freqTable hne
  refine ⟨tree, htree, ?_⟩
  rw [buildEncodingMap_mem_keys, hperm.mem_iff]

/-- C8 (amended), at the table `a:1`. -/
theorem C8_map_keys_witness :
    ([('a', 1)] : Map Char Nat) ≠ [] ∧
    ∃ tree, buildEncodingTree [('a', 1)] = some tree ∧
      ('a' ∈ Map.keys (buildEncodingMap tree) ↔
        'a' ∈ Map.keys ([('a', 1)] : Map Char Nat) ∧ 'a' ≠ DEFAULT_NODE_CHAR) :=
  ⟨by decide, (C8_map_keys (HuffmanNode.leaf 'a') 'a').2 [('a', 1)] (by decide)⟩

/-- C8 (as stated) fails: the tree built from the table of the input made of
a NUL byte and `a` has a leaf holding NUL, and NUL is a key of the table, but
NUL is not a key of the encoding map. -/
theorem C8_counterexample :
    ∃ tree, buildEncodingTree (buildFrequencyTable [Char.ofNat 0, 'a']) = some tree ∧
      Char.ofNat 0 ∈ leafSymbols tree ∧
      Char.ofNat 0 ∈ Map.keys (buildFrequencyTable [Char.ofNat 0, 'a']) ∧
      Char.ofNat 0 ∉ Map.keys (buildEncodingMap tree) := by
  refine ⟨HuffmanNode.join (HuffmanNode.leaf (Char.ofNat 0)) (HuffmanNode.leaf 'a'), ?_, ?_, ?_, ?_⟩
  · decide
  · decide
  · decide
  · decide

/-! ## The bit-level codec -/

theorem to_string_bitOf (c : Char) (h : c = '0' ∨ c = '1') : to_string (bitOf c) = [c] := by
  rcases h with rfl | rfl <;> decide

theorem stoi_bit (c : Char) (h : c = '0' ∨ c = '1') : stoi [c] = some (bitOf c) := by
  rcases h with rfl | rfl <;> decide

theorem substr_one (s : Str) (j : Nat) (h : j < s.length) : substr s j 1 = [s[j]] := by
  unfold substr
  simp only [show ¬ ((1 : Int) < 0) by decide, if_false, Int.toNat_one]
  rw [List.drop_eq_getElem_cons h]
  rfl

theorem writeCode_bits (encoded : Str) (hbits : ∀ c ∈ encoded, c = '0' ∨ c = '1')
    (n k : Nat) (hk : k + n = encoded.length) (output : HuffmanOutputFile) :
    writeCode encoded (List.range' k n) output =
      some (output ++ ((encoded.drop k).map bitOf).map OutCall.writeBit) := by
  induction n generalizing k output with
  | zero =>
    have : encoded.length ≤ k := by omega
    simp [writeCode, List.drop_eq_nil_of_le this]
  | succ n ih =>
    have hlt : k < encoded.length := by omega
    rw [List.range'_succ]
    unfold writeCode
    have hg : getBit encoded k = some (bitOf encoded[k]) := by
      unfold getBit
      rw [substr_one encoded k hlt]
      exact stoi_bit _ (hbits _ (List.getElem_mem hlt))
    simp only [hg]
    rw [ih (k + 1) (by omega), List.drop_eq_getElem_cons hlt]
    simp only [List.map_cons, List.append_assoc, List.singleton_append]

theorem compressLine_bits (line : Str) (encodingMap : Map Char Str)
    (hbits : ∀ ch ∈ line, ∀ c ∈ Map.get encodingMap ch, c = '0' ∨ c = '1')
    (output : HuffmanOutputFile) :
    compressLine line encodingMap output =
      some (output ++ (codeBits encodingMap line).map OutCall.writeBit) := by
  induction line generalizing output with
  | nil => simp [compressLine, codeBits]
  | cons ch line ih =>
    unfold compressLine
    have hw := writeCode_bits (Map.get encodingMap ch) (hbits ch (List.mem_cons_self _ _))
      (Map.get encodingMap ch).length 0 (by simp) output
    rw [← List.range_eq_range'] at hw
    simp only [hw]
    rw [ih (fun c hc => hbits c (List.mem_cons_of_mem _ hc))]
    simp [codeBits]

theorem writtenBits_append (o1 o2 : HuffmanOutputFile) :
    writtenBits (o1 ++ o2) = writtenBits o1 ++ writtenBits o2 := by
  induction o1 with
  | nil => rfl
  | cons c o1 ih => cases c <;> simp [writtenBits, ih]

theorem writtenBits_map (bits : List Nat) : writtenBits (bits.map OutCall.writeBit) = bits := by
  induction bits with
  | nil => rfl
  | cons b bits ih => simp [writtenBits, ih]

theorem writtenHeader_append (o1 o2 : HuffmanOutputFile) :
    writtenHeader (o1 ++ o2) = writtenHeader o1 ++ writtenHeader o2 := by
  induction o1 with
  | nil => rfl
  | cons c o1 ih => cases c <;> simp [writtenHeader, ih]

theorem writtenHeader_map (bits : List Nat) : writtenHeader (bits.map OutCall.writeBit) = [] := by
  induction bits with
  | nil => rfl
  | cons b bits ih => simp [writtenHeader, ih]

theorem isValidValueL2Loop_iff (encodingValue : Str) (encodingMap : Map Char Str)
    (keys : List Char) :
    isValidValueL2Loop encodingValue encodingMap keys = true ↔
      ∃ k ∈ keys, encodingValue = Map.get encodingMap k := by
  induction keys with
  | nil => simp [isValidValueL2Loop]
  | cons k keys ih =>
    unfold isValidValueL2Loop
    by_cases h : encodingValue = Map.get encodingMap k
    · simp [h]
    · simp only [h, if_false, ih, List.mem_cons, exists_eq_or_imp, false_or]

theorem isValidValueL2_iff (encodingValue : Str) (encodingMap : Map Char Str) :
    isValidValueL2 encodingValue encodingMap = true ↔
      ∃ k ∈ Map.keys encodingMap, encodingValue = Map.get encodingMap k :=
  isValidValueL2Loop_iff _ _ _

theorem getValidKey_fold_unique (encodingValue : Str) (encodingMap : Map Char Str)
    (keys : List Char) (c : Char)
    (huniq : ∀ k ∈ keys, encodingValue = Map.get encodingMap k → k = c) (init : Char)
    (h : c ∈ keys ∧ encodingValue = Map.get encodingMap c ∨ init = c) :
    keys.foldl (fun validKey encodingKey =>
      if encodingValue = Map.get encodingMap encodingKey then encodingKey else validKey) init
      = c := by
  induction keys generalizing init with
  | nil =>
    rcases h with ⟨h, _⟩ | h
    · simp at h
    · exact h
  | cons k keys ih =>
    rw [List.foldl_cons]
    apply ih (fun k' hk' => huniq k' (List.mem_cons_of_mem _ hk'))
    by_cases hk : encodingValue = Map.get encodingMap k
    · right
      simp only [hk, if_true]
      exact huniq k (List.mem_cons_self _ _) hk
    · simp only [hk, if_false]
      rcases h with ⟨hc, hv⟩ | h
      · rcases List.mem_cons.mp hc with rfl | hc
        · exact absurd hv hk
        · exact Or.inl ⟨hc, hv⟩
      · exact Or.inr h

theorem getValidKey_of_prefixFree (encodingMap : Map Char Str) (hpf : Map.PrefixFree encodingMap)
    (c : Char) (hc : c ∈ Map.keys encodingMap) :
    getValidKey (Map.get encodingMap c) encodingMap = c := by
  unfold getValidKey
  apply getValidKey_fold_unique
  · intro k hk heq
    by_contra hne
    exact hpf c hc k hk (fun h => hne h.symm) (by rw [heq])
  · exact Or.inl ⟨hc, rfl⟩

theorem isValidValueL1_spec (encodingValue : Str) (encodingMap : Map Char Str)
    (isValidCache : Map Str Bool) (h : ValidCacheOk encodingMap isValidCache) :
    (isValidValueL1 encodingValue encodingMap isValidCache).1 =
        isValidValueL2 encodingValue encodingMap ∧
      ValidCacheOk encodingMap (isValidValueL1 encodingValue encodingMap isValidCache).2 := by
  unfold isValidValueL1
  by_cases hc : Map.containsKey isValidCache encodingValue = true
  · simp only [hc, if_true]
    exact ⟨h _ hc, h⟩
  · simp only [hc, Bool.false_eq_true, if_false]
    refine ⟨trivial, ?_⟩
    intro v hv
    rw [Map.get_put]
    rw [Map.containsKey_put] at hv
    by_cases hve : v = encodingValue
    · simp [hve]
    · simp only [hve, if_false]
      apply h
      simpa [hve] using hv

theorem getValidKeyCached_spec (encodingValue : Str) (encodingMap : Map Char Str)
    (charCache : Map Str Char) (h : CharCacheOk encodingMap charCache) :
    (getValidKeyCached encodingValue encodingMap charCache).1 =
        getValidKey encodingValue encodingMap ∧
      CharCacheOk encodingMap (getValidKeyCached encodingValue encodingMap charCache).2 := by
  unfold getValidKeyCached
  by_cases hc : Map.containsKey charCache encodingValue = true
  · simp only [hc, if_true]
    exact ⟨h _ hc, h⟩
  · simp only [hc, Bool.false_eq_true, if_false]
    refine ⟨trivial, ?_⟩
    intro v hv
    rw [Map.get_put]
    rw [Map.containsKey_put] at hv
    by_cases hve : v = encodingValue
    · simp [hve]
    · simp only [hve, if_false]
      apply h
      simpa [hve] using hv

/-- With caches that hold only results of the uncached lookups, the loop of
`decompressFile` writes what the decoder without caches writes. -/
theorem decompressLoop_eq_decodeLoop (encodingMap : Map Char Str) (bits : List Nat)
    (encodedChar : Str) (isValidCache : Map Str Bool) (charCache : Map Str Char) (output : Str)
    (hv : ValidCacheOk encodingMap isValidCache) (hc : CharCacheOk encodingMap charCache) :
    decompressLoop encodingMap bits encodedChar isValidCache charCache output =
      decodeLoop encodingMap bits encodedChar output := by
  induction bits generalizing encodedChar isValidCache charCache output with
  | nil => rfl
  | cons bit rest ih =>
    unfold decompressLoop decodeLoop
    obtain ⟨h1, h2⟩ := isValidValueL1_spec (encodedChar ++ to_string bit) encodingMap
      isValidCache hv
    obtain ⟨h3, h4⟩ := getValidKeyCached_spec (encodedChar ++ to_string bit) encodingMap
      charCache hc
    simp only [h1, h3]
    split
    · exact ih _ _ _ _ h2 h4
    · exact ih _ _ _ _ h2 hc

theorem decompressFile_eq_decodeLoop (bits : List Nat) (encodingMap : Map Char Str) :
    decompressFile bits encodingMap = decodeLoop encodingMap bits [] [] := by
  unfold decompressFile
  apply decompressLoop_eq_decodeLoop
  · intro v hv
    simp [Map.containsKey] at hv
  · intro v hv
    simp [Map.containsKey] at hv

theorem decodeLoop_cons (encodingMap : Map Char Str) (bit : Nat) (rest : List Nat)
    (encodedChar output : Str) :
    decodeLoop encodingMap (bit :: rest) encodedChar output =
      if isValidValueL2 (encodedChar ++ to_string bit) encodingMap then
        decodeLoop encodingMap rest []
          (writeBit (getValidKey (encodedChar ++ to_string bit) encodingMap) output)
      else decodeLoop encodingMap rest (encodedChar ++ to_string bit) output := rfl

/-- Reading the rest of the code of a key, the decoder writes the key when the
code is complete and not before. -/
theorem decodeLoop_code (encodingMap : Map Char Str) (hpf : Map.PrefixFree encodingMap)
    (c : Char) (hc : c ∈ Map.keys encodingMap)
    (acc suffix : Str) (hcode : acc ++ suffix = Map.get encodingMap c)
    (hsuf : suffix ≠ [] ∨ acc = [])
    (hbits : ∀ x ∈ suffix, x = '0' ∨ x = '1') (hne : Map.get encodingMap c ≠ [])
    (rest : List Nat) (output : Str) :
    decodeLoop encodingMap (suffix.map bitOf ++ rest) acc output =
      decodeLoop encodingMap rest [] (output ++ [c]) := by
  induction suffix generalizing acc with
  | nil =>
    rcases hsuf with h | h
    · exact absurd rfl h
    · subst h
      simp at hcode
      exact absurd hcode.symm hne.symm
  | cons x suffix ih =>
    simp only [List.map_cons, List.cons_append]
    have hx : to_string (bitOf x) = [x] := to_string_bitOf x (hbits x (List.mem_cons_self _ _))
    rw [decodeLoop_cons, hx]
    by_cases hs : suffix = []
    · subst hs
      have hfull : acc ++ [x] = Map.get encodingMap c := hcode
      have hvalid : isValidValueL2 (acc ++ [x]) encodingMap = true :=
        (isValidValueL2_iff _ _).mpr ⟨c, hc, hfull⟩
      simp only [hvalid, if_true, List.map_nil, List.nil_append]
      rw [hfull, getValidKey_of_prefixFree encodingMap hpf c hc]
      rfl
    · have hinvalid : ¬ isValidValueL2 (acc ++ [x]) encodingMap = true := by
        intro hv
        obtain ⟨k, hk, hkv⟩ := (isValidValueL2_iff _ _).mp hv
        have hpre : Map.get encodingMap k <+: Map.get encodingMap c := by
          refine ⟨suffix, ?_⟩
          rw [← hkv, ← hcode]
          simp
        have hkc : k = c := by
          by_contra hne'
          exact hpf k hk c hc hne' hpre
        subst hkc
        have hlen := congrArg List.length hcode
        rw [← hkv] at hlen
        simp at hlen
        exact hs hlen
      simp only [hinvalid, if_false]
      apply ih (acc ++ [x])
      · rw [← hcode]
        simp
      · exact Or.inl hs
      · exact fun y hy => hbits y (List.mem_cons_of_mem _ hy)

/-- The decoder without caches gives back a text of keys from its code. -/
theorem decodeLoop_codeBits (encodingMap : Map Char Str) (hpf : Map.PrefixFree encodingMap)
    (hbits : Map.BitPaths encodingMap)
    (hne : ∀ k ∈ Map.keys encodingMap, Map.get encodingMap k ≠ [])
    (text : Str) (htext : ∀ c ∈ text, c ∈ Map.keys encodingMap) (output : Str) :
    decodeLoop encodingMap (codeBits encodingMap text) [] output = output ++ text := by
  induction text generalizing output with
  | nil => simp [codeBits, decodeLoop]
  | cons c text ih =>
    have hc := htext c (List.mem_cons_self _ _)
    have hstep : codeBits encodingMap (c :: text) =
        (Map.get encodingMap c).map bitOf ++ codeBits encodingMap text := by
      simp [codeBits]
    rw [hstep, decodeLoop_code encodingMap hpf c hc [] (Map.get encodingMap c) rfl (Or.inr rfl)
      (hbits c hc) (hne c hc), ih (fun x hx => htext x (List.mem_cons_of_mem _ hx))]
    simp

/-- C5. Bit-level codec round trip: for every encoding map whose paths are
non-empty strings of `'0'`/`'1'` and pairwise prefix-free, and every sequence
of symbols that are keys of the map, `compressLine` completes, and
`decompressFile` run on the bits it wrote (the concatenated paths, nothing
between them) outputs exactly that sequence. -/
theorem C5_codec_round_trip (encodingMap : Map Char Str)
    (hne : ∀ k ∈ Map.keys encodingMap, Map.get encodingMap k ≠ [])
    (hbits : ∀ k ∈ Map.keys encodingMap, ∀ c ∈ Map.get encodingMap k, c = '0' ∨ c = '1')
    (hpf : ∀ a ∈ Map.keys encodingMap, ∀ b ∈ Map.keys encodingMap, a ≠ b →
      ¬ (Map.get encodingMap a <+: Map.get encodingMap b))
    (text : Str) (htext : ∀ c ∈ text, c ∈ Map.keys encodingMap) :
    ∃ output, compressLine text encodingMap [] = some output ∧
      writtenBits output = codeBits encodingMap text ∧
      decompressFile (writtenBits output) encodingMap = text := by
  refine ⟨_, compressLine_bits text encodingMap (fun ch hch => hbits ch (htext ch hch)) [], ?_, ?_⟩
  · simp [writtenBits_map]
  · rw [decompressFile_eq_decodeLoop]
    simp only [List.nil_append, writtenBits_map]
    rw [decodeLoop_codeBits encodingMap hpf hbits hne text htext]
    rfl

/-- C5, at the map `a -> 1, b -> 00, c -> 01` and the text `abca`. -/
theorem C5_codec_round_trip_witness :
    (∀ k ∈ Map.keys ([('a', ['1']), ('b', ['0', '0']), ('c', ['0', '1'])] : Map Char Str),
      Map.get ([('a', ['1']), ('b', ['0', '0']), ('c', ['0', '1'])] : Map Char Str) k ≠ []) ∧
    ∃ output,
      compressLine ['a', 'b', 'c', 'a'] [('a', ['1']), ('b', ['0', '0']), ('c', ['0', '1'])] []
        = some output ∧
      writtenBits output =
        codeBits [('a', ['1']), ('b', ['0', '0']), ('c', ['0', '1'])] ['a', 'b', 'c', 'a'] ∧
      decompressFile (writtenBits output) [('a', ['1']), ('b', ['0', '0']), ('c', ['0', '1'])]
        = ['a', 'b', 'c', 'a'] :=
  ⟨by decide,
    C5_codec_round_trip [('a', ['1']), ('b', ['0', '0']), ('c', ['0', '1'])]
      (by decide) (by decide) (by decide) ['a', 'b', 'c', 'a'] (by decide)⟩

/-! ## The header: flattening and parsing -/

theorem charAt_drop (h : Str) (i o : Nat) : charAt (h.drop i) o = charAt h (i + o) := by
  simp [charAt, List.getD_eq_getElem?_getD, List.getElem?_drop]

theorem isBeginLeaf_zero (s : Str) : isBeginLeaf s 0 = beginsRecord s := by
  match s with
  | [] => rfl
  | [_] => rfl
  | [_, _] => rfl
  | a :: b :: c :: rest => simp [isBeginLeaf, beginsRecord, charAt]

theorem isBeginLeaf_eq (h : Str) (i : Nat) : isBeginLeaf h i = beginsRecord (h.drop i) := by
  rw [← isBeginLeaf_zero]
  unfold isBeginLeaf
  simp only [charAt_drop, List.length_drop, Nat.zero_add, Nat.add_zero]
  by_cases hlt : i + 2 < h.length
  · have : 2 < h.length - i := by omega
    simp [hlt, this]
  · have : ¬ 2 < h.length - i := by omega
    simp [hlt, this]

theorem isEndLeaf_zero (s : Str) : isEndLeaf s 0 = endsRecord s := by
  match s with
  | [] => rfl
  | [a] => by_cases h : a = ')' <;> simp [isEndLeaf, endsRecord, charAt, h]
  | a :: b :: rest => simp [isEndLeaf, endsRecord, charAt]

theorem isEndLeaf_eq (h : Str) (i : Nat) (hi : i < h.length) :
    isEndLeaf h i = endsRecord (h.drop i) := by
  rw [← isEndLeaf_zero]
  unfold isEndLeaf
  simp only [charAt_drop, List.length_drop, Nat.zero_add, Nat.add_zero]
  have e1 : (i + 1 == h.length) = (1 == h.length - i) := by
    by_cases h1 : i + 1 = h.length
    · have : 1 = h.length - i := by omega
      simp [h1, ← this]
    · have : ¬ 1 = h.length - i := by omega
      simp [h1, this]
  have e2 : decide (i + 1 < h.length) = decide (1 < h.length - i) := by
    by_cases h1 : i + 1 < h.length
    · have : 1 < h.length - i := by omega
      simp [h1, this]
    · have : ¬ 1 < h.length - i := by omega
      simp [h1, this]
  simp only [decide_eq_true_eq] at e2
  by_cases h1 : i + 1 < h.length
  · have h2 : 1 < h.length - i := by omega
    simp only [e1, h1, h2, if_true]
  · have h2 : ¬ 1 < h.length - i := by omega
    simp only [e1, h1, h2, if_false]

theorem record_length (e : Char × Str) : (record e).length = e.2.length + 4 := by
  simp [record]

theorem headerOf_cons (e : Char × Str) (l : List (Char × Str)) :
    headerOf (e :: l) = record e ++ headerOf l := by
  simp [headerOf]

theorem headerOf_head (l : List (Char × Str)) :
    headerOf l = [] ∨ ∃ t, headerOf l = '(' :: t := by
  cases l with
  | nil => exact Or.inl rfl
  | cons e l => exact Or.inr ⟨_, by rw [headerOf_cons]; rfl⟩

theorem beginsRecord_of_head_ne (x : Char) (rest : Str) (h : x ≠ '(') :
    beginsRecord (x :: rest) = false := by
  match rest with
  | [] => rfl
  | [_] => rfl
  | _ :: c :: _ => simp [beginsRecord, h]

theorem endsRecord_of_head_ne (x : Char) (rest : Str) (h : x ≠ ')') :
    endsRecord (x :: rest) = false := by
  match rest with
  | [] => simp [endsRecord, h]
  | _ :: _ => simp [endsRecord, h]

/-- What the header holds from the offset `o` inside a record on. -/
theorem drop_in_record (h : Str) (i : Nat) (e : Char × Str) (tail : Str)
    (hd : h.drop i = record e ++ tail) (o : Nat) (ho : o ≤ (record e).length) :
    h.drop (i + o) = (record e).drop o ++ tail := by
  rw [← List.drop_drop, hd, List.drop_append_of_le_length ho]

theorem begins_at_record (e : Char × Str) (tail : Str) :
    beginsRecord (record e ++ tail) = true := by
  simp [record, beginsRecord]

theorem path_char_ne (p : Str) (hp : ∀ c ∈ p, c = '0' ∨ c = '1') (x : Char)
    (hx : x ∈ p ++ [')']) : x ≠ '(' ∧ x ≠ '.' := by
  rcases List.mem_append.mp hx with h | h
  · rcases hp x h with rfl | rfl <;> decide
  · simp at h
    subst h
    decide

theorem not_begins_in_record (e : Char × Str) (tail : Str)
    (hp : ∀ c ∈ e.2, c = '0' ∨ c = '1') (o : Nat) (h1 : 1 ≤ o) (h2 : o < (record e).length) :
    beginsRecord ((record e).drop o ++ tail) = false := by
  obtain ⟨k, p⟩ := e
  rw [record_length] at h2
  match o, h1 with
  | 1, _ =>
    have hlen : 0 < (p ++ [')']).length := by simp
    obtain ⟨x, xs, hx⟩ := List.exists_cons_of_length_pos hlen
    have hxm : x ∈ p ++ [')'] := by rw [hx]; exact List.mem_cons_self _ _
    have := (path_char_ne p hp x hxm).2
    simp [record, hx, beginsRecord, this]
  | 2, _ =>
    simp only [record, List.drop_succ_cons, List.drop_zero, List.cons_append]
    exact beginsRecord_of_head_ne _ _ (by decide)
  | o + 3, _ =>
    simp only [record, List.drop_succ_cons]
    have hlen : o < (p ++ [')']).length := by simp; simp at h2; omega
    rw [List.drop_eq_getElem_cons hlen, List.cons_append]
    exact beginsRecord_of_head_ne _ _ (path_char_ne p hp _ (List.getElem_mem hlen)).1

theorem not_ends_in_record (e : Char × Str) (tail : Str)
    (hp : ∀ c ∈ e.2, c = '0' ∨ c = '1') (o : Nat) (h2 : o + 1 < (record e).length) :
    endsRecord ((record e).drop o ++ tail) = false := by
  obtain ⟨k, p⟩ := e
  rw [record_length] at h2
  match o with
  | 0 =>
    simp only [record, List.drop_zero, List.cons_append]
    exact endsRecord_of_head_ne _ _ (by decide)
  | 1 => simp [record, endsRecord]
  | 2 =>
    simp only [record, List.drop_succ_cons, List.drop_zero, List.cons_append]
    exact endsRecord_of_head_ne _ _ (by decide)
  | o + 3 =>
    simp only [record, List.drop_succ_cons]
    have hlen : o < p.length := by simp at h2; omega
    have hlen' : o < (p ++ [')']).length := by simp; omega
    rw [List.drop_eq_getElem_cons hlen', List.cons_append]
    apply endsRecord_of_head_ne
    rw [List.getElem_append_left hlen]
    rcases hp _ (List.getElem_mem hlen) with h | h <;> rw [h] <;> decide

theorem ends_at_record (e : Char × Str) (tail : Str)
    (htail : tail = [] ∨ ∃ t, tail = '(' :: t) :
    endsRecord ((record e).drop (e.2.length + 3) ++ tail) = true := by
  obtain ⟨k, p⟩ := e
  have : (record (k, p)).drop (p.length + 3) = [')'] := by
    simp [record, List.drop_succ_cons]
  rw [this]
  rcases htail with rfl | ⟨t, rfl⟩ <;> simp [endsRecord]

theorem isBeginLeaf_record_start (h : Str) (i : Nat) (e : Char × Str) (tail : Str)
    (hd : h.drop i = record e ++ tail) : isBeginLeaf h i = true := by
  rw [isBeginLeaf_eq, hd, begins_at_record]

theorem isBeginLeaf_in_record (h : Str) (i : Nat) (e : Char × Str) (tail : Str)
    (hd : h.drop i = record e ++ tail) (hp : ∀ c ∈ e.2, c = '0' ∨ c = '1') :
    ∀ j ∈ List.range' (i + 1) (e.2.length + 3), isBeginLeaf h j = false := by
  intro j hj
  rw [List.mem_range'_1] at hj
  have hlen := record_length e
  obtain ⟨o, rfl⟩ : ∃ o, j = i + o := ⟨j - i, by omega⟩
  rw [isBeginLeaf_eq, drop_in_record h i e tail hd o (by omega)]
  exact not_begins_in_record e tail hp o (by omega) (by omega)

theorem length_of_drop_eq (h : Str) (i : Nat) (s : Str) (hd : h.drop i = s) (hs : s ≠ []) :
    h.length = i + s.length := by
  have := congrArg List.length hd
  rw [List.length_drop] at this
  have hpos : 0 < s.length := List.length_pos.mpr hs
  omega

theorem isEndLeaf_in_record (h : Str) (i : Nat) (e : Char × Str) (tail : Str)
    (hd : h.drop i = record e ++ tail) (hp : ∀ c ∈ e.2, c = '0' ∨ c = '1') :
    ∀ j ∈ List.range' i (e.2.length + 3), isEndLeaf h j = false := by
  intro j hj
  rw [List.mem_range'_1] at hj
  have hlen := record_length e
  have hh := length_of_drop_eq h i _ hd (by simp [record])
  rw [List.length_append] at hh
  obtain ⟨o, rfl⟩ : ∃ o, j = i + o := ⟨j - i, by omega⟩
  rw [isEndLeaf_eq h _ (by omega), drop_in_record h i e tail hd o (by omega)]
  exact not_ends_in_record e tail hp o (by omega)

theorem isEndLeaf_record_end (h : Str) (i : Nat) (e : Char × Str) (tail : Str)
    (hd : h.drop i = record e ++ tail) (htail : tail = [] ∨ ∃ t, tail = '(' :: t) :
    isEndLeaf h (i + (e.2.length + 3)) = true := by
  have hlen := record_length e
  have hh := length_of_drop_eq h i _ hd (by simp [record])
  rw [List.length_append] at hh
  rw [isEndLeaf_eq h _ (by omega), drop_in_record h i e tail hd _ (by omega)]
  exact ends_at_record e tail htail

/-! ### `getEncodingCount` -/

theorem foldl_count_eq (P : Nat → Bool) (l : List Nat) (c : Nat) :
    l.foldl (fun count i => if P i then count + 1 else count) c = c + l.countP P := by
  induction l generalizing c with
  | nil => simp
  | cons a l ih =>
    rw [List.foldl_cons, ih, List.countP_cons]
    by_cases h : P a = true
    · simp [h]; omega
    · simp [h]

theorem countP_eq_zero_of_false (P : Nat → Bool) (l : List Nat) (h : ∀ j ∈ l, P j = false) :
    l.countP P = 0 := by
  rw [List.countP_eq_zero]
  intro j hj
  simp [h j hj]

theorem range_header_split (i : Nat) (e : Char × Str) (entries : List (Char × Str)) :
    List.range' i (headerOf (e :: entries)).length =
      i :: (List.range' (i + 1) (e.2.length + 3) ++
        List.range' (i + (e.2.length + 4)) (headerOf entries).length) := by
  rw [headerOf_cons, List.length_append, record_length]
  have e1 : e.2.length + 4 + (headerOf entries).length =
      ((headerOf entries).length + (e.2.length + 3)) + 1 := by omega
  rw [e1, List.range'_succ, ← List.range'_append_1]
  have e2 : i + 1 + (e.2.length + 3) = i + (e.2.length + 4) := by omega
  rw [e2]

theorem drop_after_record (h : Str) (i : Nat) (e : Char × Str) (tail : Str)
    (hd : h.drop i = record e ++ tail) : h.drop (i + (e.2.length + 4)) = tail := by
  rw [drop_in_record h i e _ hd _ (by rw [record_length]), ← record_length, List.drop_length]
  rfl

theorem countP_begin_header (h : Str) (entries : List (Char × Str))
    (hp : ∀ e ∈ entries, ∀ c ∈ e.2, c = '0' ∨ c = '1') (i : Nat)
    (hd : h.drop i = headerOf entries) :
    (List.range' i (headerOf entries).length).countP (isBeginLeaf h) = entries.length := by
  induction entries generalizing i with
  | nil => simp [headerOf]
  | cons e entries ih =>
    rw [headerOf_cons] at hd
    have hpe := hp e (List.mem_cons_self _ _)
    have hd' := drop_after_record h i e _ hd
    rw [range_header_split, List.countP_cons, List.countP_append,
      countP_eq_zero_of_false _ _ (isBeginLeaf_in_record h i e _ hd hpe),
      ih (fun e' he' => hp e' (List.mem_cons_of_mem _ he')) _ hd',
      isBeginLeaf_record_start h i e _ hd]
    simp

theorem getEncodingCount_headerOf (entries : List (Char × Str))
    (hp : ∀ e ∈ entries, ∀ c ∈ e.2, c = '0' ∨ c = '1') :
    getEncodingCount (headerOf entries) = entries.length := by
  unfold getEncodingCount
  rw [foldl_count_eq, List.range_eq_range', Nat.zero_add]
  exact countP_begin_header _ entries hp 0 rfl

/-! ### `getDecodedChar` -/

theorem getDecodedCharLoop_skip (h : Str) (index : Nat) (l1 l2 : List Nat) (leafCount : Nat)
    (hskip : ∀ j ∈ l1, isBeginLeaf h j = false) :
    getDecodedCharLoop h index (l1 ++ l2) leafCount =
      getDecodedCharLoop h index l2 leafCount := by
  induction l1 with
  | nil => rfl
  | cons j l1 ih =>
    have hj := hskip j (List.mem_cons_self _ _)
    rw [List.cons_append, getDecodedCharLoop]
    simp only [hj, Bool.false_and, Bool.false_eq_true, if_false]
    exact ih (fun j' hj' => hskip j' (List.mem_cons_of_mem _ hj'))

theorem getDecodedCharLoop_header (h : Str) (entries : List (Char × Str))
    (hp : ∀ e ∈ entries, ∀ c ∈ e.2, c = '0' ∨ c = '1') (i index leafCount : Nat)
    (hd : h.drop i = headerOf entries) (hle : leafCount ≤ index) (e : Char × Str)
    (he : entries[index - leafCount]? = some e) :
    getDecodedCharLoop h index (List.range' i (headerOf entries).length) leafCount = e.1 := by
  induction entries generalizing i leafCount with
  | nil => simp at he
  | cons e0 entries ih =>
    rw [headerOf_cons] at hd
    have hpe := hp e0 (List.mem_cons_self _ _)
    rw [range_header_split, getDecodedCharLoop]
    simp only [isBeginLeaf_record_start h i e0 _ hd, Bool.true_and, if_true]
    by_cases heq : leafCount = index
    · subst heq
      simp only [Nat.sub_self, List.getElem?_cons_zero, Option.some.injEq] at he
      subst he
      simp only [beq_self_eq_true, if_true]
      have hc := charAt_drop h i 1
      rw [hd] at hc
      rw [← hc]
      rfl
    · have hne : (leafCount == index) = false := by simpa using heq
      simp only [hne, Bool.false_eq_true, if_false]
      rw [getDecodedCharLoop_skip h index _ _ _ (isBeginLeaf_in_record h i e0 _ hd hpe)]
      apply ih (fun e' he' => hp e' (List.mem_cons_of_mem _ he')) _ _
        (drop_after_record h i e0 _ hd) (by omega)
      have hsub : index - leafCount = (index - (leafCount + 1)) + 1 := by omega
      rw [hsub, List.getElem?_cons_succ] at he
      exact he

theorem getDecodedChar_headerOf (entries : List (Char × Str))
    (hp : ∀ e ∈ entries, ∀ c ∈ e.2, c = '0' ∨ c = '1') (index : Nat) (e : Char × Str)
    (he : entries[index]? = some e) :
    getDecodedChar (headerOf entries) index = e.1 := by
  unfold getDecodedChar
  rw [List.range_eq_range']
  exact getDecodedCharLoop_header _ entries hp 0 index 0 rfl (Nat.zero_le _) e (by simpa using he)

/-! ### `getDecodedPath` -/

theorem getDecodedPathInner_skip (h : Str) (i : Nat) (l1 l2 : List Nat)
    (hskip : ∀ j ∈ l1, isEndLeaf h j = false) :
    getDecodedPathInner h i (l1 ++ l2) = getDecodedPathInner h i l2 := by
  induction l1 with
  | nil => rfl
  | cons j l1 ih =>
    have hj := hskip j (List.mem_cons_self _ _)
    rw [List.cons_append, getDecodedPathInner]
    simp only [hj, Bool.false_eq_true, if_false]
    exact ih (fun j' hj' => hskip j' (List.mem_cons_of_mem _ hj'))

theorem getDecodedPathInner_record (h : Str) (i : Nat) (e : Char × Str) (tail : Str)
    (hd : h.drop i = record e ++ tail) (hp : ∀ c ∈ e.2, c = '0' ∨ c = '1')
    (htail : tail = [] ∨ ∃ t, tail = '(' :: t) :
    getDecodedPathInner h i (List.range' i (h.length - i)) = some e.2 := by
  have hh := length_of_drop_eq h i _ hd (by simp [record])
  rw [List.length_append, record_length] at hh
  have hlen : h.length - i = (tail.length + 1) + (e.2.length + 3) := by omega
  have hsplit : List.range' i (h.length - i) =
      List.range' i (e.2.length + 3) ++
        ((i + (e.2.length + 3)) :: List.range' (i + (e.2.length + 3) + 1) tail.length) := by
    rw [hlen, ← List.range'_append_1]
    congr 1
  rw [hsplit,
    getDecodedPathInner_skip h i _ _ (isEndLeaf_in_record h i e tail hd hp), getDecodedPathInner]
  simp only [isEndLeaf_record_end h i e tail hd htail, if_true, Option.some.injEq]
  have hcount : ((i + (e.2.length + 3) : Nat) : Int) - ((i + 3 : Nat) : Int) = (e.2.length : Int) := by
    push_cast
    omega
  unfold substr
  rw [hcount]
  simp only [show ¬ ((e.2.length : Int) < 0) by omega, if_false, Int.toNat_ofNat]
  rw [drop_in_record h i e tail hd 3 (by rw [record_length]; omega)]
  obtain ⟨k, p⟩ := e
  simp [record]

theorem getDecodedPathLoop_skip (h : Str) (index : Nat) (l1 l2 : List Nat) (leafCount : Nat)
    (hskip : ∀ j ∈ l1, isBeginLeaf h j = false) :
    getDecodedPathLoop h index (l1 ++ l2) leafCount =
      getDecodedPathLoop h index l2 leafCount := by
  induction l1 with
  | nil => rfl
  | cons j l1 ih =>
    have hj := hskip j (List.mem_cons_self _ _)
    rw [List.cons_append, getDecodedPathLoop]
    simp only [hj, Bool.false_and, Bool.false_eq_true, if_false]
    exact ih (fun j' hj' => hskip j' (List.mem_cons_of_mem _ hj'))

theorem getDecodedPathLoop_header (h : Str) (entries : List (Char × Str))
    (hp : ∀ e ∈ entries, ∀ c ∈ e.2, c = '0' ∨ c = '1') (i index leafCount : Nat)
    (hd : h.drop i = headerOf entries) (hle : leafCount ≤ index) (e : Char × Str)
    (he : entries[index - leafCount]? = some e) :
    getDecodedPathLoop h index (List.range' i (headerOf entries).length) leafCount = e.2 := by
  induction entries generalizing i leafCount with
  | nil => simp at he
  | cons e0 entries ih =>
    rw [headerOf_cons] at hd
    have hpe := hp e0 (List.mem_cons_self _ _)
    rw [range_header_split, getDecodedPathLoop]
    simp only [isBeginLeaf_record_start h i e0 _ hd, Bool.true_and, if_true]
    by_cases heq : leafCount = index
    · subst heq
      simp only [Nat.sub_self, List.getElem?_cons_zero, Option.some.injEq] at he
      subst he
      simp only [beq_self_eq_true, if_true]
      rw [getDecodedPathInner_record h i e0 _ hd hpe (headerOf_head entries)]
    · have hne : (leafCount == index) = false := by simpa using heq
      simp only [hne, Bool.false_eq_true, if_false]
      rw [getDecodedPathLoop_skip h index _ _ _ (isBeginLeaf_in_record h i e0 _ hd hpe)]
      apply ih (fun e' he' => hp e' (List.mem_cons_of_mem _ he')) _ _
        (drop_after_record h i e0 _ hd) (by omega)
      have hsub : index - leafCount = (index - (leafCount + 1)) + 1 := by omega
      rw [hsub, List.getElem?_cons_succ] at he
      exact he

theorem getDecodedPath_headerOf (entries : List (Char × Str))
    (hp : ∀ e ∈ entries, ∀ c ∈ e.2, c = '0' ∨ c = '1') (index : Nat) (e : Char × Str)
    (he : entries[index]? = some e) :
    getDecodedPath (headerOf entries) index = e.2 := by
  unfold getDecodedPath
  rw [List.range_eq_range']
  exact getDecodedPathLoop_header _ entries hp 0 index 0 rfl (Nat.zero_le _) e (by simpa using he)

/-- Parsing the header made of the records of a list of entries whose paths
are strings of `'0'` and `'1'` gives back the symbols and the paths of the
entries, in order. -/
theorem parse_headerOf (entries : List (Char × Str))
    (hp : ∀ e ∈ entries, ∀ c ∈ e.2, c = '0' ∨ c = '1') :
    (List.range (getEncodingCount (headerOf entries))).map
        (fun i => getDecodedChar (headerOf entries) i) = entries.map Prod.fst ∧
    (List.range (getEncodingCount (headerOf entries))).map
        (fun i => getDecodedPath (headerOf entries) i) = entries.map Prod.snd := by
  rw [getEncodingCount_headerOf entries hp]
  constructor
  · apply List.ext_getElem?
    intro n
    by_cases hn : n < entries.length
    · have := getDecodedChar_headerOf entries hp n entries[n] (List.getElem?_eq_getElem hn)
      simp [hn, this, List.getElem?_eq_getElem]
    · have hle : entries.length ≤ n := Nat.le_of_not_lt hn
      rw [List.getElem?_eq_none (by simpa using hle), List.getElem?_eq_none (by simpa using hle)]
  · apply List.ext_getElem?
    intro n
    by_cases hn : n < entries.length
    · have := getDecodedPath_headerOf entries hp n entries[n] (List.getElem?_eq_getElem hn)
      simp [hn, this, List.getElem?_eq_getElem]
    · have hle : entries.length ≤ n := Nat.le_of_not_lt hn
      rw [List.getElem?_eq_none (by simpa using hle), List.getElem?_eq_none (by simpa using hle)]

/-- The header of a tree is made of the records of the entries of its
encoding map, in the order of the map. -/
theorem flattenTreeToHeader_eq (t : HuffmanNode) :
    flattenTreeToHeader t = headerOf (buildEncodingMap t) := by
  have hwf := buildEncodingMap_WF t
  have hkeys : ∀ k ∈ Map.keys (buildEncodingMap t), k ≠ DEFAULT_NODE_CHAR :=
    fun k hk => ((buildEncodingMap_mem_keys t k).mp hk).2
  unfold flattenTreeToHeader
  simp only
  have hgen : ∀ (keys : List Char) (acc : Str), (∀ k ∈ keys, k ≠ DEFAULT_NODE_CHAR) →
      keys.foldl (fun header key =>
        header ++ (if key ≠ DEFAULT_NODE_CHAR then
          ['('] ++ [key] ++ ['.'] ++ Map.get (buildEncodingMap t) key ++ [')'] else [])) acc =
      acc ++ headerOf (keys.map (fun k => (k, Map.get (buildEncodingMap t) k))) := by
    intro keys
    induction keys with
    | nil => intro acc _; simp [headerOf]
    | cons k keys ih =>
      intro acc hk
      rw [List.foldl_cons, ih _ (fun k' hk' => hk k' (List.mem_cons_of_mem _ hk'))]
      have hne := hk k (List.mem_cons_self _ _)
      simp [hne, headerOf, record]
  rw [hgen _ [] hkeys, Map.eq_map_keys _ hwf]
  rfl

/-! ## Rebuilding the tree from the header -/

theorem recreateLeaf_node (ch : Char) (zero one : HuffmanNode) (key c : Char) (rest : Str) :
    recreateLeaf (HuffmanNode.node ch zero one) key (c :: rest) =
      if c = '0' then HuffmanNode.node ch (place zero key rest) one
      else HuffmanNode.node ch zero (place one key rest) := by
  cases rest with
  | nil => simp [recreateLeaf, place]
  | cons d rest => simp [recreateLeaf, place]

theorem recreateLeaf_nil_path (root : HuffmanNode) (key : Char) :
    recreateLeaf root key [] = root := by
  cases root <;> simp [recreateLeaf]

theorem recreateLeaf_isNull (root : HuffmanNode) (key : Char) (path : Str)
    (h : root.isNull = false) : (recreateLeaf root key path).isNull = false := by
  cases root with
  | nil => simp [HuffmanNode.isNull] at h
  | node ch zero one =>
    cases path with
    | nil => simp [recreateLeaf, HuffmanNode.isNull]
    | cons c rest =>
      rw [recreateLeaf_node]
      split <;> rfl

theorem orFresh_isNull (t : HuffmanNode) : t.orFresh.isNull = false := by
  cases t <;> rfl

theorem orFresh_of_not_null (t : HuffmanNode) (h : t.isNull = false) : t.orFresh = t := by
  cases t with
  | nil => simp [HuffmanNode.isNull] at h
  | node _ _ _ => rfl

theorem place_isNull (child : HuffmanNode) (key : Char) (rest : Str) :
    (place child key rest).isNull = false := by
  cases rest with
  | nil => rfl
  | cons c rest => exact recreateLeaf_isNull _ _ _ (orFresh_isNull child)

theorem recreateFold_isNull (root : HuffmanNode) (entries : List (Char × Str))
    (h : root.isNull = false) : (recreateFold root entries).isNull = false := by
  induction entries generalizing root with
  | nil => exact h
  | cons e entries ih => exact ih _ (recreateLeaf_isNull root e.1 e.2 h)

theorem recreateAll_eq (root : HuffmanNode) (entries : List (Char × Str)) :
    recreateAll root (entries.map Prod.fst) (entries.map Prod.snd) =
      recreateFold root entries := by
  induction entries generalizing root with
  | nil => cases root <;> rfl
  | cons e entries ih =>
    simp only [List.map_cons, recreateAll]
    exact ih _

/-- Placing leaves with non-empty paths in a node changes its two children
separately: the `zero` child receives the leaves whose path starts with `'0'`,
the `one` child the other leaves. -/
theorem recreateFold_node (entries : List (Char × Str)) (hne : ∀ e ∈ entries, e.2 ≠ [])
    (ch : Char) (zero one : HuffmanNode) :
    recreateFold (HuffmanNode.node ch zero one) entries =
      HuffmanNode.node ch (placeAll zero (zeroSide entries)) (placeAll one (oneSide entries)) := by
  induction entries generalizing zero one with
  | nil => rfl
  | cons e entries ih =>
    obtain ⟨k, p⟩ := e
    have hp := hne (k, p) (List.mem_cons_self _ _)
    have ih' := fun z o => ih (fun e he => hne e (List.mem_cons_of_mem _ he)) z o
    cases p with
    | nil => exact absurd rfl hp
    | cons c rest =>
      have hstep : recreateFold (HuffmanNode.node ch zero one) ((k, c :: rest) :: entries) =
          recreateFold (recreateLeaf (HuffmanNode.node ch zero one) k (c :: rest)) entries := rfl
      rw [hstep, recreateLeaf_node]
      by_cases hc : c = '0'
      · simp only [hc, if_true, ih']
        simp [zeroSide, oneSide, placeAll]
      · simp only [hc, if_false, ih']
        simp [zeroSide, oneSide, placeAll, hc]

/-- Placing leaves with non-empty paths below a child. -/
theorem placeAll_eq_recreateFold (entries : List (Char × Str)) (hne : ∀ e ∈ entries, e.2 ≠ [])
    (hnil : entries ≠ []) (child : HuffmanNode) :
    placeAll child entries = recreateFold child.orFresh entries := by
  induction entries generalizing child with
  | nil => exact absurd rfl hnil
  | cons e entries ih =>
    obtain ⟨k, p⟩ := e
    have hp := hne (k, p) (List.mem_cons_self _ _)
    cases p with
    | nil => exact absurd rfl hp
    | cons c rest =>
      have hstep : placeAll child ((k, c :: rest) :: entries) =
          placeAll (recreateLeaf child.orFresh k (c :: rest)) entries := rfl
      have hstep2 : recreateFold child.orFresh ((k, c :: rest) :: entries) =
          recreateFold (recreateLeaf child.orFresh k (c :: rest)) entries := rfl
      rw [hstep, hstep2]
      by_cases hent : entries = []
      · subst hent
        rfl
      · rw [ih (fun e he => hne e (List.mem_cons_of_mem _ he)) hent,
          orFresh_of_not_null _ (recreateLeaf_isNull _ _ _ (orFresh_isNull child))]

theorem placeAll_isNull (entries : List (Char × Str)) (hnil : entries ≠ []) (child : HuffmanNode) :
    (placeAll child entries).isNull = false := by
  induction entries generalizing child with
  | nil => exact absurd rfl hnil
  | cons e entries ih =>
    have hstep : placeAll child (e :: entries) = placeAll (place child e.1 e.2) entries := rfl
    rw [hstep]
    by_cases hent : entries = []
    · subst hent
      exact place_isNull _ _ _
    · exact ih hent _

theorem mem_zeroSide (entries : List (Char × Str)) (e : Char × Str) :
    e ∈ zeroSide entries ↔ (e.1, '0' :: e.2) ∈ entries := by
  unfold zeroSide
  rw [List.mem_filterMap]
  constructor
  · rintro ⟨⟨k, p⟩, hmem, hf⟩
    cases p with
    | nil => simp at hf
    | cons c rest =>
      by_cases hc : c = '0'
      · simp only [hc, if_true, Option.some.injEq] at hf
        subst hf
        rw [hc] at hmem
        exact hmem
      · simp [hc] at hf
  · intro h
    exact ⟨_, h, by simp⟩

theorem mem_oneSide (entries : List (Char × Str)) (e : Char × Str) :
    e ∈ oneSide entries ↔ ∃ c, c ≠ '0' ∧ (e.1, c :: e.2) ∈ entries := by
  unfold oneSide
  rw [List.mem_filterMap]
  constructor
  · rintro ⟨⟨k, p⟩, hmem, hf⟩
    cases p with
    | nil => simp at hf
    | cons c rest =>
      by_cases hc : c = '0'
      · simp [hc] at hf
      · simp only [hc, if_false, Option.some.injEq] at hf
        subst hf
        exact ⟨c, hc, hmem⟩
  · rintro ⟨c, hc, h⟩
    exact ⟨_, h, by simp [hc]⟩

theorem cons_prefix_cons (c : Char) (p q : Str) : (c :: p) <+: (c :: q) ↔ p <+: q := by
  constructor
  · rintro ⟨r, hr⟩
    exact ⟨r, by simpa using hr⟩
  · rintro ⟨r, hr⟩
    exact ⟨r, by simp [hr]⟩

theorem zeroSide_prefixFree (entries : List (Char × Str)) (h : PathsPrefixFree entries) :
    PathsPrefixFree (zeroSide entries) := by
  unfold PathsPrefixFree zeroSide
  apply List.Pairwise.filterMap _ _ h
  intro a a' hR b hb b' hb'
  obtain ⟨ka, pa⟩ := a
  obtain ⟨ka', pa'⟩ := a'
  cases pa with
  | nil => simp at hb
  | cons c rest =>
    cases pa' with
    | nil => simp at hb'
    | cons c' rest' =>
      by_cases hc : c = '0'
      · by_cases hc' : c' = '0'
        · simp [hc, hc'] at hb hb'
          subst hb hb' hc hc'
          simp only [cons_prefix_cons] at hR
          exact hR
        · simp [hc'] at hb'
      · simp [hc] at hb

theorem oneSide_prefixFree (entries : List (Char × Str))
    (hbits : ∀ e ∈ entries, ∀ c ∈ e.2, c = '0' ∨ c = '1') (h : PathsPrefixFree entries) :
    PathsPrefixFree (oneSide entries) := by
  unfold PathsPrefixFree at h
  have h' : List.Pairwise (fun a b : Char × Str =>
      (∀ c ∈ a.2, c = '0' ∨ c = '1') ∧ (∀ c ∈ b.2, c = '0' ∨ c = '1') ∧
        ¬ (a.2 <+: b.2) ∧ ¬ (b.2 <+: a.2)) entries :=
    List.Pairwise.imp_of_mem (fun ha hb hR => ⟨hbits _ ha, hbits _ hb, hR⟩) h
  unfold PathsPrefixFree oneSide
  apply List.Pairwise.filterMap _ _ h'
  intro a a' hR b hb b' hb'
  obtain ⟨ka, pa⟩ := a
  obtain ⟨ka', pa'⟩ := a'
  cases pa with
  | nil => simp at hb
  | cons c rest =>
    cases pa' with
    | nil => simp at hb'
    | cons c' rest' =>
      by_cases hc : c = '0'
      · simp [hc] at hb
      · by_cases hc' : c' = '0'
        · simp [hc'] at hb'
        · simp [hc, hc'] at hb hb'
          subst hb hb'
          have h1 : c = '1' := by
            rcases hR.1 c (List.mem_cons_self _ _) with h | h
            · exact absurd h hc
            · exact h
          have h2 : c' = '1' := by
            rcases hR.2.1 c' (List.mem_cons_self _ _) with h | h
            · exact absurd h hc'
            · exact h
          subst h1 h2
          have := hR.2.2
          simp only [cons_prefix_cons] at this
          exact this

/-- A list without prefix among its paths that holds the empty path holds
nothing else. -/
theorem prefixFree_nil_path (entries : List (Char × Str)) (h : PathsPrefixFree entries)
    (k : Char) (hk : (k, []) ∈ entries) : entries = [(k, [])] := by
  match entries, h, hk with
  | [e], _, hk =>
    have := List.mem_singleton.mp hk
    rw [this]
  | e1 :: e2 :: rest, h, hk =>
    exfalso
    have hc := List.pairwise_cons.mp h
    rcases List.mem_cons.mp hk with h1 | h1
    · have := (hc.1 e2 (List.mem_cons_self _ _)).1
      rw [← h1] at this
      exact this (List.nil_prefix)
    · have := (hc.1 (k, []) h1).2
      exact this (List.nil_prefix)

/-- The leaves of the tree made by placing the entries of a list whose paths
are strings of `'0'` and `'1'`, none a prefix of another, are the entries of
the list; the tree is absent only for the empty list. -/
theorem leafPaths_placeAll (n : Nat) (entries : List (Char × Str))
    (hlen : ∀ e ∈ entries, e.2.length ≤ n)
    (hbits : ∀ e ∈ entries, ∀ c ∈ e.2, c = '0' ∨ c = '1')
    (hpf : PathsPrefixFree entries) :
    ∀ e, e ∈ leafPaths (placeAll HuffmanNode.nil entries) ↔ e ∈ entries := by
  induction n generalizing entries with
  | zero =>
    cases entries with
    | nil => intro e; simp [placeAll, leafPaths]
    | cons e0 rest =>
      obtain ⟨k, p⟩ := e0
      have hp : p = [] := List.length_eq_zero.mp (Nat.le_zero.mp (hlen (k, p) (List.mem_cons_self _ _)))
      subst hp
      have := prefixFree_nil_path _ hpf k (List.mem_cons_self _ _)
      rw [this]
      intro e
      simp [placeAll, place, leafPaths_leaf]
  | succ n ih =>
    by_cases hempty : ∃ k, (k, []) ∈ entries
    · obtain ⟨k, hk⟩ := hempty
      have := prefixFree_nil_path _ hpf k hk
      rw [this]
      intro e
      simp [placeAll, place, leafPaths_leaf]
    · have hne : ∀ e ∈ entries, e.2 ≠ [] := by
        intro e he hp
        apply hempty
        refine ⟨e.1, ?_⟩
        rw [← hp]
        exact he
      cases hent : entries with
      | nil => intro e; simp [placeAll, leafPaths]
      | cons e0 rest =>
        rw [← hent]
        have hnil : entries ≠ [] := by rw [hent]; simp
        rw [placeAll_eq_recreateFold entries hne hnil]
        have hroot : HuffmanNode.nil.orFresh =
            HuffmanNode.node DEFAULT_NODE_CHAR HuffmanNode.nil HuffmanNode.nil := rfl
        rw [hroot, recreateFold_node entries hne]
        have hz := ih (zeroSide entries)
          (by
            intro e he
            have := hlen _ ((mem_zeroSide entries e).mp he)
            simp at this
            exact this)
          (by
            intro e he c hc
            exact hbits _ ((mem_zeroSide entries e).mp he) c (List.mem_cons_of_mem _ hc))
          (zeroSide_prefixFree entries hpf)
        have ho := ih (oneSide entries)
          (by
            intro e he
            obtain ⟨c, _, hm⟩ := (mem_oneSide entries e).mp he
            have := hlen _ hm
            simp at this
            exact this)
          (by
            intro e he c hc
            obtain ⟨c', _, hm⟩ := (mem_oneSide entries e).mp he
            exact hbits _ hm c (List.mem_cons_of_mem _ hc))
          (oneSide_prefixFree entries hbits hpf)
        have hsome : zeroSide entries ≠ [] ∨ oneSide entries ≠ [] := by
          obtain ⟨k, p⟩ := e0
          have hmem : (k, p) ∈ entries := by rw [hent]; exact List.mem_cons_self _ _
          have hp := hne _ hmem
          cases p with
          | nil => exact absurd rfl hp
          | cons c q =>
            by_cases hc : c = '0'
            · left
              intro hz0
              have : (k, q) ∈ zeroSide entries := (mem_zeroSide entries (k, q)).mpr (by rw [← hc]; exact hmem)
              rw [hz0] at this
              simp at this
            · right
              intro ho0
              have : (k, q) ∈ oneSide entries := (mem_oneSide entries (k, q)).mpr ⟨c, hc, hmem⟩
              rw [ho0] at this
              simp at this
        have hnotleaf : ((placeAll HuffmanNode.nil (zeroSide entries)).isNull &&
            (placeAll HuffmanNode.nil (oneSide entries)).isNull) = false := by
          rcases hsome with h | h
          · simp [placeAll_isNull _ h]
          · simp [placeAll_isNull _ h]
        intro e
        simp only [leafPaths, hnotleaf, Bool.false_eq_true, if_false, List.mem_append,
          List.mem_map]
        constructor
        · rintro (⟨e', he', rfl⟩ | ⟨e', he', rfl⟩)
          · exact (mem_zeroSide entries e').mp ((hz e').mp he')
          · obtain ⟨c, hc, hm⟩ := (mem_oneSide entries e').mp ((ho e').mp he')
            have hc1 : c = '1' := by
              rcases hbits _ hm c (List.mem_cons_self _ _) with h | h
              · exact absurd h hc
              · exact h
            rw [← hc1]
            exact hm
        · intro he
          obtain ⟨k, p⟩ := e
          have hp := hne _ he
          cases p with
          | nil => exact absurd rfl hp
          | cons c q =>
            rcases hbits _ he c (List.mem_cons_self _ _) with hc | hc
            · left
              subst hc
              exact ⟨(k, q), (hz (k, q)).mpr ((mem_zeroSide entries (k, q)).mpr he), rfl⟩
            · right
              subst hc
              exact ⟨(k, q), (ho (k, q)).mpr
                ((mem_oneSide entries (k, q)).mpr ⟨'1', by decide, he⟩), rfl⟩

theorem recreateTreeFromHeader_headerOf (entries : List (Char × Str))
    (hbits : ∀ e ∈ entries, ∀ c ∈ e.2, c = '0' ∨ c = '1') :
    recreateTreeFromHeader (headerOf entries) =
      recreateFold (HuffmanNode.join HuffmanNode.nil HuffmanNode.nil) entries := by
  unfold recreateTreeFromHeader recreateInto
  simp only
  rw [(parse_headerOf entries hbits).1, (parse_headerOf entries hbits).2, recreateAll_eq]

theorem buildEncodingMap_mem_leafPaths (t : HuffmanNode) (e : Char × Str)
    (he : e ∈ buildEncodingMap t) : e ∈ leafPaths t ∧ e.1 ≠ DEFAULT_NODE_CHAR := by
  obtain ⟨k, p⟩ := e
  have hk : k ∈ Map.keys (buildEncodingMap t) := Map.mem_keys_of_mem _ k p he
  have hg := Map.get_of_mem _ (buildEncodingMap_WF t) k p he
  have := buildEncodingMap_get_mem t k hk
  rw [hg] at this
  exact ⟨this, ((buildEncodingMap_mem_keys t k).mp hk).2⟩

theorem buildEncodingMap_prefixFree (t : HuffmanNode) :
    PathsPrefixFree (buildEncodingMap t) := by
  have hwf : List.Pairwise (fun a b : Char × Str => a.1.toNat < b.1.toNat) (buildEncodingMap t) := by
    have h := buildEncodingMap_WF t
    unfold Map.WF Map.keys at h
    rw [List.pairwise_map] at h
    exact h
  refine List.Pairwise.imp_of_mem ?_ hwf
  intro a b ha hb hlt
  have hne : a.1 ≠ b.1 := by
    intro h
    rw [h] at hlt
    exact lt_irrefl _ hlt
  have ha' := (buildEncodingMap_mem_leafPaths t a ha).1
  have hb' := (buildEncodingMap_mem_leafPaths t b hb).1
  constructor
  · intro hp
    exact hne (leafPaths_prefix_eq t a.1 b.1 a.2 b.2 ha' hb' hp).1
  · intro hp
    exact hne (leafPaths_prefix_eq t b.1 a.1 b.2 a.2 hb' ha' hp).1.symm

/-- The encoding map of a tree whose leaves are the entries of a well-formed
map without the sentinel is that map. -/
theorem buildEncodingMap_of_leafPaths (r : HuffmanNode) (m : Map Char Str) (hwf : Map.WF m)
    (hnn : ∀ e ∈ m, e.1 ≠ DEFAULT_NODE_CHAR) (h : ∀ e, e ∈ leafPaths r ↔ e ∈ m) :
    buildEncodingMap r = m := by
  apply Map.ext_of_mem _ _ (buildEncodingMap_WF r) hwf
  intro e
  obtain ⟨k, p⟩ := e
  constructor
  · intro he
    exact (h _).mp (buildEncodingMap_mem_leafPaths r _ he).1
  · intro he
    have hleaf : (k, p) ∈ leafPaths r := (h _).mpr he
    have hk : k ∈ Map.keys (buildEncodingMap r) :=
      (buildEncodingMap_mem_keys r k).mpr ⟨List.mem_map.mpr ⟨(k, p), hleaf, rfl⟩, hnn _ he⟩
    have hg := buildEncodingMap_get_mem r k hk
    have hm := (h _).mp hg
    have e1 := Map.get_of_mem m hwf k _ hm
    have e2 := Map.get_of_mem m hwf k _ he
    rw [Map.mem_iff_get _ (buildEncodingMap_WF r)]
    exact ⟨(Map.mem_keys_iff _ k).mp hk, by rw [← e1, e2]⟩

/-- The tree rebuilt from the header of a tree in which no leaf is at the
root has the encoding map of the tree. -/
theorem buildEncodingMap_recreate (t : HuffmanNode) (hne : ∀ e ∈ leafPaths t, e.2 ≠ []) :
    buildEncodingMap (recreateTreeFromHeader (flattenTreeToHeader t)) = buildEncodingMap t := by
  have hmem := buildEncodingMap_mem_leafPaths t
  have hbits : ∀ e ∈ buildEncodingMap t, ∀ c ∈ e.2, c = '0' ∨ c = '1' :=
    fun e he => leafPaths_bits t e (hmem e he).1
  rw [flattenTreeToHeader_eq, recreateTreeFromHeader_headerOf _ hbits]
  by_cases hnil : buildEncodingMap t = []
  · rw [hnil]
    rfl
  · have hne' : ∀ e ∈ buildEncodingMap t, e.2 ≠ [] := fun e he => hne e (hmem e he).1
    have hroot : HuffmanNode.join HuffmanNode.nil HuffmanNode.nil = HuffmanNode.nil.orFresh := rfl
    rw [hroot, ← placeAll_eq_recreateFold _ hne' hnil]
    apply buildEncodingMap_of_leafPaths _ _ (buildEncodingMap_WF t) (fun e he => (hmem e he).2)
    exact leafPaths_placeAll ((buildEncodingMap t).map (fun e => e.2.length)).sum _
      (fun e he => List.single_le_sum (fun _ _ => Nat.zero_le _) _
        (List.mem_map.mpr ⟨e, he, rfl⟩))
      hbits (buildEncodingMap_prefixFree t)

/-- C2. Header round trip: for every frequency table with at least two
symbols, `buildEncodingTree` returns a tree `t`, and the encoding map of the
tree rebuilt from the header of `t` is the encoding map of `t`: the same
symbol-to-path pairs. -/
theorem C2_header_round_trip (freqTable : Map Char Nat) (h2 : 2 ≤ (Map.keys freqTable).length) :
    ∃ t, buildEncodingTree freqTable = some t ∧
      buildEncodingMap (recreateTreeFromHeader (flattenTreeToHeader t)) = buildEncodingMap t := by
  have hne : freqTable ≠ [] := by
    intro h
    rw [h] at h2
    simp [Map.keys] at h2
  obtain ⟨t, ht, hfull, hperm⟩ := buildEncodingTree_spec freqTable hne
  refine ⟨t, ht, buildEncodingMap_recreate t ?_⟩
  apply isFull_paths_ne_nil t hfull
  rw [hperm.length_eq]
  exact h2

/-- C2, at the table `a:3, b:1`. -/
theorem C2_header_round_trip_witness :
    2 ≤ (Map.keys ([('a', 3), ('b', 1)] : Map Char Nat)).length ∧
    ∃ t, buildEncodingTree [('a', 3), ('b', 1)] = some t ∧
      buildEncodingMap (recreateTreeFromHeader (flattenTreeToHeader t)) = buildEncodingMap t :=
  ⟨by decide, C2_header_round_trip [('a', 3), ('b', 1)] (by decide)⟩

theorem leafPaths_ne_nil_of_isFull (t : HuffmanNode) (h : t.isFull = true) :
    leafPaths t ≠ [] := by
  induction t with
  | nil => simp [HuffmanNode.isFull] at h
  | node ch zero one ihz _ =>
    by_cases hleaf : (zero.isNull && one.isNull) = true
    · simp [leafPaths, hleaf]
    · have hleaf' : (zero.isNull && one.isNull) = false := by simpa using hleaf
      simp only [HuffmanNode.isFull, hleaf', Bool.false_or, Bool.and_eq_true] at h
      simp only [leafPaths, hleaf', Bool.false_eq_true, if_false]
      intro hnil
      have := List.append_eq_nil.mp hnil
      exact ihz h.1.2 (List.map_eq_nil_iff.mp this.1)

theorem fedText_cons (c : Char) (rest : Str) (h : rest ≠ []) :
    fedText (c :: rest) = c :: fedText rest := by
  cases rest with
  | nil => exact absurd rfl h
  | cons d rest => rfl

/-- What `getline` reads from a stream that is not exhausted. -/
theorem getline_spec (s : Str) (hs : s ≠ []) :
    ∃ line rest, getline s = some (line, rest) ∧ rest.length < s.length ∧
      fedText s = line ++ '\n' :: fedText rest := by
  induction s with
  | nil => exact absurd rfl hs
  | cons c s ih =>
    by_cases hc : c = '\n'
    · refine ⟨[], s, by simp [getline, hc], by simp, ?_⟩
      cases s with
      | nil => simp [fedText, hc]
      | cons d s => simp [fedText, hc]
    · cases s with
      | nil =>
        refine ⟨[c], [], by simp [getline, hc], by simp, ?_⟩
        simp [fedText, hc]
      | cons d s =>
        obtain ⟨line, rest, hg, hlen, hfed⟩ := ih (by simp)
        refine ⟨c :: line, rest, ?_, ?_, ?_⟩
        · rw [getline]
          simp only [hc, if_false, hg]
        · simp only [List.length_cons] at hlen ⊢
          omega
        · rw [fedText_cons c _ (by simp), hfed]
          rfl

theorem codeBits_append (m : Map Char Str) (a b : Str) :
    codeBits m (a ++ b) = codeBits m a ++ codeBits m b := by
  simp [codeBits]

theorem compressLine_append (a b : Str) (m : Map Char Str) (output : HuffmanOutputFile) :
    compressLine (a ++ b) m output =
      (compressLine a m output).bind (fun output1 => compressLine b m output1) := by
  induction a generalizing output with
  | nil => simp [compressLine]
  | cons ch a ih =>
    simp only [List.cons_append, compressLine]
    cases writeCode (Map.get m ch) (List.range (Map.get m ch).length) output with
    | none => rfl
    | some output1 => exact ih output1

/-- The loop of `compressFile` ends within `fuel` iterations when `fuel`
exceeds the length of the unread input, and it hands to `compressLine`, piece
by piece, the input with a newline added when the input does not end with
one. -/
theorem compressFileLoop_eq (m : Map Char Str) (fuel : Nat) (s : Str) (hfuel : s.length < fuel)
    (output : HuffmanOutputFile) :
    compressFileLoop m fuel (getline s) output = compressLine (fedText s) m output := by
  induction fuel generalizing s output with
  | zero => omega
  | succ fuel ih =>
    cases hs : s with
    | nil => simp [getline, compressFileLoop, fedText, compressLine]
    | cons c s' =>
      rw [← hs]
      obtain ⟨line, rest, hg, hlen, hfed⟩ := getline_spec s (by rw [hs]; simp)
      have hsplit : line ++ '\n' :: fedText rest = (line ++ ['\n']) ++ fedText rest := by simp
      rw [hg, compressFileLoop, hfed, hsplit, compressLine_append (line ++ ['\n']) (fedText rest)]
      cases compressLine (line ++ ['\n']) m output with
      | none => rfl
      | some output1 => exact ih rest (by omega) output1

/-- With paths made of `'0'` and `'1'`, the loop of `compressFile` writes the
bits of the paths of the characters handed to `compressLine`, in order, and
nothing else; `fuel` iterations are enough when `fuel` exceeds the length of
the unread input. -/
theorem compressFileLoop_bits (m : Map Char Str)
    (hbits : ∀ ch : Char, ∀ c ∈ Map.get m ch, c = '0' ∨ c = '1')
    (fuel : Nat) (s : Str) (hfuel : s.length < fuel) (output : HuffmanOutputFile) :
    compressFileLoop m fuel (getline s) output =
      some (output ++ (codeBits m (fedText s)).map OutCall.writeBit) := by
  rw [compressFileLoop_eq m fuel s hfuel, compressLine_bits _ m (fun ch _ => hbits ch)]

theorem compressFile_eq (input header : Str) (m : Map Char Str)
    (hbits : ∀ ch : Char, ∀ c ∈ Map.get m ch, c = '0' ∨ c = '1') :
    compressFile input header m =
      some (OutCall.writeHeader (header ++ ['\n']) ::
        (codeBits m (fedText input)).map OutCall.writeBit) := by
  unfold compressFile
  simp only
  rw [compressFileLoop_bits m hbits _ input (by omega)]
  rfl

/-- Every path that the encoding map of a tree returns is made of `'0'` and
`'1'`. -/
theorem buildEncodingMap_get_bits (t : HuffmanNode) (ch : Char) :
    ∀ c ∈ Map.get (buildEncodingMap t) ch, c = '0' ∨ c = '1' := by
  by_cases hk : ch ∈ Map.keys (buildEncodingMap t)
  · exact leafPaths_bits t _ (buildEncodingMap_get_mem t ch hk)
  · have : Map.containsKey (buildEncodingMap t) ch = false := by
      rw [Map.mem_keys_iff] at hk
      simpa using hk
    rw [Map.get_of_not_containsKey _ _ this]
    intro c hc
    simp [CppDefault.dflt] at hc

theorem decompress_ofOutput (header : Str) (bits : List Nat) :
    decompress (HuffmanInputFile.ofOutput
      (OutCall.writeHeader (header ++ ['\n']) :: bits.map OutCall.writeBit)) =
      decompressFile bits (buildEncodingMap (recreateTreeFromHeader header)) := by
  have h1 : writtenHeader (OutCall.writeHeader (header ++ ['\n']) :: bits.map OutCall.writeBit)
      = header ++ ['\n'] := by
    simp [writtenHeader, writtenHeader_map]
  have h2 : writtenBits (OutCall.writeHeader (header ++ ['\n']) :: bits.map OutCall.writeBit)
      = bits := by
    simp [writtenBits, writtenBits_map]
  unfold decompress HuffmanInputFile.ofOutput
  simp only [h1, h2]
  have h3 : substr (header ++ ['\n']) 0 (((header ++ ['\n']).length : Int) - 1) = header := by
    unfold substr
    have : (((header ++ ['\n']).length : Int) - 1) = (header.length : Int) := by
      simp
    rw [this]
    simp
  rw [h3]

/-- What `compress` writes for an input that is not empty: the header of the
tree of its frequency table, and the code of the text handed to
`compressLine`. -/
theorem compress_eq (s : Str) (hs : s ≠ []) :
    ∃ t, buildEncodingTree (buildFrequencyTable s) = some t ∧
      compress s = some (OutCall.writeHeader (flattenTreeToHeader t ++ ['\n']) ::
        (codeBits (buildEncodingMap t) (fedText s)).map OutCall.writeBit) := by
  have hne : buildFrequencyTable s ≠ [] := by
    intro h
    obtain ⟨c, hc⟩ := List.exists_mem_of_ne_nil s hs
    have := (buildFrequencyTable_mem_keys s c).mpr hc
    rw [h] at this
    simp [Map.keys] at this
  obtain ⟨t, ht, _, _⟩ := buildEncodingTree_spec _ hne
  refine ⟨t, ht, ?_⟩
  unfold compress
  simp only [ht]
  exact compressFile_eq s _ _ (buildEncodingMap_get_bits t)

theorem length_ge_two_of_mem {α : Type} (l : List α) (a b : α) (ha : a ∈ l) (hb : b ∈ l)
    (hab : a ≠ b) : 2 ≤ l.length := by
  match l, ha, hb with
  | [x], ha, hb =>
    simp only [List.mem_singleton] at ha hb
    exact absurd (ha.trans hb.symm) hab
  | _ :: _ :: _, _, _ => simp

theorem fedText_of_getLast (s : Str) (h : s.getLast? = some '\n') : fedText s = s := by
  induction s with
  | nil => rfl
  | cons c s ih =>
    cases s with
    | nil =>
      simp at h
      simp [fedText, h]
    | cons d s =>
      rw [fedText_cons c _ (by simp), ih (by simpa [List.getLast?_cons_cons] using h)]

theorem fedText_of_not_mem (s : Str) (hs : s ≠ []) (h : '\n' ∉ s) :
    fedText s = s ++ ['\n'] := by
  induction s with
  | nil => exact absurd rfl hs
  | cons c s ih =>
    cases s with
    | nil =>
      have hc : ¬ c = '\n' := by
        intro hc
        apply h
        simp [hc]
      simp [fedText, hc]
    | cons d s =>
      rw [fedText_cons c _ (by simp), ih (by simp) (fun hm => h (List.mem_cons_of_mem _ hm))]
      rfl

/-- Round trip on the inputs on which the pipeline is lossless: at least two
distinct bytes, no NUL byte, and a newline at the end or no newline at all. -/
theorem round_trip_core (s : Str) (a b : Char) (ha : a ∈ s) (hb : b ∈ s) (hab : a ≠ b)
    (hnul : DEFAULT_NODE_CHAR ∉ s) (hnl : s.getLast? = some '\n' ∨ '\n' ∉ s) :
    ∃ output, compress s = some output ∧
      decompress (HuffmanInputFile.ofOutput output) = s := by
  have hs : s ≠ [] := List.ne_nil_of_mem ha
  have hne : buildFrequencyTable s ≠ [] := by
    intro h
    have := (buildFrequencyTable_mem_keys s a).mpr ha
    rw [h] at this
    simp [Map.keys] at this
  obtain ⟨t, ht, hfull, hperm⟩ := buildEncodingTree_spec _ hne
  obtain ⟨t', ht', hc⟩ := compress_eq s hs
  rw [ht] at ht'
  injection ht' with ht'
  subst ht'
  refine ⟨_, hc, ?_⟩
  rw [decompress_ofOutput]
  have hlen : 2 ≤ (leafSymbols t).length := by
    rw [hperm.length_eq]
    exact length_ge_two_of_mem _ a b ((buildFrequencyTable_mem_keys s a).mpr ha)
      ((buildFrequencyTable_mem_keys s b).mpr hb) hab
  have hpaths := isFull_paths_ne_nil t hfull hlen
  rw [buildEncodingMap_recreate t hpaths, decompressFile_eq_decodeLoop]
  have hkeys : ∀ c ∈ s, c ∈ Map.keys (buildEncodingMap t) := by
    intro c hc
    rw [buildEncodingMap_mem_keys]
    refine ⟨hperm.mem_iff.mpr ((buildFrequencyTable_mem_keys s c).mpr hc), ?_⟩
    intro h
    rw [h] at hc
    exact hnul hc
  have hpf : Map.PrefixFree (buildEncodingMap t) := by
    intro x hx y hy hxy
    exact buildEncodingMap_no_prefix_pair t x y hxy hx hy
  have hbp : Map.BitPaths (buildEncodingMap t) :=
    fun k _ => buildEncodingMap_get_bits t k
  have hnonempty : ∀ k ∈ Map.keys (buildEncodingMap t), Map.get (buildEncodingMap t) k ≠ [] :=
    fun k hk => hpaths _ (buildEncodingMap_get_mem t k hk)
  have hcode : codeBits (buildEncodingMap t) (fedText s) = codeBits (buildEncodingMap t) s := by
    rcases hnl with h | h
    · rw [fedText_of_getLast s h]
    · rw [fedText_of_not_mem s hs h, codeBits_append]
      have hk : '\n' ∉ Map.keys (buildEncodingMap t) := by
        rw [buildEncodingMap_mem_keys]
        intro hh
        exact h ((buildFrequencyTable_mem_keys s _).mp (hperm.mem_iff.mp hh.1))
      have hcon : Map.containsKey (buildEncodingMap t) '\n' = false := by
        rw [Map.mem_keys_iff] at hk
        simpa using hk
      simp [codeBits, Map.get_of_not_containsKey _ _ hcon, CppDefault.dflt]
  rw [hcode, decodeLoop_codeBits _ hpf hbp hnonempty s hkeys]
  rfl

theorem buildEncodingTree_single (c : Char) (n : Nat) :
    buildEncodingTree [(c, n)] = some (HuffmanNode.leaf c) := by
  simp [buildEncodingTree, getQueue, Map.keys, PriorityQueue.enqueue, mergeLoop,
    PriorityQueue.peek]

theorem depthCost_cons (e : Nat × Nat) (l : List (Nat × Nat)) :
    depthCost (e :: l) = e.1 * e.2 + depthCost l := by
  simp [depthCost]

theorem kraftSum_cons (D : Nat) (e : Nat × Nat) (l : List (Nat × Nat)) :
    kraftSum D (e :: l) = 2 ^ (D - e.2) + kraftSum D l := by
  simp [kraftSum]

theorem depthCost_perm (l1 l2 : List (Nat × Nat)) (h : List.Perm l1 l2) :
    depthCost l1 = depthCost l2 :=
  (h.map _).sum_eq

theorem kraftSum_perm (D : Nat) (l1 l2 : List (Nat × Nat)) (h : List.Perm l1 l2) :
    kraftSum D l1 = kraftSum D l2 :=
  (h.map _).sum_eq

/-- A list of pairs that is not empty has an entry of greatest depth. -/
theorem exists_max_depth (l : List (Nat × Nat)) (h : l ≠ []) :
    ∃ e ∈ l, ∀ e' ∈ l, e'.2 ≤ e.2 := by
  induction l with
  | nil => exact absurd rfl h
  | cons a l ih =>
    by_cases hl : l = []
    · subst hl
      exact ⟨a, List.mem_cons_self _ _, by simp⟩
    · obtain ⟨e, he, hmax⟩ := ih hl
      by_cases hae : e.2 ≤ a.2
      · refine ⟨a, List.mem_cons_self _ _, ?_⟩
        intro e' he'
        rcases List.mem_cons.mp he' with rfl | he'
        · exact Nat.le_refl _
        · exact Nat.le_trans (hmax e' he') hae
      · refine ⟨e, List.mem_cons_of_mem _ he, ?_⟩
        intro e' he'
        rcases List.mem_cons.mp he' with rfl | he'
        · omega
        · exact hmax e' he'

/-- The least weight of a list can be given the greatest depth of the list
without raising the cost: the rest keeps its weights, and the depths of the
whole list are kept. -/
theorem bring_min_to_max (l : List (Nat × Nat)) (x : Nat) (rest : List Nat)
    (hw : List.Perm (l.map Prod.fst) (x :: rest)) (hmin : ∀ r ∈ rest, x ≤ r) :
    ∃ dm l', (∀ e ∈ l', e.2 ≤ dm) ∧ List.Perm (l'.map Prod.fst) rest ∧
      List.Perm (((x, dm) :: l').map Prod.snd) (l.map Prod.snd) ∧
      depthCost ((x, dm) :: l') ≤ depthCost l := by
  have hx : x ∈ l.map Prod.fst := hw.mem_iff.mpr (List.mem_cons_self _ _)
  obtain ⟨⟨x', dx⟩, hmem, hfst⟩ := List.mem_map.mp hx
  simp only at hfst
  subst hfst
  obtain ⟨l1, hp⟩ : ∃ l1, List.Perm l ((x', dx) :: l1) := ⟨_, List.perm_cons_erase hmem⟩
  have hw1 : List.Perm (l1.map Prod.fst) rest := by
    have := (hp.map Prod.fst).symm.trans hw
    exact List.Perm.cons_inv this
  by_cases hall : ∀ e ∈ l1, e.2 ≤ dx
  · exact ⟨dx, l1, hall, hw1, (hp.map Prod.snd).symm,
      Nat.le_of_eq (depthCost_perm _ _ hp).symm⟩
  · have hne : l1 ≠ [] := by
      intro h
      apply hall
      rw [h]
      simp
    obtain ⟨⟨wm, dm⟩, hm, hmax⟩ := exists_max_depth _ hne
    have hdm : dx < dm := by
      by_contra hcon
      apply hall
      intro e he
      have := hmax e he
      simp only at this
      omega
    obtain ⟨l2, hp2⟩ : ∃ l2, List.Perm l1 ((wm, dm) :: l2) := ⟨_, List.perm_cons_erase hm⟩
    have hwm : x' ≤ wm := by
      apply hmin
      exact hw1.mem_iff.mp (List.mem_map.mpr ⟨(wm, dm), hm, rfl⟩)
    refine ⟨dm, (wm, dx) :: l2, ?_, ?_, ?_, ?_⟩
    · intro e he
      rcases List.mem_cons.mp he with rfl | he
      · exact Nat.le_of_lt hdm
      · exact hmax e (hp2.mem_iff.mpr (List.mem_cons_of_mem _ he))
    · exact (hp2.map Prod.fst).symm.trans hw1
    · have h1 := (hp.trans (List.Perm.cons _ hp2)).map Prod.snd
      refine List.Perm.trans ?_ h1.symm
      simp only [List.map_cons]
      exact List.Perm.swap _ _ _
    · rw [depthCost_perm l _ (hp.trans (List.Perm.cons _ hp2))]
      simp only [depthCost_cons]
      obtain ⟨u, rfl⟩ : ∃ u, wm = x' + u := ⟨wm - x', by omega⟩
      obtain ⟨v, rfl⟩ : ∃ v, dm = dx + v := ⟨dm - dx, by omega⟩
      have : x' * (dx + v) + ((x' + u) * dx + depthCost l2) + u * v =
          x' * dx + ((x' + u) * (dx + v) + depthCost l2) := by ring
      omega

theorem kraftSum_eq_depths (D : Nat) (l : List (Nat × Nat)) :
    kraftSum D l = ((l.map Prod.snd).map (fun d => 2 ^ (D - d))).sum := by
  simp [kraftSum, List.map_map, Function.comp_def]

theorem kraftSum_depths_perm (D : Nat) (l1 l2 : List (Nat × Nat))
    (h : List.Perm (l1.map Prod.snd) (l2.map Prod.snd)) : kraftSum D l1 = kraftSum D l2 := by
  rw [kraftSum_eq_depths, kraftSum_eq_depths]
  exact (h.map _).sum_eq

theorem kraftSum_dvd (D d : Nat) (l : List (Nat × Nat)) (hd : d ≤ D) (h : ∀ e ∈ l, e.2 ≤ d) :
    2 ^ (D - d) ∣ kraftSum D l := by
  unfold kraftSum
  apply List.dvd_sum
  intro x hx
  obtain ⟨e, he, rfl⟩ := List.mem_map.mp hx
  apply pow_dvd_pow
  have := h e he
  omega

theorem add_le_of_dvd_of_lt (m x y : Nat) (hx : m ∣ x) (hy : m ∣ y) (hlt : x < y) :
    x + m ≤ y := by
  have hd : m ∣ y - x := Nat.dvd_sub' hy hx
  have hpos : 0 < y - x := by omega
  have := Nat.le_of_dvd hpos hd
  omega

/-- The exchange step: in a list of (weight, depth) pairs that satisfies the
Kraft inequality, the two least weights can be replaced by one entry of their
sum, one level up, with a cost lower by at least their sum. -/
theorem merge_two_least (D : Nat) (l : List (Nat × Nat)) (a b : Nat) (rest : List Nat)
    (hw : List.Perm (l.map Prod.fst) (a :: b :: rest)) (hab : a ≤ b)
    (hmin : ∀ r ∈ rest, b ≤ r) (hD : ∀ e ∈ l, e.2 ≤ D) (hk : kraftSum D l ≤ 2 ^ D) :
    ∃ l', List.Perm (l'.map Prod.fst) ((a + b) :: rest) ∧ (∀ e ∈ l', e.2 ≤ D) ∧
      kraftSum D l' ≤ 2 ^ D ∧ depthCost l' + a + b ≤ depthCost l := by
  obtain ⟨d1, l1, hmax1, hw1, hdep1, hcost1⟩ := bring_min_to_max l a (b :: rest) hw (by
    intro r hr
    rcases List.mem_cons.mp hr with rfl | hr
    · exact hab
    · exact Nat.le_trans hab (hmin r hr))
  obtain ⟨d2, l2, hmax2, hw2, hdep2, hcost2⟩ := bring_min_to_max l1 b rest hw1 hmin
  have hd21 : d2 ≤ d1 := by
    have : d2 ∈ l1.map Prod.snd := hdep2.mem_iff.mp (by simp)
    obtain ⟨e, he, rfl⟩ := List.mem_map.mp this
    exact hmax1 e he
  have hd1D : d1 ≤ D := by
    have : d1 ∈ l.map Prod.snd := hdep1.mem_iff.mp (by simp)
    obtain ⟨e, he, rfl⟩ := List.mem_map.mp this
    exact hD e he
  have hk3 : 2 ^ (D - d1) + (2 ^ (D - d2) + kraftSum D l2) ≤ 2 ^ D := by
    have e1 : kraftSum D ((a, d1) :: (b, d2) :: l2) = kraftSum D l := by
      apply kraftSum_depths_perm
      refine List.Perm.trans ?_ hdep1
      simp only [List.map_cons]
      exact List.Perm.cons _ (by simpa using hdep2)
    rw [← e1] at hk
    simpa [kraftSum_cons] using hk
  have hpos1 : 0 < 2 ^ (D - d1) := Nat.pow_pos (by decide)
  have hd2pos : 1 ≤ d2 := by
    by_contra hcon
    have : d2 = 0 := by omega
    subst this
    simp at hk3
    omega
  have hk4 : 2 ^ (D - d2) + (2 ^ (D - d2) + kraftSum D l2) ≤ 2 ^ D := by
    by_cases heq : d1 = d2
    · rw [heq] at hk3
      exact hk3
    · have hlt : 2 ^ (D - d2) + kraftSum D l2 < 2 ^ D := by omega
      have hdvd1 : 2 ^ (D - d2) ∣ 2 ^ (D - d2) + kraftSum D l2 :=
        Dvd.dvd.add (dvd_refl _) (kraftSum_dvd D d2 l2 (by omega) hmax2)
      have hdvd2 : 2 ^ (D - d2) ∣ 2 ^ D := pow_dvd_pow 2 (by omega)
      have := add_le_of_dvd_of_lt _ _ _ hdvd1 hdvd2 hlt
      omega
  refine ⟨(a + b, d2 - 1) :: l2, ?_, ?_, ?_, ?_⟩
  · simp only [List.map_cons]
    exact List.Perm.cons _ hw2
  · intro e he
    rcases List.mem_cons.mp he with rfl | he
    · simp only
      omega
    · have := hmax2 e he
      omega
  · rw [kraftSum_cons]
    simp only
    have : D - (d2 - 1) = (D - d2) + 1 := by omega
    rw [this, pow_succ]
    omega
  · rw [depthCost_cons]
    simp only
    rw [depthCost_cons] at hcost1 hcost2
    simp only at hcost1 hcost2
    obtain ⟨k, rfl⟩ : ∃ k, d2 = k + 1 := ⟨d2 - 1, by omega⟩
    have hmul : a * (k + 1) ≤ a * d1 := Nat.mul_le_mul_left a hd21
    have e1 : (a + b) * (k + 1 - 1) + depthCost l2 + a + b =
        a * (k + 1) + (b * (k + 1) + depthCost l2) := by
      simp only [Nat.add_sub_cancel]
      ring
    rw [e1]
    omega

/-- The joint priorities created by the loop are, in total, at most the cost
of any list of (weight, depth) pairs that satisfies the Kraft inequality and
has the priorities of the queue as weights. -/
theorem mergeCost_le (fuel : Nat) (queue : PriorityQueue HuffmanNode) (l : List (Nat × Nat))
    (D : Nat) (hs : PriorityQueue.Sorted queue)
    (hw : List.Perm (l.map Prod.fst) (queue.map Prod.fst)) (hD : ∀ e ∈ l, e.2 ≤ D)
    (hk : kraftSum D l ≤ 2 ^ D) : mergeCost fuel queue ≤ depthCost l := by
  induction fuel generalizing queue l with
  | zero => simp [mergeCost]
  | succ fuel ih =>
    match queue, hs, hw with
    | [], _, _ => simp [mergeCost]
    | [_], _, _ => simp [mergeCost]
    | (p1, t1) :: (p2, t2) :: rest, hs, hw =>
      have h1 := List.pairwise_cons.mp hs
      have h2 := List.pairwise_cons.mp h1.2
      obtain ⟨l', hw', hD', hk', hcost⟩ := merge_two_least D l p1 p2 (rest.map Prod.fst)
        (by simpa using hw) (h1.1 _ (List.mem_cons_self _ _))
        (by
          intro r hr
          obtain ⟨e, he, rfl⟩ := List.mem_map.mp hr
          exact h2.1 e he)
        hD hk
      have hstep := ih (mergeStep ((p1, t1) :: (p2, t2) :: rest)) l'
        (mergeStep_sorted _ hs)
        (by
          refine hw'.trans ?_
          have := (enqueue_perm rest (HuffmanNode.join t1 t2) (p1 + p2)).map Prod.fst
          simpa [mergeStep] using this.symm)
        hD' hk'
      simp only [mergeCost]
      omega

theorem leafPaths_isFull_join (zero one : HuffmanNode) (hz : zero.isFull = true) :
    leafPaths (HuffmanNode.join zero one) =
      (leafPaths zero).map (fun e => (e.1, '0' :: e.2)) ++
        (leafPaths one).map (fun e => (e.1, '1' :: e.2)) :=
  leafPaths_join zero one (isFull_ne_nil zero hz)

theorem treeWeight_join (f : Map Char Nat) (zero one : HuffmanNode) (hz : zero.isFull = true) :
    treeWeight f (HuffmanNode.join zero one) = treeWeight f zero + treeWeight f one := by
  simp [treeWeight, leafPaths_isFull_join zero one hz, List.map_map, Function.comp_def]

theorem sum_map_add {α : Type} (l : List α) (g h : α → Nat) :
    (l.map (fun e => g e + h e)).sum = (l.map g).sum + (l.map h).sum := by
  induction l with
  | nil => rfl
  | cons a l ih =>
    simp only [List.map_cons, List.sum_cons, ih]
    omega

theorem weightedPathLength_join (f : Map Char Nat) (zero one : HuffmanNode)
    (hz : zero.isFull = true) :
    weightedPathLength f (HuffmanNode.join zero one) =
      weightedPathLength f zero + weightedPathLength f one +
        (treeWeight f zero + treeWeight f one) := by
  simp only [weightedPathLength, treeWeight, leafPaths_isFull_join zero one hz, List.map_append,
    List.map_map, Function.comp_def, List.sum_append, List.length_cons, Nat.mul_succ,
    sum_map_add]
  omega

theorem weightedPathLength_leaf (f : Map Char Nat) (c : Char) :
    weightedPathLength f (HuffmanNode.leaf c) = 0 := by
  simp [weightedPathLength, leafPaths_leaf]

theorem treeWeight_leaf (f : Map Char Nat) (c : Char) :
    treeWeight f (HuffmanNode.leaf c) = Map.get f c := by
  simp [treeWeight, leafPaths_leaf]

/-- The weighted path length of the tree that the loop ends with: what the
trees of the queue had, and the joint priorities created. -/
theorem mergeLoop_cost (f : Map Char Nat) (fuel : Nat) (queue : PriorityQueue HuffmanNode)
    (hinv : ∀ e ∈ queue, e.2.isFull = true ∧ e.1 = treeWeight f e.2)
    (hlen : queue.length ≤ fuel + 1) (hne : queue ≠ []) :
    ∃ p t, mergeLoop fuel queue = [(p, t)] ∧
      weightedPathLength f t =
        (queue.map (fun e => weightedPathLength f e.2)).sum + mergeCost fuel queue := by
  induction fuel generalizing queue with
  | zero =>
    match queue, hlen, hne with
    | [(p, t)], _, _ => exact ⟨p, t, rfl, by simp [mergeCost]⟩
    | _ :: _ :: _, hlen, _ => simp at hlen
  | succ fuel ih =>
    match queue, hinv, hlen, hne with
    | [(p, t)], _, _, _ => exact ⟨p, t, by simp [mergeLoop], by simp [mergeCost]⟩
    | (p1, t1) :: (p2, t2) :: rest, hinv, hlen, _ =>
      have hi1 := hinv (p1, t1) (by simp)
      have hi2 := hinv (p2, t2) (by simp)
      have hperm := enqueue_perm rest (HuffmanNode.join t1 t2) (p1 + p2)
      have hinv' : ∀ e ∈ mergeStep ((p1, t1) :: (p2, t2) :: rest),
          e.2.isFull = true ∧ e.1 = treeWeight f e.2 := by
        intro e he
        simp only [mergeStep] at he
        rcases (enqueue_mem _ _ _ e).mp he with rfl | he
        · refine ⟨isFull_join t1 t2 hi1.1 hi2.1, ?_⟩
          simp only
          rw [treeWeight_join f t1 t2 hi1.1, ← hi1.2, ← hi2.2]
        · exact hinv e (by simp [he])
      have hlen' : (mergeStep ((p1, t1) :: (p2, t2) :: rest)).length ≤ fuel + 1 := by
        simp only [mergeStep, enqueue_length]
        simp only [List.length_cons] at hlen
        omega
      have hne' : mergeStep ((p1, t1) :: (p2, t2) :: rest) ≠ [] := by
        intro h
        have := congrArg List.length h
        simp [mergeStep, enqueue_length] at this
      obtain ⟨p, t, hloop, hcost⟩ := ih _ hinv' hlen' hne'
      refine ⟨p, t, ?_, ?_⟩
      · rw [mergeLoop]
        simp only [List.length_cons]
        rw [if_pos (by omega)]
        exact hloop
      · rw [hcost]
        have hsum : ((mergeStep ((p1, t1) :: (p2, t2) :: rest)).map
            (fun e => weightedPathLength f e.2)).sum =
            weightedPathLength f (HuffmanNode.join t1 t2) +
              (rest.map (fun e => weightedPathLength f e.2)).sum := by
          simp only [mergeStep]
          rw [(hperm.map _).sum_eq]
          simp
        rw [hsum, weightedPathLength_join f t1 t2 hi1.1, ← hi1.2, ← hi2.2]
        simp only [mergeCost, List.map_cons, List.sum_cons]
        omega

/-- The Kraft inequality for the leaves of a tree, scaled by `2 ^ D`. -/
theorem kraft_leafPaths (u : HuffmanNode) (k D : Nat)
    (h : ∀ e ∈ leafPaths u, k + e.2.length ≤ D) :
    ((leafPaths u).map (fun e => 2 ^ (D - (k + e.2.length)))).sum ≤ 2 ^ (D - k) := by
  induction u generalizing k with
  | nil => simp [leafPaths]
  | node ch zero one ihz iho =>
    by_cases hleaf : (zero.isNull && one.isNull) = true
    · simp [leafPaths, hleaf]
    · have hleaf' : (zero.isNull && one.isNull) = false := by simpa using hleaf
      simp only [leafPaths, hleaf', Bool.false_eq_true, if_false] at h ⊢
      have hz : ∀ e ∈ leafPaths zero, (k + 1) + e.2.length ≤ D := by
        intro e he
        have := h (e.1, '0' :: e.2) (by
          simp only [List.mem_append, List.mem_map]
          exact Or.inl ⟨e, he, rfl⟩)
        simp only [List.length_cons] at this
        omega
      have ho : ∀ e ∈ leafPaths one, (k + 1) + e.2.length ≤ D := by
        intro e he
        have := h (e.1, '1' :: e.2) (by
          simp only [List.mem_append, List.mem_map]
          exact Or.inr ⟨e, he, rfl⟩)
        simp only [List.length_cons] at this
        omega
      have e1 := ihz (k + 1) hz
      have e2 := iho (k + 1) ho
      simp only [List.map_append, List.map_map, Function.comp_def, List.sum_append,
        List.length_cons]
      have r1 : ∀ n : Nat, D - (k + (n + 1)) = D - (k + 1 + n) := fun n => by omega
      simp only [r1]
      by_cases hk : k + 1 ≤ D
      · have : 2 ^ (D - k) = 2 ^ (D - (k + 1)) + 2 ^ (D - (k + 1)) := by
          have : D - k = (D - (k + 1)) + 1 := by omega
          rw [this, pow_succ]
          omega
        omega
      · have hz0 : leafPaths zero = [] := by
          apply List.eq_nil_iff_forall_not_mem.mpr
          intro e he
          have := hz e he
          omega
        have ho0 : leafPaths one = [] := by
          apply List.eq_nil_iff_forall_not_mem.mpr
          intro e he
          have := ho e he
          omega
        simp [hz0, ho0]

theorem getQueue_fold_perm (f : Map Char Nat) (keys : List Char)
    (queue : PriorityQueue HuffmanNode) :
    List.Perm (keys.foldl (fun queue key =>
        PriorityQueue.enqueue queue (HuffmanNode.leaf key) (Map.get f key)) queue)
      (queue ++ keys.map (fun k => (Map.get f k, HuffmanNode.leaf k))) := by
  induction keys generalizing queue with
  | nil => simp
  | cons k keys ih =>
    rw [List.foldl_cons]
    refine (ih _).trans ?_
    refine (List.Perm.append_right _ (enqueue_perm queue _ _)).trans ?_
    simp only [List.map_cons, List.cons_append]
    exact List.perm_middle.symm

theorem getQueue_perm (f : Map Char Nat) :
    List.Perm (getQueue f) ((Map.keys f).map (fun k => (Map.get f k, HuffmanNode.leaf k))) := by
  have := getQueue_fold_perm f (Map.keys f) []
  simpa [getQueue] using this

/-- The tree built from a table has the least weighted path length among the
trees whose leaves hold the keys of the table. -/
theorem buildEncodingTree_optimal (f : Map Char Nat) (hne : f ≠ []) (u : HuffmanNode)
    (hu : List.Perm (leafSymbols u) (Map.keys f)) :
    ∃ t, buildEncodingTree f = some t ∧ weightedPathLength f t ≤ weightedPathLength f u := by
  have hq := getQueue_perm f
  have hinv : ∀ e ∈ getQueue f, e.2.isFull = true ∧ e.1 = treeWeight f e.2 := by
    intro e he
    obtain ⟨k, _, rfl⟩ := List.mem_map.mp (hq.mem_iff.mp he)
    exact ⟨isFull_leaf k, (treeWeight_leaf f k).symm⟩
  have hqne : getQueue f ≠ [] := by
    intro h
    have := hq.length_eq
    rw [h] at this
    simp [Map.keys] at this
    exact hne (List.length_eq_zero.mp this.symm)
  obtain ⟨p, t, hloop, hcost⟩ := mergeLoop_cost f (getQueue f).length (getQueue f) hinv
    (by omega) hqne
  refine ⟨t, by simp [buildEncodingTree, hloop, PriorityQueue.peek], ?_⟩
  have hzero : ((getQueue f).map (fun e => weightedPathLength f e.2)).sum = 0 := by
    apply List.sum_eq_zero
    intro x hx
    obtain ⟨e, he, rfl⟩ := List.mem_map.mp hx
    obtain ⟨k, _, rfl⟩ := List.mem_map.mp (hq.mem_iff.mp he)
    exact weightedPathLength_leaf f k
  rw [hcost, hzero, Nat.zero_add]
  let l : List (Nat × Nat) := (leafPaths u).map (fun e => (Map.get f e.1, e.2.length))
  let D : Nat := ((leafPaths u).map (fun e => e.2.length)).sum
  have hD : ∀ e ∈ l, e.2 ≤ D := by
    intro e he
    obtain ⟨e', he', rfl⟩ := List.mem_map.mp he
    exact List.single_le_sum (fun _ _ => Nat.zero_le _) _ (List.mem_map.mpr ⟨e', he', rfl⟩)
  have hk : kraftSum D l ≤ 2 ^ D := by
    have := kraft_leafPaths u 0 D (by
      intro e he
      have := hD (Map.get f e.1, e.2.length) (List.mem_map.mpr ⟨e, he, rfl⟩)
      simpa using this)
    simpa [kraftSum, l, List.map_map, Function.comp_def] using this
  have hw : List.Perm (l.map Prod.fst) ((getQueue f).map Prod.fst) := by
    have h1 : l.map Prod.fst = (leafSymbols u).map (fun k => Map.get f k) := by
      simp [l, leafSymbols, List.map_map, Function.comp_def]
    have h2 := (hq.map Prod.fst).symm
    rw [List.map_map] at h2
    rw [h1]
    exact (hu.map _).trans h2
  have hle := mergeCost_le (getQueue f).length (getQueue f) l D (getQueue_sorted f) hw hD hk
  have hcu : depthCost l = weightedPathLength f u := by
    simp [depthCost, l, weightedPathLength, List.map_map, Function.comp_def]
  omega

/-- C4. Optimality: for every non-empty frequency table `f`, `buildEncodingTree`
returns a tree whose leaves hold exactly the symbols of `f`, one leaf for each
symbol, and whose weighted path length (the sum over the symbols `c` of `f(c)`
times the depth of the leaf of `c`) is at most that of every binary tree whose
leaves are exactly the symbols of `f`, one leaf for each symbol. -/
theorem C4_optimality (freqTable : Map Char Nat) (hne : freqTable ≠ []) (u : HuffmanNode)
    (hu : List.Perm (leafSymbols u) (Map.keys freqTable)) :
    ∃ t, buildEncodingTree freqTable = some t ∧
      List.Perm (leafSymbols t) (Map.keys freqTable) ∧
      weightedPathLength freqTable t ≤ weightedPathLength freqTable u := by
  obtain ⟨t, ht, hle⟩ := buildEncodingTree_optimal freqTable hne u hu
  obtain ⟨t', ht', _, hperm⟩ := buildEncodingTree_spec freqTable hne
  rw [ht] at ht'
  injection ht' with ht'
  subst ht'
  exact ⟨t, ht, hperm, hle⟩

/-- C4, at the table `a:3, b:1, c:1` and the competing tree that puts `c`
next to the root and `a`, `b` one level down. -/
theorem C4_optimality_witness :
    ([('a', 3), ('b', 1), ('c', 1)] : Map Char Nat) ≠ [] ∧
    ∃ t, buildEncodingTree [('a', 3), ('b', 1), ('c', 1)] = some t ∧
      List.Perm (leafSymbols t) (Map.keys ([('a', 3), ('b', 1), ('c', 1)] : Map Char Nat)) ∧
      weightedPathLength [('a', 3), ('b', 1), ('c', 1)] t ≤
        weightedPathLength [('a', 3), ('b', 1), ('c', 1)]
          (HuffmanNode.join (HuffmanNode.join (HuffmanNode.leaf 'a') (HuffmanNode.leaf 'b'))
            (HuffmanNode.leaf 'c')) :=
  ⟨by decide,
    C4_optimality [('a', 3), ('b', 1), ('c', 1)] (by decide)
      (HuffmanNode.join (HuffmanNode.join (HuffmanNode.leaf 'a') (HuffmanNode.leaf 'b'))
        (HuffmanNode.leaf 'c'))
      (by decide)⟩

/-! ## Header format -/

theorem headerOf_eq_keys (m : Map Char Str) (hwf : Map.WF m) :
    headerOf m =
      (Map.keys m).flatMap (fun k => ['('] ++ [k] ++ ['.'] ++ Map.get m k ++ [')']) := by
  conv_lhs => rw [← Map.eq_map_keys m hwf]
  simp [headerOf, List.flatMap_map, record]

/-- C11. Header format: for every tree `t`, `flattenTreeToHeader(t)` is the
concatenation, with nothing between them, over the keys `k` of
`buildEncodingMap(t)` in the order of the map, of the records `(`, `k`, `.`,
the path of `k`, `)`; it is a function of the leaves of `t` alone (a character
stored in a node that has children plays no part). For the tree with `a` at
path `0`, `b` at `10` and `c` at `11` it is `(a.0)(b.10)(c.11)`, and for the
tree of the test `testTreeToHeader`, whose nodes with children hold `1`, `2`,
`3`, it is `(4.00)(5.01)(6.10)(7.11)`. -/
theorem C11_header_format (t : HuffmanNode) :
    flattenTreeToHeader t =
      (Map.keys (buildEncodingMap t)).flatMap
        (fun k => ['('] ++ [k] ++ ['.'] ++ Map.get (buildEncodingMap t) k ++ [')']) ∧
    flattenTreeToHeader t =
      headerOf (putAll [] ((leafPaths t).filter (fun e => decide (e.1 ≠ DEFAULT_NODE_CHAR)))) ∧
    flattenTreeToHeader
        (HuffmanNode.join (HuffmanNode.leaf 'a')
          (HuffmanNode.join (HuffmanNode.leaf 'b') (HuffmanNode.leaf 'c'))) =
      ['(', 'a', '.', '0', ')', '(', 'b', '.', '1', '0', ')', '(', 'c', '.', '1', '1', ')'] ∧
    flattenTreeToHeader
        (HuffmanNode.node '1'
          (HuffmanNode.node '2' (HuffmanNode.leaf '4') (HuffmanNode.leaf '5'))
          (HuffmanNode.node '3' (HuffmanNode.leaf '6') (HuffmanNode.leaf '7'))) =
      ['(', '4', '.', '0', '0', ')', '(', '5', '.', '0', '1', ')',
        '(', '6', '.', '1', '0', ')', '(', '7', '.', '1', '1', ')'] := by
  refine ⟨?_, ?_, by decide, by decide⟩
  · rw [flattenTreeToHeader_eq, headerOf_eq_keys _ (buildEncodingMap_WF t)]
  · rw [flattenTreeToHeader_eq, buildEncodingMap_eq]

/-! ## Colliding records -/

theorem subtreeAt_nil (p : Str) : subtreeAt HuffmanNode.nil p = HuffmanNode.nil := by
  cases p <;> rfl

theorem subtreeAt_orFresh (t : HuffmanNode) (p : Str) (hp : p ≠ []) :
    subtreeAt t.orFresh p = subtreeAt t p := by
  cases t with
  | nil =>
    cases p with
    | nil => exact absurd rfl hp
    | cons c rest =>
      simp [HuffmanNode.orFresh, HuffmanNode.join, subtreeAt, subtreeAt_nil]
  | node _ _ _ => rfl

/-- The node at the position at which a leaf has just been placed is that
leaf, whatever was there before. -/
theorem subtreeAt_recreateLeaf_same (root : HuffmanNode) (key : Char) (path : Str)
    (hroot : root.isNull = false) (hpath : path ≠ []) :
    subtreeAt (recreateLeaf root key path) path = HuffmanNode.leaf key := by
  induction path generalizing root with
  | nil => exact absurd rfl hpath
  | cons c rest ih =>
    cases root with
    | nil => simp [HuffmanNode.isNull] at hroot
    | node ch zero one =>
      rw [recreateLeaf_node]
      cases rest with
      | nil =>
        by_cases hc : c = '0' <;> simp [hc, place, subtreeAt, HuffmanNode.leaf]
      | cons d rest' =>
        by_cases hc : c = '0'
        · simp only [hc, if_true, place, subtreeAt]
          exact ih _ (orFresh_isNull zero) (by simp)
        · simp only [hc, if_false, place, subtreeAt]
          exact ih _ (orFresh_isNull one) (by simp)

/-- Placing a leaf leaves alone the positions that are neither on the way to
the leaf nor below it. -/
theorem subtreeAt_recreateLeaf_other (root : HuffmanNode) (key : Char) (q p : Str)
    (hroot : root.isNull = false)
    (hq : ∀ c ∈ q, c = '0' ∨ c = '1') (hp : ∀ c ∈ p, c = '0' ∨ c = '1')
    (h1 : ¬ (q <+: p)) (h2 : ¬ (p <+: q)) :
    subtreeAt (recreateLeaf root key q) p = subtreeAt root p := by
  induction q generalizing root p with
  | nil => exact absurd List.nil_prefix h1
  | cons c q' ih =>
    cases p with
    | nil => exact absurd List.nil_prefix h2
    | cons d p' =>
      cases root with
      | nil => simp [HuffmanNode.isNull] at hroot
      | node ch zero one =>
        rw [recreateLeaf_node]
        have hcd : c = d → ¬ (q' <+: p') ∧ ¬ (p' <+: q') := by
          intro h
          subst h
          exact ⟨fun hh => h1 ((cons_prefix_cons c q' p').mpr hh),
            fun hh => h2 ((cons_prefix_cons c p' q').mpr hh)⟩
        have hside : ∀ child : HuffmanNode, c = d →
            subtreeAt (place child key q') p' = subtreeAt child p' := by
          intro child h
          obtain ⟨a1, a2⟩ := hcd h
          cases hq' : q' with
          | nil => rw [hq'] at a1; exact absurd List.nil_prefix a1
          | cons e q'' =>
            rw [← hq']
            have hp' : p' ≠ [] := by
              intro hh
              rw [hh] at a2
              exact a2 List.nil_prefix
            have hplace : place child key q' = recreateLeaf child.orFresh key q' := by
              rw [hq']
              rfl
            rw [hplace, ih child.orFresh p' (orFresh_isNull child)
              (fun x hx => hq x (List.mem_cons_of_mem _ hx))
              (fun x hx => hp x (List.mem_cons_of_mem _ hx)) a1 a2,
              subtreeAt_orFresh child p' hp']
        have hc := hq c (List.mem_cons_self _ _)
        have hd := hp d (List.mem_cons_self _ _)
        rcases hc with hc | hc <;> rcases hd with hd | hd
        · subst hc hd
          simp only [if_true, subtreeAt]
          exact hside zero rfl
        · subst hc hd
          simp [subtreeAt]
        · subst hc hd
          simp [subtreeAt]
        · subst hc hd
          simp only [show ¬ ('1' : Char) = '0' by decide, if_false, subtreeAt]
          exact hside one rfl

theorem recreateFold_append (root : HuffmanNode) (l1 l2 : List (Char × Str)) :
    recreateFold root (l1 ++ l2) = recreateFold (recreateFold root l1) l2 := by
  simp [recreateFold, List.foldl_append]

theorem subtreeAt_recreateFold_other (root : HuffmanNode) (entries : List (Char × Str))
    (p : Str) (hroot : root.isNull = false) (hp : ∀ c ∈ p, c = '0' ∨ c = '1')
    (hbits : ∀ e ∈ entries, ∀ c ∈ e.2, c = '0' ∨ c = '1')
    (hother : ∀ e ∈ entries, ¬ (e.2 <+: p) ∧ ¬ (p <+: e.2)) :
    subtreeAt (recreateFold root entries) p = subtreeAt root p := by
  induction entries generalizing root with
  | nil => rfl
  | cons e entries ih =>
    have hstep : recreateFold root (e :: entries) =
        recreateFold (recreateLeaf root e.1 e.2) entries := rfl
    rw [hstep, ih _ (recreateLeaf_isNull root e.1 e.2 hroot)
      (fun e' he' => hbits e' (List.mem_cons_of_mem _ he'))
      (fun e' he' => hother e' (List.mem_cons_of_mem _ he'))]
    exact subtreeAt_recreateLeaf_other root e.1 e.2 p hroot
      (hbits e (List.mem_cons_self _ _)) hp
      (hother e (List.mem_cons_self _ _)).1 (hother e (List.mem_cons_self _ _)).2

/-- In the tree rebuilt from a header, the position of a record holds the leaf
of that record when no later record has a path on the way to that position,
at it, or below it: whatever earlier records placed there is replaced. -/
theorem recreate_last_wins (before after : List (Char × Str)) (b : Char) (p : Str)
    (hp : p ≠ []) (hpb : ∀ c ∈ p, c = '0' ∨ c = '1')
    (hbefore : ∀ e ∈ before, ∀ c ∈ e.2, c = '0' ∨ c = '1')
    (hafter : ∀ e ∈ after, ∀ c ∈ e.2, c = '0' ∨ c = '1')
    (hother : ∀ e ∈ after, ¬ (e.2 <+: p) ∧ ¬ (p <+: e.2)) :
    subtreeAt (recreateTreeFromHeader (headerOf (before ++ (b, p) :: after))) p =
      HuffmanNode.leaf b := by
  have hbits : ∀ e ∈ before ++ (b, p) :: after, ∀ c ∈ e.2, c = '0' ∨ c = '1' := by
    intro e he
    rcases List.mem_append.mp he with h | h
    · exact hbefore e h
    · rcases List.mem_cons.mp h with rfl | h
      · exact hpb
      · exact hafter e h
  rw [recreateTreeFromHeader_headerOf _ hbits, recreateFold_append]
  have hstep : ∀ r : HuffmanNode, recreateFold r ((b, p) :: after) =
      recreateFold (recreateLeaf r b p) after := fun _ => rfl
  have hroot : (recreateFold (HuffmanNode.join HuffmanNode.nil HuffmanNode.nil) before).isNull
      = false := recreateFold_isNull _ _ rfl
  rw [hstep, subtreeAt_recreateFold_other _ after p (recreateLeaf_isNull _ b p hroot) hpb hafter
    hother]
  exact subtreeAt_recreateLeaf_same _ b p hroot hp

/-- C12 (amended). Colliding records: for every header made of records with
paths of `'0'` and `'1'` in which two records, of `a` and later of `b`,
resolve to the same final tree position `p`, and in which no record after that
of `b` has a path that is a prefix of `p` or has `p` as a prefix,
`recreateTreeFromHeader` returns a tree in which the node at `p` is the leaf
of `b`: no failure is reported and the earlier leaf is overwritten. -/
theorem C12_colliding_records (first between last : List (Char × Str)) (a b : Char) (p : Str)
    (hp : p ≠ []) (hpb : ∀ c ∈ p, c = '0' ∨ c = '1')
    (hfirst : ∀ e ∈ first, ∀ c ∈ e.2, c = '0' ∨ c = '1')
    (hbetween : ∀ e ∈ between, ∀ c ∈ e.2, c = '0' ∨ c = '1')
    (hlast : ∀ e ∈ last, ∀ c ∈ e.2, c = '0' ∨ c = '1')
    (hother : ∀ e ∈ last, ¬ (e.2 <+: p) ∧ ¬ (p <+: e.2)) :
    subtreeAt
        (recreateTreeFromHeader (headerOf (first ++ (a, p) :: (between ++ (b, p) :: last)))) p
      = HuffmanNode.leaf b := by
  have h := recreate_last_wins (first ++ (a, p) :: between) last b p hp hpb
    (by
      intro e he
      rcases List.mem_append.mp he with h | h
      · exact hfirst e h
      · rcases List.mem_cons.mp h with rfl | h
        · exact hpb
        · exact hbetween e h)
    hlast hother
  simpa [List.append_assoc] using h

/-- C12 (amended), at the header `(a.0)(b.0)`. -/
theorem C12_colliding_records_witness :
    (['0'] : Str) ≠ [] ∧
    subtreeAt
        (recreateTreeFromHeader (headerOf ([] ++ ('a', ['0']) :: ([] ++ ('b', ['0']) :: []))))
        ['0']
      = HuffmanNode.leaf 'b' :=
  ⟨by decide,
    C12_colliding_records [] [] [] 'a' 'b' ['0'] (by decide) (by decide) (by decide) (by decide)
      (by decide) (by decide)⟩

/-- C12 (as stated) fails: for the header `(a.0)(b.0)` a tree is returned, with
the leaf of `b` where the leaf of `a` had been placed, and its encoding map
has `b` and not `a`. -/
theorem C12_counterexample :
    recreateTreeFromHeader ['(', 'a', '.', '0', ')', '(', 'b', '.', '0', ')'] =
      HuffmanNode.join (HuffmanNode.leaf 'b') HuffmanNode.nil ∧
    buildEncodingMap
        (recreateTreeFromHeader ['(', 'a', '.', '0', ')', '(', 'b', '.', '0', ')']) =
      [('b', ['0'])] := by
  refine ⟨?_, ?_⟩ <;> decide

/-! ## End of the bits in the middle of a code -/

theorem decompressLoopPending_eq (encodingMap : Map Char Str) (bits : List Nat)
    (encodedChar : Str) (isValidCache : Map Str Bool) (charCache : Map Str Char)
    (hv : ValidCacheOk encodingMap isValidCache) (hc : CharCacheOk encodingMap charCache) :
    decompressLoopPending encodingMap bits encodedChar isValidCache charCache =
      decodePending encodingMap bits encodedChar := by
  induction bits generalizing encodedChar isValidCache charCache with
  | nil => rfl
  | cons bit rest ih =>
    unfold decompressLoopPending decodePending
    obtain ⟨h1, h2⟩ := isValidValueL1_spec (encodedChar ++ to_string bit) encodingMap
      isValidCache hv
    obtain ⟨_, h4⟩ := getValidKeyCached_spec (encodedChar ++ to_string bit) encodingMap
      charCache hc
    simp only [h1]
    split
    · exact ih _ _ _ h2 h4
    · exact ih _ _ _ h2 hc

theorem pendingCode_eq (bits : List Nat) (encodingMap : Map Char Str) :
    pendingCode bits encodingMap = decodePending encodingMap bits [] := by
  unfold pendingCode
  apply decompressLoopPending_eq
  · intro v hv
    simp [Map.containsKey] at hv
  · intro v hv
    simp [Map.containsKey] at hv

theorem decodePending_cons (encodingMap : Map Char Str) (bit : Nat) (rest : List Nat)
    (encodedChar : Str) :
    decodePending encodingMap (bit :: rest) encodedChar =
      if isValidValueL2 (encodedChar ++ to_string bit) encodingMap then
        decodePending encodingMap rest []
      else decodePending encodingMap rest (encodedChar ++ to_string bit) := rfl

/-- The bits read split into those up to the end of the last complete code
and those after it, which are left in the accumulated bit-string and add
nothing to the output. -/
theorem decode_split (encodingMap : Map Char Str) (bits : List Nat) (encodedChar output : Str) :
    (decodePending encodingMap bits encodedChar = encodedChar ++ bits.flatMap to_string ∧
      decodeLoop encodingMap bits encodedChar output = output) ∨
    ∃ done pending, bits = done ++ pending ∧
      decodePending encodingMap done encodedChar = [] ∧
      decodePending encodingMap bits encodedChar = pending.flatMap to_string ∧
      decodeLoop encodingMap bits encodedChar output =
        decodeLoop encodingMap done encodedChar output := by
  induction bits generalizing encodedChar output with
  | nil =>
    left
    simp [decodePending, decodeLoop]
  | cons bit rest ih =>
    rw [decodePending_cons, decodeLoop_cons]
    by_cases hvalid : isValidValueL2 (encodedChar ++ to_string bit) encodingMap = true
    · simp only [hvalid, if_true]
      right
      rcases ih [] (writeBit (getValidKey (encodedChar ++ to_string bit) encodingMap) output)
        with ⟨h1, h2⟩ | ⟨done, pending, h1, h2, h3, h4⟩
      · refine ⟨[bit], rest, rfl, ?_, ?_, ?_⟩
        · simp [decodePending, hvalid]
        · simpa using h1
        · rw [h2]
          simp [decodeLoop, hvalid]
      · refine ⟨bit :: done, pending, by rw [h1]; rfl, ?_, h3, ?_⟩
        · rw [decodePending_cons]
          simp only [hvalid, if_true]
          exact h2
        · rw [h4, decodeLoop_cons]
          simp only [hvalid, if_true]
    · simp only [hvalid, if_false]
      rcases ih (encodedChar ++ to_string bit) output
        with ⟨h1, h2⟩ | ⟨done, pending, h1, h2, h3, h4⟩
      · left
        refine ⟨?_, h2⟩
        rw [h1]
        simp
      · right
        refine ⟨bit :: done, pending, by rw [h1]; rfl, ?_, h3, ?_⟩
        · rw [decodePending_cons]
          simp only [hvalid, if_false]
          exact h2
        · rw [h4, decodeLoop_cons]
          simp [hvalid]

/-- C13 (amended). End of the bits in the middle of a code: for every encoding
map and bit sequence such that, when the bit source is exhausted, the
accumulated bit-string of `decompressFile` is not empty, `decompressFile`
returns as on a complete input and signals nothing: the bits split into those
up to the end of the last complete code and the unfinished ones after it, the
unfinished ones are what the accumulated bit-string holds, and the output is
the output for the bits before them. -/
theorem C13_premature_end (encodingMap : Map Char Str) (bits : List Nat)
    (h : pendingCode bits encodingMap ≠ []) :
    ∃ done pending, bits = done ++ pending ∧ pending ≠ [] ∧
      pendingCode done encodingMap = [] ∧
      pendingCode bits encodingMap = pending.flatMap to_string ∧
      decompressFile bits encodingMap = decompressFile done encodingMap := by
  rw [pendingCode_eq] at h
  rcases decode_split encodingMap bits [] [] with ⟨h1, h2⟩ | ⟨done, pending, h1, h2, h3, h4⟩
  · refine ⟨[], bits, rfl, ?_, rfl, ?_, ?_⟩
    · intro hb
      rw [hb] at h
      exact h rfl
    · rw [pendingCode_eq, h1]
      rfl
    · rw [decompressFile_eq_decodeLoop, decompressFile_eq_decodeLoop, h2]
      rfl
  · refine ⟨done, pending, h1, ?_, ?_, ?_, ?_⟩
    · intro hp
      rw [h3, hp] at h
      exact h rfl
    · rw [pendingCode_eq, h2]
    · rw [pendingCode_eq, h3]
    · rw [decompressFile_eq_decodeLoop, decompressFile_eq_decodeLoop, h4]

/-- C13 (amended), at the map `a -> 00` and the bits `0 0 0`. -/
theorem C13_premature_end_witness :
    pendingCode [0, 0, 0] [('a', ['0', '0'])] ≠ [] ∧
    ∃ done pending, [0, 0, 0] = done ++ pending ∧ pending ≠ [] ∧
      pendingCode done [('a', ['0', '0'])] = [] ∧
      pendingCode [0, 0, 0] [('a', ['0', '0'])] = pending.flatMap to_string ∧
      decompressFile [0, 0, 0] [('a', ['0', '0'])] = decompressFile done [('a', ['0', '0'])] :=
  ⟨by decide, C13_premature_end [('a', ['0', '0'])] [0, 0, 0] (by decide)⟩

/-- C13 (as stated) fails: with the map `a -> 00`, the bits `0 0 0` end in the
middle of a code, and `decompressFile` returns the output `a`, the very
output it returns for the complete bits `0 0`; the unfinished code leaves no
trace. -/
theorem C13_counterexample :
    pendingCode [0, 0, 0] [('a', ['0', '0'])] = ['0'] ∧
    decompressFile [0, 0, 0] [('a', ['0', '0'])] = ['a'] ∧
    decompressFile [0, 0] [('a', ['0', '0'])] = ['a'] := by
  refine ⟨?_, ?_, ?_⟩ <;> decide

/-! ## A byte without entry in the map -/

theorem compressFile_eq_compressLine (input header : Str) (encodingMap : Map Char Str) :
    compressFile input header encodingMap =
      compressLine (fedText input) encodingMap [OutCall.writeHeader (header ++ ['\n'])] := by
  unfold compressFile
  simp only
  exact compressFileLoop_eq encodingMap _ input (by omega) _

/-- C16. Scenario `aaab`: `buildFrequencyTable` gives `a:3, b:1`; exactly one
merge happens (two entries queued, one after the first iteration, which the
loop keeps); `flattenTreeToHeader` gives `(a.0)(b.1)` with payload bits
`0 0 0 1`, or `(a.1)(b.0)` with payload bits `1 1 1 0`, here the second; and
decompressing that header and those bits yields `aaab`. -/
theorem C16_scenario_aaab :
    buildFrequencyTable ['a', 'a', 'a', 'b'] = [('a', 3), ('b', 1)] ∧
    (queueAfter [('a', 3), ('b', 1)] 0).length = 2 ∧
    (queueAfter [('a', 3), ('b', 1)] 1).length = 1 ∧
    mergeLoop 2 (getQueue [('a', 3), ('b', 1)]) = queueAfter [('a', 3), ('b', 1)] 1 ∧
    (∃ tree output, buildEncodingTree [('a', 3), ('b', 1)] = some tree ∧
      compress ['a', 'a', 'a', 'b'] = some output ∧
      writtenHeader output = flattenTreeToHeader tree ++ ['\n'] ∧
      ((flattenTreeToHeader tree = ['(', 'a', '.', '0', ')', '(', 'b', '.', '1', ')'] ∧
          writtenBits output = [0, 0, 0, 1]) ∨
        (flattenTreeToHeader tree = ['(', 'a', '.', '1', ')', '(', 'b', '.', '0', ')'] ∧
          writtenBits output = [1, 1, 1, 0])) ∧
      decompress (HuffmanInputFile.ofOutput output) = ['a', 'a', 'a', 'b']) ∧
    flattenTreeToHeader (HuffmanNode.join (HuffmanNode.leaf 'b') (HuffmanNode.leaf 'a')) =
      ['(', 'a', '.', '1', ')', '(', 'b', '.', '0', ')'] := by
  refine ⟨by decide, by decide, by decide, by decide, ?_, by decide⟩
  refine ⟨HuffmanNode.join (HuffmanNode.leaf 'b') (HuffmanNode.leaf 'a'),
    [OutCall.writeHeader ['(', 'a', '.', '1', ')', '(', 'b', '.', '0', ')', '\n'],
      OutCall.writeBit 1, OutCall.writeBit 1, OutCall.writeBit 1, OutCall.writeBit 0],
    by decide, by decide, by decide, Or.inr ⟨by decide, by decide⟩, by decide⟩

/-- C17. Scenario `abcabcabc`: for the table `a:3, b:3, c:3` the queue holds
`a`, `b`, `c` in this order; the three-way tie is resolved by insertion
order: `a` is dequeued first and becomes the `zero` child, `b` second and
becomes the `one` child of the first merged node, which goes behind `c`; the
encoding map is `a -> 10, b -> 11, c -> 0`, no path of which is a prefix of
another; and the input `abcabcabc` comes back from `compress` followed by
`decompress`. -/
theorem C17_scenario_abcabcabc :
    buildFrequencyTable ['a', 'b', 'c', 'a', 'b', 'c', 'a', 'b', 'c'] =
      [('a', 3), ('b', 3), ('c', 3)] ∧
    queueAfter [('a', 3), ('b', 3), ('c', 3)] 0 =
      [(3, HuffmanNode.leaf 'a'), (3, HuffmanNode.leaf 'b'), (3, HuffmanNode.leaf 'c')] ∧
    queueAfter [('a', 3), ('b', 3), ('c', 3)] 1 =
      [(3, HuffmanNode.leaf 'c'),
        (6, HuffmanNode.join (HuffmanNode.leaf 'a') (HuffmanNode.leaf 'b'))] ∧
    buildEncodingTree [('a', 3), ('b', 3), ('c', 3)] =
      some (HuffmanNode.join (HuffmanNode.leaf 'c')
        (HuffmanNode.join (HuffmanNode.leaf 'a') (HuffmanNode.leaf 'b'))) ∧
    buildEncodingMap (HuffmanNode.join (HuffmanNode.leaf 'c')
        (HuffmanNode.join (HuffmanNode.leaf 'a') (HuffmanNode.leaf 'b'))) =
      [('a', ['1', '0']), ('b', ['1', '1']), ('c', ['0'])] ∧
    PathsPrefixFree [('a', ['1', '0']), ('b', ['1', '1']), ('c', ['0'])] ∧
    (∃ output, compress ['a', 'b', 'c', 'a', 'b', 'c', 'a', 'b', 'c'] = some output ∧
      decompress (HuffmanInputFile.ofOutput output) =
        ['a', 'b', 'c', 'a', 'b', 'c', 'a', 'b', 'c']) := by
  refine ⟨by decide, by decide, by decide, by decide, by decide, ?_, ?_⟩
  · unfold PathsPrefixFree
    decide
  · exact ⟨[OutCall.writeHeader ['(', 'a', '.', '1', '0', ')', '(', 'b', '.', '1', '1', ')',
        '(', 'c', '.', '0', ')', '\n'],
      OutCall.writeBit 1, OutCall.writeBit 0, OutCall.writeBit 1, OutCall.writeBit 1,
      OutCall.writeBit 0, OutCall.writeBit 1, OutCall.writeBit 0, OutCall.writeBit 1,
      OutCall.writeBit 1, OutCall.writeBit 0, OutCall.writeBit 1, OutCall.writeBit 0,
      OutCall.writeBit 1, OutCall.writeBit 1, OutCall.writeBit 0], by decide, by decide⟩

/-! ## Memoized lookups -/

theorem runIsValidValueL1_eq (encodingMap : Map Char Str) (queries : List Str)
    (isValidCache : Map Str Bool) (h : ValidCacheOk encodingMap isValidCache) :
    runIsValidValueL1 encodingMap queries isValidCache =
      queries.map (fun v => isValidValueL2 v encodingMap) := by
  induction queries generalizing isValidCache with
  | nil => rfl
  | cons v rest ih =>
    obtain ⟨h1, h2⟩ := isValidValueL1_spec v encodingMap isValidCache h
    simp only [runIsValidValueL1, List.map_cons, h1, ih _ h2]

theorem runGetValidKey_eq (encodingMap : Map Char Str) (queries : List Str)
    (charCache : Map Str Char) (h : CharCacheOk encodingMap charCache) :
    runGetValidKey encodingMap queries charCache =
      queries.map (fun v => getValidKey v encodingMap) := by
  induction queries generalizing charCache with
  | nil => rfl
  | cons v rest ih =>
    obtain ⟨h1, h2⟩ := getValidKeyCached_spec v encodingMap charCache h
    simp only [runGetValidKey, List.map_cons, h1, ih _ h2]

/-- C18. Memoized lookups agree with uncached ones: for every encoding map and
every sequence of queries, repeated ones included, made one after the other
with caches that start empty and are filled by these calls only,
`isValidValueL1` returns at each query what `isValidValueL2` returns for it and
the cached `getValidKey` returns what the uncached `getValidKey` returns;
hence `decompressFile` produces on every bit sequence the output of the same
decoder without caches. -/
theorem C18_memoized_lookups (encodingMap : Map Char Str) (queries : List Str)
    (bits : List Nat) :
    runIsValidValueL1 encodingMap queries [] =
      queries.map (fun v => isValidValueL2 v encodingMap) ∧
    runGetValidKey encodingMap queries [] =
      queries.map (fun v => getValidKey v encodingMap) ∧
    decompressFile bits encodingMap = decodeLoop encodingMap bits [] [] := by
  refine ⟨runIsValidValueL1_eq _ _ _ ?_, runGetValidKey_eq _ _ _ ?_,
    decompressFile_eq_decodeLoop bits encodingMap⟩
  · intro v hv
    simp [Map.containsKey] at hv
  · intro v hv
    simp [Map.containsKey] at hv

/-! ## Shape of the tree -/

theorem isFull_zeroOrTwo (t : HuffmanNode) (h : t.isFull = true) : t.zeroOrTwo = true := by
  induction t with
  | nil => simp [HuffmanNode.isFull] at h
  | node ch zero one ihz iho =>
    by_cases hleaf : (zero.isNull && one.isNull) = true
    · have hz : zero = HuffmanNode.nil := by
        cases zero with
        | nil => rfl
        | node _ _ _ => simp [HuffmanNode.isNull] at hleaf
      have ho : one = HuffmanNode.nil := by
        cases one with
        | nil => rfl
        | node _ _ _ => simp [HuffmanNode.isNull] at hleaf
      subst hz ho
      rfl
    · have hleaf' : (zero.isNull && one.isNull) = false := by simpa using hleaf
      simp only [HuffmanNode.isFull, hleaf', Bool.false_or, Bool.and_eq_true] at h
      simp [HuffmanNode.zeroOrTwo, ihz h.1.2, iho h.2, isFull_ne_nil zero h.1.2,
        isFull_ne_nil one h.2]

theorem isFull_internalCount (t : HuffmanNode) (h : t.isFull = true) :
    t.internalCount + 1 = (leafSymbols t).length := by
  induction t with
  | nil => simp [HuffmanNode.isFull] at h
  | node ch zero one ihz iho =>
    by_cases hleaf : (zero.isNull && one.isNull) = true
    · have hz : zero = HuffmanNode.nil := by
        cases zero with
        | nil => rfl
        | node _ _ _ => simp [HuffmanNode.isNull] at hleaf
      have ho : one = HuffmanNode.nil := by
        cases one with
        | nil => rfl
        | node _ _ _ => simp [HuffmanNode.isNull] at hleaf
      subst hz ho
      rfl
    · have hleaf' : (zero.isNull && one.isNull) = false := by simpa using hleaf
      simp only [HuffmanNode.isFull, hleaf', Bool.false_or, Bool.and_eq_true] at h
      have e1 := ihz h.1.2
      have e2 := iho h.2
      simp only [leafSymbols] at e1 e2
      simp only [HuffmanNode.internalCount, hleaf', Bool.false_eq_true, if_false, leafSymbols,
        leafPaths, List.map_append, List.length_append, List.length_map] at e1 e2 ⊢
      omega

/-- C19. Tree shape: for every non-empty frequency table `f`,
`buildEncodingTree` returns a tree of which every node has no child or two,
and whose leaves hold exactly the symbols of `f`, each symbol at exactly one
leaf: the tree has `|f|` leaves and `|f| - 1` nodes with children. -/
theorem C19_tree_shape (freqTable : Map Char Nat) (hwf : Map.WF freqTable)
    (hne : freqTable ≠ []) :
    ∃ t, buildEncodingTree freqTable = some t ∧ t.zeroOrTwo = true ∧
      (∀ c, c ∈ leafSymbols t ↔ c ∈ Map.keys freqTable) ∧
      (∀ c ∈ Map.keys freqTable, (leafSymbols t).count c = 1) ∧
      (leafSymbols t).length = freqTable.length ∧
      t.internalCount = freqTable.length - 1 := by
  obtain ⟨t, ht, hfull, hperm⟩ := buildEncodingTree_spec freqTable hne
  have hlen : (leafSymbols t).length = freqTable.length := by
    rw [hperm.length_eq]
    simp [Map.keys]
  refine ⟨t, ht, isFull_zeroOrTwo t hfull, fun c => hperm.mem_iff, ?_, hlen, ?_⟩
  · intro c hc
    rw [hperm.count_eq]
    exact List.count_eq_one_of_mem (Map.WF_nodup_keys freqTable hwf) hc
  · have := isFull_internalCount t hfull
    omega

/-- C19, at the table `a:3, b:1, c:1`. -/
theorem C19_tree_shape_witness :
    ([('a', 3), ('b', 1), ('c', 1)] : Map Char Nat) ≠ [] ∧
    ∃ t, buildEncodingTree [('a', 3), ('b', 1), ('c', 1)] = some t ∧ t.zeroOrTwo = true ∧
      (∀ c, c ∈ leafSymbols t ↔ c ∈ Map.keys ([('a', 3), ('b', 1), ('c', 1)] : Map Char Nat)) ∧
      (∀ c ∈ Map.keys ([('a', 3), ('b', 1), ('c', 1)] : Map Char Nat),
        (leafSymbols t).count c = 1) ∧
      (leafSymbols t).length = ([('a', 3), ('b', 1), ('c', 1)] : Map Char Nat).length ∧
      t.internalCount = ([('a', 3), ('b', 1), ('c', 1)] : Map Char Nat).length - 1 :=
  ⟨by decide,
    C19_tree_shape [('a', 3), ('b', 1), ('c', 1)] (by unfold Map.WF; decide) (by decide)⟩

/-! ## Derivation of the encoding map -/

/-- C20. Encoding map derivation: for every tree `t` in which no symbol is
held by two leaves, `buildEncodingMap(t)` maps each leaf symbol other than the
NUL sentinel to the route from the root to that leaf, a string of `'0'` (a
step into `zero`) and `'1'` (a step into `one`), and has no other entries;
`buildEncodingMap` of a null root is the empty map. -/
theorem C20_map_derivation (t : HuffmanNode) (hnodup : (leafSymbols t).Nodup) :
    (∀ c p, (c, p) ∈ leafPaths t → c ≠ DEFAULT_NODE_CHAR →
      c ∈ Map.keys (buildEncodingMap t) ∧ Map.get (buildEncodingMap t) c = p ∧
        ∀ x ∈ p, x = '0' ∨ x = '1') ∧
    (∀ c p, (c, p) ∈ buildEncodingMap t → (c, p) ∈ leafPaths t ∧ c ≠ DEFAULT_NODE_CHAR) ∧
    buildEncodingMap HuffmanNode.nil = [] := by
  refine ⟨?_, fun c p h => buildEncodingMap_mem_leafPaths t (c, p) h, rfl⟩
  intro c p hmem hc
  have hk : c ∈ Map.keys (buildEncodingMap t) :=
    (buildEncodingMap_mem_keys t c).mpr ⟨List.mem_map.mpr ⟨(c, p), hmem, rfl⟩, hc⟩
  refine ⟨hk, ?_, leafPaths_bits t (c, p) hmem⟩
  have hg := buildEncodingMap_get_mem t c hk
  have := List.inj_on_of_nodup_map hnodup hg hmem rfl
  exact (Prod.mk.inj this).2

/-- C20, at the tree with `a` at `0`, `b` at `10` and `c` at `11`. -/
theorem C20_map_derivation_witness :
    (leafSymbols (HuffmanNode.join (HuffmanNode.leaf 'a')
      (HuffmanNode.join (HuffmanNode.leaf 'b') (HuffmanNode.leaf 'c')))).Nodup ∧
    Map.get (buildEncodingMap (HuffmanNode.join (HuffmanNode.leaf 'a')
      (HuffmanNode.join (HuffmanNode.leaf 'b') (HuffmanNode.leaf 'c')))) 'b' = ['1', '0'] :=
  ⟨by decide,
    ((C20_map_derivation (HuffmanNode.join (HuffmanNode.leaf 'a')
      (HuffmanNode.join (HuffmanNode.leaf 'b') (HuffmanNode.leaf 'c'))) (by decide)).1
        'b' ['1', '0'] (by decide) (by decide)).2.1⟩
/-! ## Reconstruction from a well-formed header -/

theorem leafPaths_recreate (entries : List (Char × Str)) (hnil : entries ≠ [])
    (hne : ∀ e ∈ entries, e.2 ≠ [])
    (hbits : ∀ e ∈ entries, ∀ c ∈ e.2, c = '0' ∨ c = '1')
    (hpf : PathsPrefixFree entries) :
    ∀ e, e ∈ leafPaths (recreateTreeFromHeader (headerOf entries)) ↔ e ∈ entries := by
  have hroot : HuffmanNode.join HuffmanNode.nil HuffmanNode.nil = HuffmanNode.nil.orFresh := rfl
  rw [recreateTreeFromHeader_headerOf _ hbits, hroot, ← placeAll_eq_recreateFold _ hne hnil]
  exact leafPaths_placeAll (entries.map (fun e => e.2.length)).sum _
    (fun e he => List.single_le_sum (fun _ _ => Nat.zero_le _) _
      (List.mem_map.mpr ⟨e, he, rfl⟩))
    hbits hpf

/-- C21. Reconstruction from any well-formed header: for every list of records
(symbol, path) with pairwise distinct symbols other than NUL and with paths
that are non-empty strings of `'0'`/`'1'`, no one a prefix of another, the
encoding map of the tree that `recreateTreeFromHeader` builds from the
concatenation of the records `(` symbol `.` path `)` maps each symbol to its
path and has no other keys, whether or not the paths form a full tree. -/
theorem C21_reconstruction (entries : List (Char × Str))
    (hnodup : (entries.map Prod.fst).Nodup)
    (hnn : ∀ e ∈ entries, e.1 ≠ DEFAULT_NODE_CHAR)
    (hne : ∀ e ∈ entries, e.2 ≠ [])
    (hbits : ∀ e ∈ entries, ∀ c ∈ e.2, c = '0' ∨ c = '1')
    (hpf : PathsPrefixFree entries) :
    (∀ e ∈ entries,
      e.1 ∈ Map.keys (buildEncodingMap (recreateTreeFromHeader (headerOf entries))) ∧
        Map.get (buildEncodingMap (recreateTreeFromHeader (headerOf entries))) e.1 = e.2) ∧
    (∀ k ∈ Map.keys (buildEncodingMap (recreateTreeFromHeader (headerOf entries))),
      k ∈ entries.map Prod.fst) := by
  by_cases hnil : entries = []
  · subst hnil
    refine ⟨fun e he => absurd he (List.not_mem_nil e), ?_⟩
    intro k hk
    have h0 : buildEncodingMap (recreateTreeFromHeader (headerOf [])) = [] := by decide
    rw [h0] at hk
    simp [Map.keys] at hk
  · have hleaf := leafPaths_recreate entries hnil hne hbits hpf
    constructor
    · intro e he
      have hk : e.1 ∈ Map.keys (buildEncodingMap (recreateTreeFromHeader (headerOf entries))) :=
        (buildEncodingMap_mem_keys _ e.1).mpr
          ⟨List.mem_map.mpr ⟨e, (hleaf e).mpr he, rfl⟩, hnn e he⟩
      refine ⟨hk, ?_⟩
      have hg := (hleaf _).mp (buildEncodingMap_get_mem _ e.1 hk)
      have := List.inj_on_of_nodup_map hnodup hg he rfl
      rw [← this]
    · intro k hk
      have hg := (hleaf _).mp (buildEncodingMap_get_mem _ k hk)
      exact List.mem_map.mpr ⟨_, hg, rfl⟩

/-- C21, at the documented example `(a.0001)(b.0000)(c.0011)(d.0010)`, the
paths of which do not form a full tree. -/
theorem C21_reconstruction_witness :
    headerOf [('a', ['0', '0', '0', '1']), ('b', ['0', '0', '0', '0']),
        ('c', ['0', '0', '1', '1']), ('d', ['0', '0', '1', '0'])] =
      "(a.0001)(b.0000)(c.0011)(d.0010)".toList ∧
    (recreateTreeFromHeader "(a.0001)(b.0000)(c.0011)(d.0010)".toList).isFull = false ∧
    buildEncodingMap (recreateTreeFromHeader "(a.0001)(b.0000)(c.0011)(d.0010)".toList) =
      [('a', ['0', '0', '0', '1']), ('b', ['0', '0', '0', '0']),
        ('c', ['0', '0', '1', '1']), ('d', ['0', '0', '1', '0'])] ∧
    ((∀ e ∈ [('a', ['0', '0', '0', '1']), ('b', ['0', '0', '0', '0']),
        ('c', ['0', '0', '1', '1']), ('d', ['0', '0', '1', '0'])],
      e.1 ∈ Map.keys (buildEncodingMap (recreateTreeFromHeader (headerOf
          [('a', ['0', '0', '0', '1']), ('b', ['0', '0', '0', '0']),
            ('c', ['0', '0', '1', '1']), ('d', ['0', '0', '1', '0'])]))) ∧
        Map.get (buildEncodingMap (recreateTreeFromHeader (headerOf
          [('a', ['0', '0', '0', '1']), ('b', ['0', '0', '0', '0']),
            ('c', ['0', '0', '1', '1']), ('d', ['0', '0', '1', '0'])]))) e.1 = e.2) ∧
    (∀ k ∈ Map.keys (buildEncodingMap (recreateTreeFromHeader (headerOf
        [('a', ['0', '0', '0', '1']), ('b', ['0', '0', '0', '0']),
          ('c', ['0', '0', '1', '1']), ('d', ['0', '0', '1', '0'])]))),
      k ∈ ([('a', ['0', '0', '0', '1']), ('b', ['0', '0', '0', '0']),
        ('c', ['0', '0', '1', '1']), ('d', ['0', '0', '1', '0'])] :
          List (Char × Str)).map Prod.fst)) :=
  ⟨by decide, by decide, by decide,
    C21_reconstruction
      [('a', ['0', '0', '0', '1']), ('b', ['0', '0', '0', '0']),
        ('c', ['0', '0', '1', '1']), ('d', ['0', '0', '1', '0'])]
      (by decide) (by decide) (by decide) (by decide) (by unfold PathsPrefixFree; decide)⟩

/-! ## Parsing of the records -/

/-- C22. Record parsing: for every header `h` that is the concatenation of `n`
records `(` `s_k` `.` `p_k` `)`, where each `s_k` is any single character,
`(`, `)` and `.` included, and each `p_k` is a string of `'0'`/`'1'`,
`getEncodingCount(h) = n` and, for every `k < n`, `getDecodedChar(h, k) = s_k`
and `getDecodedPath(h, k) = p_k`. -/
theorem C22_record_parsing (entries : List (Char × Str))
    (hbits : ∀ e ∈ entries, ∀ c ∈ e.2, c = '0' ∨ c = '1') :
    getEncodingCount (headerOf entries) = entries.length ∧
    ∀ k e, entries[k]? = some e →
      getDecodedChar (headerOf entries) k = e.1 ∧ getDecodedPath (headerOf entries) k = e.2 :=
  ⟨getEncodingCount_headerOf entries hbits, fun k e he =>
    ⟨getDecodedChar_headerOf entries hbits k e he, getDecodedPath_headerOf entries hbits k e he⟩⟩

/-- C22, at the header `((.0)().10)(..1)`, whose symbols are `(`, `)` and `.`. -/
theorem C22_record_parsing_witness :
    headerOf [('(', ['0']), (')', ['1', '0']), ('.', ['1'])] = "((.0)().10)(..1)".toList ∧
    getEncodingCount (headerOf [('(', ['0']), (')', ['1', '0']), ('.', ['1'])]) = 3 ∧
    getDecodedChar (headerOf [('(', ['0']), (')', ['1', '0']), ('.', ['1'])]) 1 = ')' ∧
    getDecodedPath (headerOf [('(', ['0']), (')', ['1', '0']), ('.', ['1'])]) 1 = ['1', '0'] :=
  ⟨by decide,
    (C22_record_parsing [('(', ['0']), (')', ['1', '0']), ('.', ['1'])] (by decide)).1,
    ((C22_record_parsing [('(', ['0']), (')', ['1', '0']), ('.', ['1'])] (by decide)).2
      1 (')', ['1', '0']) rfl).1,
    ((C22_record_parsing [('(', ['0']), (')', ['1', '0']), ('.', ['1'])] (by decide)).2
      1 (')', ['1', '0']) rfl).2⟩

/-! ## Payload -/

theorem fedText_of_getLast_ne (s : Str) (hs : s ≠ []) (h : s.getLast? ≠ some '\n') :
    fedText s = s ++ ['\n'] := by
  induction s with
  | nil => exact absurd rfl hs
  | cons c s ih =>
    cases s with
    | nil =>
      have hc : ¬ c = '\n' := by
        intro hc
        apply h
        simp [hc]
      simp [fedText, hc]
    | cons d s =>
      rw [fedText_cons c _ (by simp),
        ih (by simp) (by simpa [List.getLast?_cons_cons] using h)]
      rfl

theorem get_bits_of_bitPaths (m : Map Char Str) (hbits : Map.BitPaths m) (ch : Char) :
    ∀ c ∈ Map.get m ch, c = '0' ∨ c = '1' := by
  by_cases hk : ch ∈ Map.keys m
  · exact hbits ch hk
  · have hcon : Map.containsKey m ch = false := by
      rw [Map.mem_keys_iff] at hk
      simpa using hk
    rw [Map.get_of_not_containsKey _ _ hcon]
    intro c hc
    exact absurd hc (List.not_mem_nil c)

/-- C24. Single-symbol tree: for every frequency table with exactly one symbol
`c`, the queue of `buildEncodingTree` holds one node, the loop performs no
merge, whatever the number of iterations it is allowed, and the tree returned
is a single childless leaf holding `c`; for `c` other than the NUL sentinel,
`buildEncodingMap` of that tree maps `c` to the empty string and has no other
entry, and `flattenTreeToHeader` gives the record `(c.)` with an empty path
(for NUL, the map and the header are empty). -/
theorem C24_single_symbol_tree (c : Char) (n : Nat) :
    getQueue [(c, n)] = [(n, HuffmanNode.leaf c)] ∧
    (∀ fuel, mergeLoop fuel (getQueue [(c, n)]) = getQueue [(c, n)]) ∧
    (∀ k, queueAfter [(c, n)] k = getQueue [(c, n)]) ∧
    buildEncodingTree [(c, n)] = some (HuffmanNode.leaf c) ∧
    HuffmanNode.leaf c = HuffmanNode.node c HuffmanNode.nil HuffmanNode.nil ∧
    buildEncodingMap (HuffmanNode.leaf c) = (if c = DEFAULT_NODE_CHAR then [] else [(c, [])]) ∧
    flattenTreeToHeader (HuffmanNode.leaf c) =
      (if c = DEFAULT_NODE_CHAR then [] else ['(', c, '.', ')']) := by
  have hq : getQueue [(c, n)] = [(n, HuffmanNode.leaf c)] := by
    simp [getQueue, Map.keys, Map.get, PriorityQueue.enqueue]
  refine ⟨hq, ?_, ?_, buildEncodingTree_single c n, rfl, ?_, ?_⟩
  · intro fuel
    rw [hq]
    cases fuel <;> simp [mergeLoop]
  · intro k
    unfold queueAfter
    rw [hq]
    induction k with
    | zero => rfl
    | succ k ih => rw [Function.iterate_succ_apply, show mergeStep [(n, HuffmanNode.leaf c)] =
        [(n, HuffmanNode.leaf c)] from rfl, ih]
  · by_cases hc : c = DEFAULT_NODE_CHAR
    · subst hc
      decide
    · simp [buildEncodingMap, buildEncodingMapFrom, HuffmanNode.leaf, HuffmanNode.isNull, hc,
        Map.put]
  · rw [flattenTreeToHeader_eq]
    by_cases hc : c = DEFAULT_NODE_CHAR
    · subst hc
      decide
    · simp [buildEncodingMap, buildEncodingMapFrom, HuffmanNode.leaf, HuffmanNode.isNull, hc,
        Map.put, headerOf, record]

/-! ## Termination of the construction of the tree -/

theorem iterate_mergeStep_length (k : Nat) (queue : PriorityQueue HuffmanNode)
    (hk : k + 1 ≤ queue.length) : (mergeStep^[k] queue).length = queue.length - k := by
  induction k generalizing queue with
  | zero => rfl
  | succ k ih =>
    rw [Function.iterate_succ_apply, ih (mergeStep queue)
      (by rw [mergeStep_length queue (by omega)]; omega), mergeStep_length queue (by omega)]
    omega

theorem mergeLoop_enough (fuel : Nat) (queue : PriorityQueue HuffmanNode)
    (hq : 1 ≤ queue.length) (hfuel : queue.length - 1 ≤ fuel) :
    mergeLoop fuel queue = mergeStep^[queue.length - 1] queue := by
  induction fuel generalizing queue with
  | zero =>
    have h1 : queue.length - 1 = 0 := by omega
    rw [h1]
    rfl
  | succ fuel ih =>
    by_cases h : queue.length > 1
    · have hlen := mergeStep_length queue h
      rw [mergeLoop, if_pos h, ih (mergeStep queue) (by omega) (by omega), hlen,
        show queue.length - 1 = (queue.length - 1 - 1) + 1 by omega, Function.iterate_succ_apply]
      simp
    · have h1 : queue.length - 1 = 0 := by omega
      rw [mergeLoop, if_neg h, h1]
      rfl

/-- C25. Termination of tree construction: for every frequency table with
`n >= 1` symbols, the queue of `buildEncodingTree` has `n - k` entries after
`k <= n - 1` iterations of the merge loop, so that the loop goes on after
fewer than `n - 1` iterations and stops after exactly `n - 1`, whatever the
number of iterations it is allowed beyond that, with exactly one node in the
queue, and this node is the root that `buildEncodingTree` returns. -/
theorem C25_termination (freqTable : Map Char Nat) (hne : freqTable ≠ []) :
    (∀ k, k ≤ freqTable.length - 1 → (queueAfter freqTable k).length = freqTable.length - k) ∧
    (∀ k, k < freqTable.length - 1 → (queueAfter freqTable k).length > 1) ∧
    (∀ fuel, freqTable.length - 1 ≤ fuel →
      mergeLoop fuel (getQueue freqTable) = queueAfter freqTable (freqTable.length - 1)) ∧
    ∃ priority root, queueAfter freqTable (freqTable.length - 1) = [(priority, root)] ∧
      buildEncodingTree freqTable = some root := by
  have hlen : (getQueue freqTable).length = freqTable.length := (getQueue_inv freqTable).2.2
  have hpos : 1 ≤ freqTable.length := by
    cases freqTable with
    | nil => exact absurd rfl hne
    | cons e l => simp
  have hk : ∀ k, k ≤ freqTable.length - 1 →
      (queueAfter freqTable k).length = freqTable.length - k := by
    intro k hk
    unfold queueAfter
    rw [iterate_mergeStep_length k _ (by omega), hlen]
  have hloop : ∀ fuel, freqTable.length - 1 ≤ fuel →
      mergeLoop fuel (getQueue freqTable) = queueAfter freqTable (freqTable.length - 1) := by
    intro fuel hfuel
    rw [mergeLoop_enough fuel _ (by omega) (by omega), hlen]
    rfl
  refine ⟨hk, ?_, hloop, ?_⟩
  · intro k hlt
    rw [hk k (by omega)]
    omega
  · have h1 := hk (freqTable.length - 1) (Nat.le_refl _)
    have h1' : (queueAfter freqTable (freqTable.length - 1)).length = 1 := by omega
    match hm : queueAfter freqTable (freqTable.length - 1), h1' with
    | [(priority, root)], _ =>
      refine ⟨priority, root, rfl, ?_⟩
      unfold buildEncodingTree
      simp only
      rw [hlen, hloop freqTable.length (by omega), hm]
      rfl

/-- C25, at the table `a:3, b:1, c:1`. -/
theorem C25_termination_witness :
    ([('a', 3), ('b', 1), ('c', 1)] : Map Char Nat) ≠ [] ∧
    (queueAfter [('a', 3), ('b', 1), ('c', 1)] 0).length = 3 ∧
    (queueAfter [('a', 3), ('b', 1), ('c', 1)] 1).length = 2 ∧
    (queueAfter [('a', 3), ('b', 1), ('c', 1)] 2).length = 1 ∧
    ∃ priority root, queueAfter [('a', 3), ('b', 1), ('c', 1)] 2 = [(priority, root)] ∧
      buildEncodingTree [('a', 3), ('b', 1), ('c', 1)] = some root :=
  ⟨by decide,
    (C25_termination [('a', 3), ('b', 1), ('c', 1)] (by decide)).1 0 (by decide),
    (C25_termination [('a', 3), ('b', 1), ('c', 1)] (by decide)).1 1 (by decide),
    (C25_termination [('a', 3), ('b', 1), ('c', 1)] (by decide)).1 2 (by decide),
    (C25_termination [('a', 3), ('b', 1), ('c', 1)] (by decide)).2.2.2⟩

/-! ## Header before payload -/

theorem writeCode_shape (encoded : Str) (l : List Nat) (output output1 : HuffmanOutputFile)
    (h : writeCode encoded l output = some output1) :
    ∃ bits : List Nat, output1 = output ++ bits.map OutCall.writeBit := by
  induction l generalizing output with
  | nil =>
    simp only [writeCode, Option.some.injEq] at h
    exact ⟨[], by simp [h]⟩
  | cons j rest ih =>
    rw [writeCode] at h
    cases hb : getBit encoded j with
    | none => simp [hb] at h
    | some bit =>
      simp only [hb] at h
      obtain ⟨bits, hbits⟩ := ih _ h
      exact ⟨bit :: bits, by simp [hbits]⟩

theorem compressLine_shape (line : Str) (encodingMap : Map Char Str)
    (output output1 : HuffmanOutputFile)
    (h : compressLine line encodingMap output = some output1) :
    ∃ bits : List Nat, output1 = output ++ bits.map OutCall.writeBit := by
  induction line generalizing output with
  | nil =>
    simp only [compressLine, Option.some.injEq] at h
    exact ⟨[], by simp [h]⟩
  | cons ch line ih =>
    rw [compressLine] at h
    cases hw : writeCode (Map.get encodingMap ch)
        (List.range (Map.get encodingMap ch).length) output with
    | none => simp [hw] at h
    | some output2 =>
      simp only [hw] at h
      obtain ⟨bits1, h1⟩ := writeCode_shape _ _ _ _ hw
      obtain ⟨bits2, h2⟩ := ih _ h
      exact ⟨bits1 ++ bits2, by simp [h2, h1]⟩

/-- C26. Header before payload: for every input, header and map, with the
output as the sequence of the `writeHeader`/`writeBit` calls made on it,
whenever `compressFile` completes it has made exactly one `writeHeader` call,
with the header followed by a newline as argument, and this call is the first:
every other call is a `writeBit` call and comes after it. With paths of `'0'`
and `'1'`, `compressFile` does complete. -/
theorem C26_header_first (input header : Str) (encodingMap : Map Char Str) :
    (∀ output, compressFile input header encodingMap = some output →
      ∃ bits : List Nat,
        output = OutCall.writeHeader (header ++ ['\n']) :: bits.map OutCall.writeBit) ∧
    (Map.BitPaths encodingMap →
      ∃ bits : List Nat, compressFile input header encodingMap =
        some (OutCall.writeHeader (header ++ ['\n']) :: bits.map OutCall.writeBit)) := by
  constructor
  · intro output h
    rw [compressFile_eq_compressLine] at h
    obtain ⟨bits, hbits⟩ := compressLine_shape _ _ _ _ h
    exact ⟨bits, by simp [hbits]⟩
  · intro hbits
    exact ⟨_, compressFile_eq input header encodingMap (get_bits_of_bitPaths _ hbits)⟩

/-- C26, at the input `ab`, the header `(a.0)(b.1)` and the map
`a -> 0, b -> 1`. -/
theorem C26_header_first_witness :
    compressFile ['a', 'b'] ['(', 'a', '.', '0', ')', '(', 'b', '.', '1', ')']
        [('a', ['0']), ('b', ['1'])] =
      some [OutCall.writeHeader ['(', 'a', '.', '0', ')', '(', 'b', '.', '1', ')', '\n'],
        OutCall.writeBit 0, OutCall.writeBit 1] ∧
    ∃ bits : List Nat,
      [OutCall.writeHeader ['(', 'a', '.', '0', ')', '(', 'b', '.', '1', ')', '\n'],
          OutCall.writeBit 0, OutCall.writeBit 1] =
        OutCall.writeHeader (['(', 'a', '.', '0', ')', '(', 'b', '.', '1', ')'] ++ ['\n']) ::
          bits.map OutCall.writeBit :=
  ⟨by decide,
    (C26_header_first ['a', 'b'] ['(', 'a', '.', '0', ')', '(', 'b', '.', '1', ')']
      [('a', ['0']), ('b', ['1'])]).1 _ (by decide)⟩

/-! ## Restricted round trip -/

theorem compress_bits_eq (s : Str) (hs : s ≠ []) (hnl : s.getLast? = some '\n' ∨ '\n' ∉ s) :
    ∃ t, buildEncodingTree (buildFrequencyTable s) = some t ∧
      compress s = some (OutCall.writeHeader (flattenTreeToHeader t ++ ['\n']) ::
        (codeBits (buildEncodingMap t) s).map OutCall.writeBit) ∧
      ('\n' ∉ s → Map.get (buildEncodingMap t) '\n' = []) := by
  have hne : buildFrequencyTable s ≠ [] := by
    intro h
    obtain ⟨a, ha⟩ := List.exists_mem_of_ne_nil s hs
    have := (buildFrequencyTable_mem_keys s a).mpr ha
    rw [h] at this
    simp [Map.keys] at this
  obtain ⟨t, ht, _, hperm⟩ := buildEncodingTree_spec _ hne
  obtain ⟨t1, ht1, hc⟩ := compress_eq s hs
  rw [ht] at ht1
  injection ht1 with ht1
  subst ht1
  have habsent : '\n' ∉ s → Map.get (buildEncodingMap t) '\n' = [] := by
    intro h
    have hk : '\n' ∉ Map.keys (buildEncodingMap t) := by
      rw [buildEncodingMap_mem_keys]
      intro hh
      exact h ((buildFrequencyTable_mem_keys s _).mp (hperm.mem_iff.mp hh.1))
    have hcon : Map.containsKey (buildEncodingMap t) '\n' = false := by
      rw [Map.mem_keys_iff] at hk
      simpa using hk
    exact Map.get_of_not_containsKey _ _ hcon
  refine ⟨t, ht, ?_, habsent⟩
  rw [hc]
  rcases hnl with h | h
  · rw [fedText_of_getLast s h]
  · rw [fedText_of_not_mem s hs h, codeBits_append]
    simp [codeBits, habsent h]

/-- C27. Restricted round trip: for every input `s` that contains at least
two distinct bytes, contains no NUL byte, and either ends with a newline or
contains no newline at all, `compress` completes, writes the header of the
tree followed by a newline and then the bits of the paths of the bytes of `s`
(the newline that is fed after an input without newline is missing from the
map and its lookup gives the empty path), and `decompress` on exactly the
header and the bits written reproduces `s`. -/
theorem C27_restricted_round_trip (s : Str) (h2 : ∃ a b, a ∈ s ∧ b ∈ s ∧ a ≠ b)
    (hnul : DEFAULT_NODE_CHAR ∉ s) (hnl : s.getLast? = some '\n' ∨ '\n' ∉ s) :
    ∃ t output, buildEncodingTree (buildFrequencyTable s) = some t ∧
      compress s = some output ∧
      writtenHeader output = flattenTreeToHeader t ++ ['\n'] ∧
      writtenBits output = codeBits (buildEncodingMap t) s ∧
      ('\n' ∉ s → Map.get (buildEncodingMap t) '\n' = []) ∧
      decompress { header := writtenHeader output, bits := writtenBits output } = s := by
  obtain ⟨a, b, ha, hb, hab⟩ := h2
  obtain ⟨t, ht, hc, habsent⟩ := compress_bits_eq s (List.ne_nil_of_mem ha) hnl
  obtain ⟨output, ho, hd⟩ := round_trip_core s a b ha hb hab hnul hnl
  rw [hc] at ho
  injection ho with ho
  subst ho
  refine ⟨t, _, ht, hc, ?_, ?_, habsent, hd⟩
  · simp [writtenHeader, writtenHeader_map]
  · simp [writtenBits, writtenBits_map]

/-- C27, at the input `abb` without newline. -/
theorem C27_restricted_round_trip_witness :
    (∃ a b, a ∈ ['a', 'b', 'b'] ∧ b ∈ ['a', 'b', 'b'] ∧ a ≠ b) ∧
    DEFAULT_NODE_CHAR ∉ ['a', 'b', 'b'] ∧
    ∃ t output, buildEncodingTree (buildFrequencyTable ['a', 'b', 'b']) = some t ∧
      compress ['a', 'b', 'b'] = some output ∧
      writtenHeader output = flattenTreeToHeader t ++ ['\n'] ∧
      writtenBits output = codeBits (buildEncodingMap t) ['a', 'b', 'b'] ∧
      ('\n' ∉ ['a', 'b', 'b'] → Map.get (buildEncodingMap t) '\n' = []) ∧
      decompress { header := writtenHeader output, bits := writtenBits output } =
        ['a', 'b', 'b'] :=
  ⟨⟨'a', 'b', by decide, by decide, by decide⟩, by decide,
    C27_restricted_round_trip ['a', 'b', 'b'] ⟨'a', 'b', by decide, by decide, by decide⟩
      (by decide) (Or.inr (by decide))⟩

/-! ## Line splitting -/

theorem linesFed_flatten (fuel : Nat) (s : Str) (hfuel : s.length < fuel) :
    (linesFed fuel (getline s)).flatten = fedText s := by
  induction fuel generalizing s with
  | zero => omega
  | succ fuel ih =>
    cases hs : s with
    | nil => simp [getline, linesFed, fedText]
    | cons c s1 =>
      rw [← hs]
      obtain ⟨line, rest, hg, hlen, hfed⟩ := getline_spec s (by rw [hs]; simp)
      rw [hg, linesFed, List.flatten_cons, ih rest (by omega), hfed]
      simp

theorem linesFed_fuel (f1 f2 : Nat) (s : Str) (h1 : s.length < f1) (h2 : s.length < f2) :
    linesFed f1 (getline s) = linesFed f2 (getline s) := by
  induction f1 generalizing s f2 with
  | zero => omega
  | succ f1 ih =>
    cases f2 with
    | zero => omega
    | succ f2 =>
      cases hs : s with
      | nil => simp [getline, linesFed]
      | cons c s1 =>
        rw [← hs]
        obtain ⟨line, rest, hg, hlen, _⟩ := getline_spec s (by rw [hs]; simp)
        rw [hg, linesFed, linesFed, ih f2 rest (by omega) (by omega)]

theorem compressFileLoop_eq_foldlM (m : Map Char Str) (fuel : Nat) (g : Option (Str × Str))
    (output : HuffmanOutputFile) :
    compressFileLoop m fuel g output =
      (linesFed fuel g).foldlM (fun output1 line => compressLine line m output1) output := by
  induction fuel generalizing g output with
  | zero => simp [compressFileLoop, linesFed]
  | succ fuel ih =>
    cases g with
    | none => simp [compressFileLoop, linesFed]
    | some p =>
      obtain ⟨line, rest⟩ := p
      rw [compressFileLoop, linesFed, List.foldlM_cons]
      cases compressLine (line ++ ['\n']) m output with
      | none => rfl
      | some output1 => exact ih (getline rest) output1

theorem linesFed_lines (fuel : Nat) (s : Str) :
    ∀ l ∈ linesFed fuel (getline s), ∃ line, l = line ++ ['\n'] := by
  induction fuel generalizing s with
  | zero => simp [linesFed]
  | succ fuel ih =>
    cases hg : getline s with
    | none => simp [linesFed]
    | some p =>
      obtain ⟨line, rest⟩ := p
      intro l hl
      rw [linesFed, List.mem_cons] at hl
      rcases hl with hl | hl
      · exact ⟨line, hl⟩
      · exact ih rest l hl

/-- C28. Line splitting in `compressFile`: for every input `s`, the calls of
`compressLine` that `compressFile` makes are those for the lines of `s`, each
followed by a newline, one call after the other on the output of the one
before, and these lines are as many whatever the number of iterations beyond
the length of `s` the loop is allowed; concatenated, they equal `s` when `s`
is empty or ends with a newline, and `s` followed by one extra newline when
`s` is non-empty and does not end with a newline. -/
theorem C28_line_splitting (s : Str) :
    (linesFed (s.length + 1) (getline s)).flatten =
      (if s = [] ∨ s.getLast? = some '\n' then s else s ++ ['\n']) ∧
    (∀ l ∈ linesFed (s.length + 1) (getline s), ∃ line, l = line ++ ['\n']) ∧
    (∀ fuel, s.length < fuel → linesFed fuel (getline s) = linesFed (s.length + 1) (getline s)) ∧
    (∀ header encodingMap, compressFile s header encodingMap =
      (linesFed (s.length + 1) (getline s)).foldlM
        (fun output line => compressLine line encodingMap output)
        [OutCall.writeHeader (header ++ ['\n'])]) := by
  refine ⟨?_, linesFed_lines _ s, fun fuel h => linesFed_fuel _ _ s h (by omega), ?_⟩
  · rw [linesFed_flatten _ s (by omega)]
    by_cases h : s = [] ∨ s.getLast? = some '\n'
    · rw [if_pos h]
      rcases h with h | h
      · rw [h]
        rfl
      · exact fedText_of_getLast s h
    · rw [if_neg h]
      exact fedText_of_getLast_ne s (fun hs => h (Or.inl hs)) (fun hl => h (Or.inr hl))
  · intro header encodingMap
    unfold compressFile
    simp only
    exact compressFileLoop_eq_foldlM encodingMap _ _ _

/-- C28, at the input `a`, newline, `b`: the lines fed are `a` and `b`, each
with its newline. -/
theorem C28_line_splitting_witness :
    linesFed 4 (getline ['a', '\n', 'b']) = [['a', '\n'], ['b', '\n']] ∧
    linesFed 7 (getline ['a', '\n', 'b']) =
      linesFed (['a', '\n', 'b'].length + 1) (getline ['a', '\n', 'b']) ∧
    (linesFed (['a', '\n', 'b'].length + 1) (getline ['a', '\n', 'b'])).flatten =
      (if ['a', '\n', 'b'] = [] ∨ ['a', '\n', 'b'].getLast? = some '\n' then ['a', '\n', 'b']
        else ['a', '\n', 'b'] ++ ['\n']) :=
  ⟨by decide, (C28_line_splitting ['a', '\n', 'b']).2.2.1 7 (by decide),
    (C28_line_splitting ['a', '\n', 'b']).1⟩

/-! ## Bounds of the accesses of header parsing -/

theorem charAtChecked_eq (h : Str) (i : Nat) (hi : i < h.length) :
    charAtChecked h i = some (charAt h i) := by
  simp [charAtChecked, charAt, List.getD_eq_getElem?_getD, List.getElem?_eq_getElem hi]

theorem substrChecked_eq (s : Str) (pos : Nat) (count : Int) (hpos : pos ≤ s.length)
    (hcount : 0 ≤ count) : substrChecked s pos count = some (substr s pos count) := by
  have h1 : ¬ count < 0 := by omega
  simp [substrChecked, substr, hpos, hcount, h1]

theorem isBeginLeaf_true (h : Str) (i : Nat) (hb : isBeginLeaf h i = true) :
    i + 2 < h.length ∧ charAt h i = '(' ∧ charAt h (i + 2) = '.' := by
  unfold isBeginLeaf at hb
  by_cases h1 : i + 2 < h.length
  · simp only [h1, if_true, Bool.and_eq_true, beq_iff_eq] at hb
    exact ⟨h1, hb.1, hb.2⟩
  · simp [h1] at hb

theorem isEndLeaf_true (h : Str) (j : Nat) (he : isEndLeaf h j = true) :
    charAt h j = ')' ∧ (j + 1 = h.length ∨ (j + 1 < h.length ∧ charAt h (j + 1) = '(')) := by
  unfold isEndLeaf at he
  by_cases h1 : (charAt h j == ')' && j + 1 == h.length) = true
  · simp only [Bool.and_eq_true, beq_iff_eq] at h1
    exact ⟨h1.1, Or.inl h1.2⟩
  · have h1f := Bool.eq_false_iff.mpr h1
    simp only [h1f, Bool.false_eq_true, if_false] at he
    by_cases h2 : j + 1 < h.length
    · simp only [h2, if_true, Bool.and_eq_true, beq_iff_eq] at he
      exact ⟨he.1, Or.inr ⟨h2, he.2⟩⟩
    · simp [h2] at he

/-- The end of a record that begins at `i` is found at `i + 3` at the
earliest. -/
theorem end_after_begin (h : Str) (i j : Nat) (hb : isBeginLeaf h i = true) (hij : i ≤ j)
    (he : isEndLeaf h j = true) : i + 3 ≤ j := by
  obtain ⟨hlen, h0, h2⟩ := isBeginLeaf_true h i hb
  obtain ⟨hj, hnext⟩ := isEndLeaf_true h j he
  by_contra hlt
  have hcases : j = i ∨ j = i + 1 ∨ j = i + 2 := by omega
  rcases hcases with rfl | rfl | rfl
  · rw [h0] at hj
    exact absurd hj (by decide)
  · rcases hnext with hn | ⟨_, hn⟩
    · omega
    · rw [show i + 1 + 1 = i + 2 from rfl, h2] at hn
      exact absurd hn (by decide)
  · rw [h2] at hj
    exact absurd hj (by decide)

theorem isBeginLeafChecked_eq (h : Str) (i : Nat) :
    isBeginLeafChecked h i = some (isBeginLeaf h i) := by
  unfold isBeginLeafChecked isBeginLeaf
  by_cases h1 : i + 2 < h.length
  · simp only [h1, if_true]
    rw [charAtChecked_eq h i (by omega), charAtChecked_eq h (i + 2) h1]
    by_cases h2 : charAt h i = '('
    · simp [h2]
    · simp [h2]
  · simp [h1]

theorem isEndLeafChecked_eq (h : Str) (j : Nat) (hj : j < h.length) :
    isEndLeafChecked h j = some (isEndLeaf h j) := by
  unfold isEndLeafChecked isEndLeaf
  rw [charAtChecked_eq h j hj]
  by_cases h1 : (charAt h j == ')' && j + 1 == h.length) = true
  · simp [h1]
  · have h1f := Bool.eq_false_iff.mpr h1
    simp only [h1f, Bool.false_eq_true, if_false]
    by_cases h2 : j + 1 < h.length
    · simp only [h2, if_true]
      rw [charAtChecked_eq h (j + 1) h2]
      by_cases h3 : charAt h j = ')'
      · simp [h3]
      · simp [h3]
    · simp [h2]

theorem getEncodingCountLoopChecked_eq (h : Str) (l : List Nat) (count : Nat) :
    getEncodingCountLoopChecked h l count =
      some (l.foldl (fun count i => if isBeginLeaf h i then count + 1 else count) count) := by
  induction l generalizing count with
  | nil => rfl
  | cons i rest ih =>
    rw [getEncodingCountLoopChecked, isBeginLeafChecked_eq]
    simp only [List.foldl_cons]
    exact ih _

theorem getDecodedCharLoopChecked_eq (h : Str) (index : Nat) (l : List Nat) (leafCount : Nat)
    (hl : ∀ i ∈ l, i < h.length) :
    getDecodedCharLoopChecked h index l leafCount =
      some (getDecodedCharLoop h index l leafCount) := by
  induction l generalizing leafCount with
  | nil => rfl
  | cons i rest ih =>
    have hi : i < h.length := hl i (List.mem_cons_self _ _)
    have hrest : ∀ i ∈ rest, i < h.length := fun x hx => hl x (List.mem_cons_of_mem _ hx)
    rw [getDecodedCharLoopChecked, substrChecked_eq h i 4 (by omega) (by decide),
      isBeginLeafChecked_eq, getDecodedCharLoop]
    simp only
    by_cases hb : isBeginLeaf h i = true
    · by_cases hc : (leafCount == index) = true
      · simp only [hb, hc, Bool.and_self, if_true]
        exact charAtChecked_eq h (i + 1) (by have := (isBeginLeaf_true h i hb).1; omega)
      · simp only [hb, hc, Bool.true_and, if_true, if_false]
        exact ih _ hrest
    · simp only [hb, Bool.false_and, if_false]
      simp only [Bool.false_eq_true, if_false]
      exact ih _ hrest

theorem getDecodedPathInnerChecked_eq (h : Str) (i : Nat) (hb : isBeginLeaf h i = true)
    (l : List Nat) (hl : ∀ j ∈ l, i ≤ j ∧ j < h.length) :
    getDecodedPathInnerChecked h i l = some (getDecodedPathInner h i l) := by
  induction l with
  | nil => rfl
  | cons j rest ih =>
    obtain ⟨hij, hj⟩ := hl j (List.mem_cons_self _ _)
    have hrest : ∀ j ∈ rest, i ≤ j ∧ j < h.length := fun x hx => hl x (List.mem_cons_of_mem _ hx)
    rw [getDecodedPathInnerChecked, isEndLeafChecked_eq h j hj, getDecodedPathInner]
    by_cases he : isEndLeaf h j = true
    · have h3 := end_after_begin h i j hb hij he
      simp only [he, if_true]
      rw [substrChecked_eq h (i + 3) _ (by omega) (by omega)]
    · have he' : isEndLeaf h j = false := by simpa using he
      simp only [he', Bool.false_eq_true, if_false]
      exact ih hrest

theorem getDecodedPathLoopChecked_eq (h : Str) (index : Nat) (l : List Nat) (leafCount : Nat)
    (hl : ∀ i ∈ l, i < h.length) :
    getDecodedPathLoopChecked h index l leafCount =
      some (getDecodedPathLoop h index l leafCount) := by
  induction l generalizing leafCount with
  | nil => rfl
  | cons i rest ih =>
    have hi : i < h.length := hl i (List.mem_cons_self _ _)
    have hrest : ∀ i ∈ rest, i < h.length := fun x hx => hl x (List.mem_cons_of_mem _ hx)
    rw [getDecodedPathLoopChecked, substrChecked_eq h i 4 (by omega) (by decide),
      isBeginLeafChecked_eq, getDecodedPathLoop]
    simp only
    by_cases hb : isBeginLeaf h i = true
    · by_cases hc : (leafCount == index) = true
      · simp only [hb, hc, Bool.and_self, if_true]
        rw [getDecodedPathInnerChecked_eq h i hb _ (by
          intro j hj
          rw [List.mem_range'_1] at hj
          omega)]
        cases getDecodedPathInner h i (List.range' i (h.length - i)) with
        | none => exact ih _ hrest
        | some decodedPath => rfl
      · simp only [hb, hc, Bool.true_and, if_true, if_false]
        simp only [Bool.false_eq_true, if_false]
        exact ih _ hrest
    · simp only [hb, Bool.false_and, if_false]
      simp only [Bool.false_eq_true, if_false]
      exact ih _ hrest

/-- C29. Bounds safety of header parsing: for every string `h` and index `k`,
`getEncodingCount`, `getDecodedChar` and `getDecodedPath`, run with every
access to `h` checked, complete with the results of the functions and so
never index `h` out of range; and whenever a record begins at `i` and an end
of record is found at `j >= i`, as in the inner loop of `getDecodedPath`, then
`j >= i + 3`, so that the substring `h[i+3 .. j)` that is extracted has the
length `j - (i + 3)`, which is not negative, and lies inside `h`. -/
theorem C29_bounds_safety (h : Str) (k : Nat) :
    getEncodingCountChecked h = some (getEncodingCount h) ∧
    getDecodedCharChecked h k = some (getDecodedChar h k) ∧
    getDecodedPathChecked h k = some (getDecodedPath h k) ∧
    (∀ i j, isBeginLeaf h i = true → i ≤ j → j < h.length → isEndLeaf h j = true →
      i + 3 ≤ j ∧
      substrChecked h (i + 3) ((j : Int) - ((i + 3 : Nat) : Int)) =
        some (substr h (i + 3) ((j : Int) - ((i + 3 : Nat) : Int))) ∧
      (substr h (i + 3) ((j : Int) - ((i + 3 : Nat) : Int))).length = j - (i + 3)) := by
  have hrange : ∀ i ∈ List.range h.length, i < h.length := fun i hi => List.mem_range.mp hi
  refine ⟨getEncodingCountLoopChecked_eq h _ 0, getDecodedCharLoopChecked_eq h k _ 0 hrange,
    getDecodedPathLoopChecked_eq h k _ 0 hrange, ?_⟩
  intro i j hb hij hj he
  have h3 := end_after_begin h i j hb hij he
  refine ⟨h3, substrChecked_eq h (i + 3) _ (by omega) (by omega), ?_⟩
  have hn : ¬ ((j : Int) - ((i + 3 : Nat) : Int) < 0) := by omega
  have hto : ((j : Int) - ((i + 3 : Nat) : Int)).toNat = j - (i + 3) := by omega
  simp only [substr, hn, if_false, hto, List.length_take, List.length_drop]
  omega

/-- C29, at the header `(a.0)(b.10)` and its second record, which begins at
`5` and ends at `10`. -/
theorem C29_bounds_safety_witness :
    isBeginLeaf "(a.0)(b.10)".toList 5 = true ∧ isEndLeaf "(a.0)(b.10)".toList 10 = true ∧
    getDecodedPathChecked "(a.0)(b.10)".toList 1 = some ['1', '0'] ∧
    5 + 3 ≤ 10 ∧
    substrChecked "(a.0)(b.10)".toList (5 + 3) (((10 : Nat) : Int) - ((5 + 3 : Nat) : Int)) =
      some (substr "(a.0)(b.10)".toList (5 + 3) (((10 : Nat) : Int) - ((5 + 3 : Nat) : Int))) ∧
    (substr "(a.0)(b.10)".toList (5 + 3) (((10 : Nat) : Int) - ((5 + 3 : Nat) : Int))).length =
      10 - (5 + 3) :=
  ⟨by decide, by decide, by decide,
    (C29_bounds_safety "(a.0)(b.10)".toList 1).2.2.2 5 10 (by decide) (by decide) (by decide)
      (by decide)⟩

/-! ## Bounds of the code lengths -/

theorem isFull_depth_lt (t : HuffmanNode) (h : t.isFull = true) :
    ∀ e ∈ leafPaths t, e.2.length + 1 ≤ (leafPaths t).length := by
  induction t with
  | nil => simp [HuffmanNode.isFull] at h
  | node ch zero one ihz iho =>
    by_cases hleaf : (zero.isNull && one.isNull) = true
    · intro e he
      simp only [leafPaths, hleaf, if_true, List.mem_singleton] at he ⊢
      rw [he]
      simp
    · have hleaf' : (zero.isNull && one.isNull) = false := by simpa using hleaf
      simp only [HuffmanNode.isFull, hleaf', Bool.false_or, Bool.and_eq_true] at h
      have hz := leafPaths_ne_nil_of_isFull zero h.1.2
      have ho := leafPaths_ne_nil_of_isFull one h.2
      have hzl : 1 ≤ (leafPaths zero).length := List.length_pos.mpr hz
      have hol : 1 ≤ (leafPaths one).length := List.length_pos.mpr ho
      intro e he
      simp only [leafPaths, hleaf', Bool.false_eq_true, if_false, List.mem_append, List.mem_map,
        List.length_append, List.length_map] at he ⊢
      rcases he with ⟨e1, he1, rfl⟩ | ⟨e1, he1, rfl⟩
      · have := ihz h.1.2 e1 he1
        simp only [List.length_cons]
        omega
      · have := iho h.2 e1 he1
        simp only [List.length_cons]
        omega

/-- C30. Code length bounds: for every frequency table with `n >= 2` symbols,
`buildEncodingTree` returns a tree, and every path in the encoding map of that
tree consists only of the characters `'0'` and `'1'` and has length at least
`1` and at most `n - 1`. -/
theorem C30_code_length (freqTable : Map Char Nat) (h2 : 2 ≤ freqTable.length) :
    ∃ t, buildEncodingTree freqTable = some t ∧
      (∀ c p, (c, p) ∈ buildEncodingMap t →
        (∀ x ∈ p, x = '0' ∨ x = '1') ∧ 1 ≤ p.length ∧ p.length ≤ freqTable.length - 1) ∧
      (∀ k ∈ Map.keys (buildEncodingMap t),
        (∀ x ∈ Map.get (buildEncodingMap t) k, x = '0' ∨ x = '1') ∧
          1 ≤ (Map.get (buildEncodingMap t) k).length ∧
          (Map.get (buildEncodingMap t) k).length ≤ freqTable.length - 1) := by
  have hne : freqTable ≠ [] := by
    intro h
    rw [h] at h2
    simp at h2
  obtain ⟨t, ht, hfull, hperm⟩ := buildEncodingTree_spec freqTable hne
  have hlen : (leafPaths t).length = freqTable.length := by
    have := hperm.length_eq
    simpa [leafSymbols, Map.keys] using this
  have hleaf : ∀ e ∈ leafPaths t,
      (∀ x ∈ e.2, x = '0' ∨ x = '1') ∧ 1 ≤ e.2.length ∧ e.2.length ≤ freqTable.length - 1 := by
    intro e he
    refine ⟨leafPaths_bits t e he, ?_, ?_⟩
    · have := isFull_paths_ne_nil t hfull (by simp only [leafSymbols, List.length_map]; omega) e he
      exact List.length_pos.mpr this
    · have := isFull_depth_lt t hfull e he
      omega
  refine ⟨t, ht, ?_, ?_⟩
  · intro c p hmem
    exact hleaf (c, p) (buildEncodingMap_mem_leafPaths t (c, p) hmem).1
  · intro k hk
    exact hleaf _ (buildEncodingMap_get_mem t k hk)

/-- C30, at the table `a:4, b:2, c:1`, where the paths have the lengths `1`,
`2` and `2`: both bounds are attained. -/
theorem C30_code_length_witness :
    2 ≤ ([('a', 4), ('b', 2), ('c', 1)] : Map Char Nat).length ∧
    (buildEncodingTree [('a', 4), ('b', 2), ('c', 1)]).map buildEncodingMap =
      some [('a', ['1']), ('b', ['0', '1']), ('c', ['0', '0'])] ∧
    ∃ t, buildEncodingTree [('a', 4), ('b', 2), ('c', 1)] = some t ∧
      (∀ c p, (c, p) ∈ buildEncodingMap t →
        (∀ x ∈ p, x = '0' ∨ x = '1') ∧ 1 ≤ p.length ∧
          p.length ≤ ([('a', 4), ('b', 2), ('c', 1)] : Map Char Nat).length - 1) ∧
      (∀ k ∈ Map.keys (buildEncodingMap t),
        (∀ x ∈ Map.get (buildEncodingMap t) k, x = '0' ∨ x = '1') ∧
          1 ≤ (Map.get (buildEncodingMap t) k).length ∧
          (Map.get (buildEncodingMap t) k).length ≤
            ([('a', 4), ('b', 2), ('c', 1)] : Map Char Nat).length - 1) :=
  ⟨by decide, by decide, C30_code_length [('a', 4), ('b', 2), ('c', 1)] (by decide)⟩
/-! ## Colliding records: the last one wins -/

theorem nodeSymbols_orFresh (t : HuffmanNode) (x : Char) (hx : x ∈ nodeSymbols t.orFresh) :
    x = DEFAULT_NODE_CHAR ∨ x ∈ nodeSymbols t := by
  cases t with
  | nil =>
    left
    simpa [HuffmanNode.orFresh, HuffmanNode.join, nodeSymbols] using hx
  | node ch zero one => exact Or.inr hx

theorem pruneAt_nil (p : Str) : pruneAt HuffmanNode.nil p = HuffmanNode.nil := by
  cases p <;> rfl

theorem nodeSymbols_pruneAt_orFresh (t : HuffmanNode) (p : Str) (x : Char)
    (hx : x ∈ nodeSymbols (pruneAt t.orFresh p)) :
    x = DEFAULT_NODE_CHAR ∨ x ∈ nodeSymbols (pruneAt t p) := by
  cases t with
  | nil =>
    left
    cases p with
    | nil => simp [pruneAt, nodeSymbols] at hx
    | cons c rest =>
      by_cases hc : c = '0'
      · simpa [HuffmanNode.orFresh, HuffmanNode.join, pruneAt, hc, pruneAt_nil, nodeSymbols]
          using hx
      · simpa [HuffmanNode.orFresh, HuffmanNode.join, pruneAt, hc, pruneAt_nil, nodeSymbols]
          using hx
  | node ch zero one => exact Or.inr hx

/-- Placing a leaf brings no other characters into a tree than that of the
leaf and the sentinel of the nodes created on the way. -/
theorem nodeSymbols_recreateLeaf (t : HuffmanNode) (key : Char) (path : Str) (x : Char)
    (hx : x ∈ nodeSymbols (recreateLeaf t key path)) :
    x = key ∨ x = DEFAULT_NODE_CHAR ∨ x ∈ nodeSymbols t := by
  induction path generalizing t with
  | nil =>
    rw [recreateLeaf_nil_path] at hx
    exact Or.inr (Or.inr hx)
  | cons c rest ih =>
    cases t with
    | nil => simp [recreateLeaf, nodeSymbols] at hx
    | node ch zero one =>
      have hplace : ∀ child : HuffmanNode, x ∈ nodeSymbols (place child key rest) →
          x = key ∨ x = DEFAULT_NODE_CHAR ∨ x ∈ nodeSymbols child := by
        intro child hc
        cases hrest : rest with
        | nil =>
          rw [hrest] at hc
          left
          simpa [place, HuffmanNode.leaf, nodeSymbols] using hc
        | cons d r =>
          rw [hrest] at hc
          have hc1 : x ∈ nodeSymbols (recreateLeaf child.orFresh key rest) := by
            rw [hrest]
            exact hc
          rcases ih _ hc1 with h | h | h
          · exact Or.inl h
          · exact Or.inr (Or.inl h)
          · rcases nodeSymbols_orFresh child x h with h | h
            · exact Or.inr (Or.inl h)
            · exact Or.inr (Or.inr h)
      rw [recreateLeaf_node] at hx
      by_cases hc : c = '0'
      · simp only [hc, if_true, nodeSymbols, List.mem_cons, List.mem_append] at hx ⊢
        rcases hx with h | h | h
        · exact Or.inr (Or.inr (Or.inl h))
        · rcases hplace zero h with h | h | h
          · exact Or.inl h
          · exact Or.inr (Or.inl h)
          · exact Or.inr (Or.inr (Or.inr (Or.inl h)))
        · exact Or.inr (Or.inr (Or.inr (Or.inr h)))
      · simp only [hc, if_false, nodeSymbols, List.mem_cons, List.mem_append] at hx ⊢
        rcases hx with h | h | h
        · exact Or.inr (Or.inr (Or.inl h))
        · exact Or.inr (Or.inr (Or.inr (Or.inl h)))
        · rcases hplace one h with h | h | h
          · exact Or.inl h
          · exact Or.inr (Or.inl h)
          · exact Or.inr (Or.inr (Or.inr (Or.inr h)))

/-- Placing a leaf brings its character into the part of a tree that is
outside a position only when the leaf has another path than that position. -/
theorem nodeSymbols_pruneAt_recreateLeaf (t : HuffmanNode) (key : Char) (path p : Str)
    (x : Char) (hx : x ∈ nodeSymbols (pruneAt (recreateLeaf t key path) p)) :
    (x = key ∧ path ≠ p) ∨ x = DEFAULT_NODE_CHAR ∨ x ∈ nodeSymbols (pruneAt t p) := by
  induction path generalizing t p with
  | nil =>
    rw [recreateLeaf_nil_path] at hx
    exact Or.inr (Or.inr hx)
  | cons c rest ih =>
    cases t with
    | nil => simp [recreateLeaf, pruneAt_nil, nodeSymbols] at hx
    | node ch zero one =>
      cases p with
      | nil => simp [pruneAt, nodeSymbols] at hx
      | cons d prest =>
        have hplace : ∀ child : HuffmanNode,
            x ∈ nodeSymbols (pruneAt (place child key rest) prest) →
            (x = key ∧ rest ≠ prest) ∨ x = DEFAULT_NODE_CHAR ∨
              x ∈ nodeSymbols (pruneAt child prest) := by
          intro child hc
          cases hrest : rest with
          | nil =>
            rw [hrest] at hc
            cases prest with
            | nil => simp [pruneAt, nodeSymbols] at hc
            | cons e r =>
              left
              refine ⟨?_, by simp⟩
              by_cases he : e = '0'
              · simpa [place, HuffmanNode.leaf, pruneAt, he, pruneAt_nil, nodeSymbols] using hc
              · simpa [place, HuffmanNode.leaf, pruneAt, he, pruneAt_nil, nodeSymbols] using hc
          | cons e r =>
            rw [hrest] at hc
            have hc1 : x ∈ nodeSymbols (pruneAt (recreateLeaf child.orFresh key rest) prest) := by
              rw [hrest]
              exact hc
            rcases ih _ _ hc1 with h | h | h
            · exact Or.inl ⟨h.1, by rw [← hrest]; exact h.2⟩
            · exact Or.inr (Or.inl h)
            · rcases nodeSymbols_pruneAt_orFresh child prest x h with h | h
              · exact Or.inr (Or.inl h)
              · exact Or.inr (Or.inr h)
        have hplain : ∀ child : HuffmanNode, x ∈ nodeSymbols (place child key rest) →
            x = key ∨ x = DEFAULT_NODE_CHAR ∨ x ∈ nodeSymbols child := by
          intro child hc
          cases hrest : rest with
          | nil =>
            rw [hrest] at hc
            left
            simpa [place, HuffmanNode.leaf, nodeSymbols] using hc
          | cons e r =>
            rw [hrest] at hc
            have hc1 : x ∈ nodeSymbols (recreateLeaf child.orFresh key rest) := by
              rw [hrest]
              exact hc
            rcases nodeSymbols_recreateLeaf _ _ _ _ hc1 with h | h | h
            · exact Or.inl h
            · exact Or.inr (Or.inl h)
            · rcases nodeSymbols_orFresh child x h with h | h
              · exact Or.inr (Or.inl h)
              · exact Or.inr (Or.inr h)
        rw [recreateLeaf_node] at hx
        by_cases hc : c = '0'
        · by_cases hd : d = '0'
          · simp only [hc, hd, if_true, pruneAt, nodeSymbols, List.mem_cons, List.mem_append]
              at hx ⊢
            rcases hx with h | h | h
            · exact Or.inr (Or.inr (Or.inl h))
            · rcases hplace zero h with h | h | h
              · exact Or.inl ⟨h.1, fun hh => h.2 (List.cons.inj hh).2⟩
              · exact Or.inr (Or.inl h)
              · exact Or.inr (Or.inr (Or.inr (Or.inl h)))
            · exact Or.inr (Or.inr (Or.inr (Or.inr h)))
          · simp only [hc, hd, if_true, if_false, pruneAt, nodeSymbols, List.mem_cons,
              List.mem_append] at hx ⊢
            rcases hx with h | h | h
            · exact Or.inr (Or.inr (Or.inl h))
            · rcases hplain zero h with h | h | h
              · exact Or.inl ⟨h, fun hh => hd (List.cons.inj hh).1.symm⟩
              · exact Or.inr (Or.inl h)
              · exact Or.inr (Or.inr (Or.inr (Or.inl h)))
            · exact Or.inr (Or.inr (Or.inr (Or.inr h)))
        · by_cases hd : d = '0'
          · simp only [hc, hd, if_true, if_false, pruneAt, nodeSymbols, List.mem_cons,
              List.mem_append] at hx ⊢
            rcases hx with h | h | h
            · exact Or.inr (Or.inr (Or.inl h))
            · exact Or.inr (Or.inr (Or.inr (Or.inl h)))
            · rcases hplain one h with h | h | h
              · exact Or.inl ⟨h, fun hh => hc (List.cons.inj hh).1⟩
              · exact Or.inr (Or.inl h)
              · exact Or.inr (Or.inr (Or.inr (Or.inr h)))
          · simp only [hc, hd, if_false, pruneAt, nodeSymbols, List.mem_cons, List.mem_append]
              at hx ⊢
            rcases hx with h | h | h
            · exact Or.inr (Or.inr (Or.inl h))
            · exact Or.inr (Or.inr (Or.inr (Or.inl h)))
            · rcases hplace one h with h | h | h
              · exact Or.inl ⟨h.1, fun hh => h.2 (List.cons.inj hh).2⟩
              · exact Or.inr (Or.inl h)
              · exact Or.inr (Or.inr (Or.inr (Or.inr h)))

theorem nodeSymbols_split (t : HuffmanNode) (p : Str) (x : Char) (hx : x ∈ nodeSymbols t) :
    x ∈ nodeSymbols (pruneAt t p) ∨ x ∈ nodeSymbols (subtreeAt t p) := by
  induction p generalizing t with
  | nil =>
    right
    cases t <;> simpa [subtreeAt] using hx
  | cons c rest ih =>
    cases t with
    | nil => simp [nodeSymbols] at hx
    | node ch zero one =>
      by_cases hc : c = '0'
      · simp only [pruneAt, subtreeAt, hc, if_true, nodeSymbols, List.mem_cons, List.mem_append]
          at hx ⊢
        rcases hx with h | h | h
        · exact Or.inl (Or.inl h)
        · rcases ih zero h with h | h
          · exact Or.inl (Or.inr (Or.inl h))
          · exact Or.inr h
        · exact Or.inl (Or.inr (Or.inr h))
      · simp only [pruneAt, subtreeAt, hc, if_false, nodeSymbols, List.mem_cons, List.mem_append]
          at hx ⊢
        rcases hx with h | h | h
        · exact Or.inl (Or.inl h)
        · exact Or.inl (Or.inr (Or.inl h))
        · rcases ih one h with h | h
          · exact Or.inl (Or.inr (Or.inr h))
          · exact Or.inr h

theorem leafSymbols_subset_nodeSymbols (t : HuffmanNode) (x : Char) (hx : x ∈ leafSymbols t) :
    x ∈ nodeSymbols t := by
  induction t with
  | nil => simp [leafSymbols, leafPaths] at hx
  | node ch zero one ihz iho =>
    by_cases hleaf : (zero.isNull && one.isNull) = true
    · simp only [leafSymbols, leafPaths, hleaf, if_true, List.map_cons, List.map_nil,
        List.mem_singleton] at hx
      simp [nodeSymbols, hx]
    · have hleaf1 := Bool.eq_false_iff.mpr hleaf
      simp only [leafSymbols, leafPaths, hleaf1, Bool.false_eq_true, if_false, List.map_append,
        List.map_map, List.mem_append, List.mem_map, Function.comp] at hx
      simp only [nodeSymbols, List.mem_cons, List.mem_append]
      rcases hx with ⟨e, he, rfl⟩ | ⟨e, he, rfl⟩
      · exact Or.inr (Or.inl (ihz (List.mem_map.mpr ⟨e, he, rfl⟩)))
      · exact Or.inr (Or.inr (iho (List.mem_map.mpr ⟨e, he, rfl⟩)))

/-- The records of a list bring into the part of a tree that is outside a
position `p` no character `a` that is held by no record, save by records with
the path `p` itself. -/
theorem pruneAt_recreateFold_free (entries : List (Char × Str)) (a : Char) (p : Str)
    (ha : a ≠ DEFAULT_NODE_CHAR) (hfree : ∀ e ∈ entries, e.1 = a → e.2 = p)
    (root : HuffmanNode) (hroot : a ∉ nodeSymbols (pruneAt root p)) :
    a ∉ nodeSymbols (pruneAt (recreateFold root entries) p) := by
  induction entries generalizing root with
  | nil => exact hroot
  | cons e entries ih =>
    have hstep : recreateFold root (e :: entries) =
        recreateFold (recreateLeaf root e.1 e.2) entries := rfl
    rw [hstep]
    apply ih (fun x hx => hfree x (List.mem_cons_of_mem _ hx))
    intro hmem
    rcases nodeSymbols_pruneAt_recreateLeaf root e.1 e.2 p a hmem with h | h | h
    · exact h.2 (hfree e (List.mem_cons_self _ _) h.1.symm)
    · exact ha h
    · exact hroot h

/-- The records of a list bring into a tree no character that none of them
holds. -/
theorem nodeSymbols_recreateFold_free (entries : List (Char × Str)) (a : Char)
    (ha : a ≠ DEFAULT_NODE_CHAR) (hfree : ∀ e ∈ entries, e.1 ≠ a)
    (root : HuffmanNode) (hroot : a ∉ nodeSymbols root) :
    a ∉ nodeSymbols (recreateFold root entries) := by
  induction entries generalizing root with
  | nil => exact hroot
  | cons e entries ih =>
    have hstep : recreateFold root (e :: entries) =
        recreateFold (recreateLeaf root e.1 e.2) entries := rfl
    rw [hstep]
    apply ih (fun x hx => hfree x (List.mem_cons_of_mem _ hx))
    intro hmem
    rcases nodeSymbols_recreateLeaf root e.1 e.2 a hmem with h | h | h
    · exact hfree e (List.mem_cons_self _ _) h.symm
    · exact ha h
    · exact hroot h

/-- A childless node found at a position reached by `'0'` and `'1'` steps is a
leaf of the tree, with that position as its route. -/
theorem leafPaths_of_subtreeAt (t : HuffmanNode) (p : Str) (b : Char)
    (hp : ∀ c ∈ p, c = '0' ∨ c = '1') (h : subtreeAt t p = HuffmanNode.leaf b) :
    (b, p) ∈ leafPaths t := by
  induction p generalizing t with
  | nil =>
    simp only [subtreeAt] at h
    rw [h]
    simp [HuffmanNode.leaf, leafPaths, HuffmanNode.isNull]
  | cons c rest ih =>
    cases t with
    | nil => simp [subtreeAt, HuffmanNode.leaf] at h
    | node ch zero one =>
      have hrest : ∀ x ∈ rest, x = '0' ∨ x = '1' := fun x hx => hp x (List.mem_cons_of_mem _ hx)
      rcases hp c (List.mem_cons_self _ _) with hc | hc
      · subst hc
        simp only [subtreeAt, if_true] at h
        have hz : zero.isNull = false := by
          cases zero with
          | nil => simp [subtreeAt_nil, HuffmanNode.leaf] at h
          | node _ _ _ => rfl
        simp only [leafPaths, hz, Bool.false_and, Bool.false_eq_true, if_false, List.mem_append,
          List.mem_map]
        exact Or.inl ⟨(b, rest), ih zero hrest h, rfl⟩
      · subst hc
        have h10 : ¬ ('1' = '0') := by decide
        simp only [subtreeAt, h10, if_false] at h
        have ho : one.isNull = false := by
          cases one with
          | nil => simp [subtreeAt_nil, HuffmanNode.leaf] at h
          | node _ _ _ => rfl
        simp only [leafPaths, ho, Bool.and_false, Bool.false_eq_true, if_false, List.mem_append,
          List.mem_map]
        exact Or.inr ⟨(b, rest), ih one hrest h, rfl⟩

/-- C31 (amended). Colliding records, last one wins: for every header made of
records with paths of `'0'` and `'1'` in which two records have the same
non-empty path `p` and different symbols other than NUL, `a` in the earlier and
`b` in the later one, in which `a` is the symbol of no other record, and in
which no record after that of `b` has a path that is a prefix of `p` or has
`p` as a prefix, `recreateTreeFromHeader` returns a tree in which the node at
position `p` is the leaf of `b`, and `buildEncodingMap` of that tree has an
entry for `b` and no entry for `a`. -/
theorem C31_last_one_wins (first between last : List (Char × Str)) (a b : Char) (p : Str)
    (hp : p ≠ []) (hpb : ∀ c ∈ p, c = '0' ∨ c = '1')
    (hab : a ≠ b) (ha : a ≠ DEFAULT_NODE_CHAR) (hb : b ≠ DEFAULT_NODE_CHAR)
    (hfirst : ∀ e ∈ first, e.1 ≠ a ∧ ∀ c ∈ e.2, c = '0' ∨ c = '1')
    (hbetween : ∀ e ∈ between, e.1 ≠ a ∧ ∀ c ∈ e.2, c = '0' ∨ c = '1')
    (hlast : ∀ e ∈ last, e.1 ≠ a ∧ ∀ c ∈ e.2, c = '0' ∨ c = '1')
    (hother : ∀ e ∈ last, ¬ (e.2 <+: p) ∧ ¬ (p <+: e.2)) :
    subtreeAt
        (recreateTreeFromHeader (headerOf (first ++ (a, p) :: (between ++ (b, p) :: last)))) p
      = HuffmanNode.leaf b ∧
    b ∈ Map.keys (buildEncodingMap
      (recreateTreeFromHeader (headerOf (first ++ (a, p) :: (between ++ (b, p) :: last))))) ∧
    a ∉ Map.keys (buildEncodingMap
      (recreateTreeFromHeader (headerOf (first ++ (a, p) :: (between ++ (b, p) :: last))))) := by
  have hsplit : first ++ (a, p) :: (between ++ (b, p) :: last) =
      (first ++ (a, p) :: between) ++ (b, p) :: last := by simp
  have hbefore : ∀ e ∈ first ++ (a, p) :: between, ∀ c ∈ e.2, c = '0' ∨ c = '1' := by
    intro e he
    rcases List.mem_append.mp he with h | h
    · exact (hfirst e h).2
    · rcases List.mem_cons.mp h with rfl | h
      · exact hpb
      · exact (hbetween e h).2
  have hwin := recreate_last_wins (first ++ (a, p) :: between) last b p hp hpb hbefore
    (fun e he => (hlast e he).2) hother
  rw [← hsplit] at hwin
  refine ⟨hwin, ?_, ?_⟩
  · rw [buildEncodingMap_mem_keys]
    exact ⟨List.mem_map.mpr ⟨(b, p), leafPaths_of_subtreeAt _ p b hpb hwin, rfl⟩, hb⟩
  · rw [buildEncodingMap_mem_keys]
    rintro ⟨hleaf, _⟩
    have hnode := leafSymbols_subset_nodeSymbols _ a hleaf
    have hbits : ∀ e ∈ (first ++ (a, p) :: between) ++ (b, p) :: last,
        ∀ c ∈ e.2, c = '0' ∨ c = '1' := by
      intro e he
      rcases List.mem_append.mp he with h | h
      · exact hbefore e h
      · rcases List.mem_cons.mp h with rfl | h
        · exact hpb
        · exact (hlast e h).2
    rw [hsplit, recreateTreeFromHeader_headerOf _ hbits, recreateFold_append] at hnode
    have hstep : ∀ r : HuffmanNode, recreateFold r ((b, p) :: last) =
        recreateFold (recreateLeaf r b p) last := fun _ => rfl
    rw [hstep] at hnode
    revert hnode
    apply nodeSymbols_recreateFold_free last a ha (fun e he => (hlast e he).1)
    intro hmem
    have hroot : (recreateFold (HuffmanNode.join HuffmanNode.nil HuffmanNode.nil)
        (first ++ (a, p) :: between)).isNull = false := recreateFold_isNull _ _ rfl
    rcases nodeSymbols_split _ p a hmem with h | h
    · revert h
      have hstep1 : recreateLeaf (recreateFold (HuffmanNode.join HuffmanNode.nil HuffmanNode.nil)
          (first ++ (a, p) :: between)) b p =
          recreateFold (HuffmanNode.join HuffmanNode.nil HuffmanNode.nil)
            ((first ++ (a, p) :: between) ++ [(b, p)]) := by
        simp only [recreateFold, List.foldl_append, List.foldl_cons, List.foldl_nil]
      rw [hstep1]
      apply pruneAt_recreateFold_free _ a p ha
      · intro e he hea
        rcases List.mem_append.mp he with h | h
        · rcases List.mem_append.mp h with h | h
          · exact absurd hea (hfirst e h).1
          · rcases List.mem_cons.mp h with rfl | h
            · rfl
            · exact absurd hea (hbetween e h).1
        · rw [List.mem_singleton] at h
          rw [h]
      · intro hmem0
        have hsub : ∀ x ∈ nodeSymbols (pruneAt (HuffmanNode.join HuffmanNode.nil HuffmanNode.nil) p),
            x = DEFAULT_NODE_CHAR := by
          intro x hx
          have := nodeSymbols_pruneAt_orFresh HuffmanNode.nil p x hx
          simpa [pruneAt_nil, nodeSymbols] using this
        exact ha (hsub a hmem0)
    · rw [subtreeAt_recreateLeaf_same _ b p hroot hp] at h
      simp only [HuffmanNode.leaf, nodeSymbols, List.append_nil, List.mem_singleton] at h
      exact hab h

/-- C31 (amended), at the header `(a.0)(c.00)(b.0)(d.1)`. -/
theorem C31_last_one_wins_witness :
    headerOf ([] ++ ('a', ['0']) :: ([('c', ['0', '0'])] ++ ('b', ['0']) :: [('d', ['1'])])) =
      "(a.0)(c.00)(b.0)(d.1)".toList ∧
    subtreeAt (recreateTreeFromHeader (headerOf
        ([] ++ ('a', ['0']) :: ([('c', ['0', '0'])] ++ ('b', ['0']) :: [('d', ['1'])])))) ['0']
      = HuffmanNode.leaf 'b' ∧
    'b' ∈ Map.keys (buildEncodingMap (recreateTreeFromHeader (headerOf
      ([] ++ ('a', ['0']) :: ([('c', ['0', '0'])] ++ ('b', ['0']) :: [('d', ['1'])]))))) ∧
    'a' ∉ Map.keys (buildEncodingMap (recreateTreeFromHeader (headerOf
      ([] ++ ('a', ['0']) :: ([('c', ['0', '0'])] ++ ('b', ['0']) :: [('d', ['1'])]))))) :=
  ⟨by decide,
    C31_last_one_wins [] [('c', ['0', '0'])] [('d', ['1'])] 'a' 'b' ['0'] (by decide) (by decide)
      (by decide) (by decide) (by decide) (by decide) (by decide) (by decide) (by decide)⟩

/-- C31 (as stated) fails: the header `(a.0)(b.0)(a.1)` holds the records of
`a` and, later, of `b` with the same path `0`, and the encoding map of the tree
returned has an entry for `a`, from its other record; the header
`(a.0)(b.0)(c.0)` holds them too, and the leaf at position `0` of the tree
returned holds `c`, not `b`. -/
theorem C31_counterexample :
    buildEncodingMap (recreateTreeFromHeader "(a.0)(b.0)(a.1)".toList) =
      [('a', ['1']), ('b', ['0'])] ∧
    'a' ∈ Map.keys (buildEncodingMap (recreateTreeFromHeader "(a.0)(b.0)(a.1)".toList)) ∧
    subtreeAt (recreateTreeFromHeader "(a.0)(b.0)(c.0)".toList) ['0'] = HuffmanNode.leaf 'c' := by
  refine ⟨?_, ?_, ?_⟩ <;> decide

end Huffman
